import Mathlib

/-!
# The `SavedVis` state model of `_saved_vis.js`

A shallow embedding of
`src/kibana/apps/visualize/saved_visualizations/_saved_vis.js`: the config-list
operations `addConfig`, `removeConfig`, `_fillConfigsToMinimum`, `setState`,
`getState`, the slot initialiser `_initConfigCategory`, the hook `afterESResp`
and the callback it passes to `.aggs(...)`.

Modelling conventions.

* A JavaScript object is an association list from property names to values.
  `Obj.get` is property read, `Obj.set` is property write (overwrite in place,
  or append a new key).  Two objects are the same mapping when `Obj.get` agrees
  on every key.  An association list holds the own properties.  Of what an
  object inherits from `Object.prototype` the model follows the two things the
  code can meet: a write `o[k] = v` with the key `__proto__` creates no own
  property (`Obj.put`), and a read `state[name]` of a name not among the own
  properties finds the member of `Object.prototype` of that name, when there is
  one (`readState`).
* A config is a heap object; its identity is the field `ref` (an allocation
  counter `Vis.nextRef` hands out fresh identities).  `===` on configs is
  equality of `ref`.
* A thrown exception is the result `none`; every operation also returns the
  visualization as it stands when the exception is thrown.
* The registry module `_config_categories` is not part of the sources: the
  array `configCats` and its `fetchOrder` are parameters (`Registry`).  So are
  the type definitions of `_type_defs`, the list `vis.getConfig()` returns
  (`_read_config`), the outcome of `JSON.parse`, and what the heap holds
  behind a reference (`JsEnv`).
* In the `aggs` callback the variable `current` aliases an object nested in
  `dsl`; it is kept as the property path from `dsl` to that object, and a write
  through it is a write at that path (`Dsl.setAt`).
* `afterESResp` is followed through the `.then` callback of the parent promise,
  for a parent that resolves.
-/

namespace SavedVis

/-- A property value: a primitive, or a reference to a nested heap object
(copied by reference by `_.defaults`, `_.assign` and `_.pick`). -/
inductive Val where
  | null
  | bool (b : Bool)
  | num (n : Int)
  | str (s : String)
  | ref (addr : Nat)
  deriving DecidableEq, Repr

/-- A JavaScript object with values in `β`: keys in insertion order. -/
abbrev Obj (β : Type) := List (String × β)

namespace Obj

/-- Property read `o[k]`; `none` is `undefined`. -/
def get {β : Type} : Obj β → String → Option β
  | [], _ => none
  | (k', v) :: rest, k => if k' = k then some v else get rest k

/-- Property write `o[k] = v`. -/
def set {β : Type} : Obj β → String → β → Obj β
  | [], k, v => [(k, v)]
  | (k', v') :: rest, k, v =>
    if k' = k then (k', v) :: rest else (k', v') :: set rest k v

/-- In-place mutation of the object stored under `k` (nothing when absent). -/
def modify {β : Type} (o : Obj β) (k : String) (f : β → β) : Obj β :=
  match get o k with
  | some x => set o k (f x)
  | none => o

/-- Own enumerable keys `Object.keys(o)`. -/
def keys {β : Type} (o : Obj β) : List String := o.map Prod.fst

/-- The assignment `o[k] = v` on an object that inherits from `Object.prototype`: for the
key `__proto__` the inherited setter runs instead of a write, so no own property is
created or changed (the setter replaces the prototype when `v` is an object or `null` and
does nothing for any other `v`); for every other key it is the property write. -/
def put {β : Type} (o : Obj β) (k : String) (v : β) : Obj β :=
  if k = "__proto__" then o else set o k v

end Obj

/-- A config record (also the shape of `configDefaults` and of one entry of a
serialized state). -/
abbrev Record := Obj Val

/-- The lodash call `_.assign(dst, src)`: for each own key of `src`, `dst[key] = src[key]`. -/
def assign (dst src : Record) : Record :=
  (Obj.keys src).foldl
    (fun acc key => match Obj.get src key with
      | some v => Obj.put acc key v
      | none => acc) dst

/-- The lodash call `_.defaults(dst, src)`: for each own key of `src`, `dst[key] = src[key]`
when `dst[key]` is undefined. -/
def defaults (dst src : Record) : Record :=
  (Obj.keys src).foldl
    (fun acc key => match Obj.get acc key, Obj.get src key with
      | none, some v => Obj.set acc key v
      | _, _ => acc) dst

/-- The lodash call `_.pick(o, callback)`: starting from `result = {}`, for each key of
`o` that passes `callback`, `result[key] = o[key]`. -/
def pick (o : Record) (callback : String → Bool) : Record :=
  (Obj.keys o).foldl
    (fun result key => match Obj.get o key with
      | some v => if callback key then Obj.put result key v else result
      | none => result) []

/-- The callback of `getState`: `key.substring(0, 2) !== '$$'`. -/
def notReserved (key : String) : Bool :=
  key.data.take 2 != ['$', '$']

/-- One entry of `configCats`. -/
structure Category where
  name : String
  min : Nat
  configDefaults : Record
  deriving DecidableEq, Repr

/-- The registry `configCats`: the array itself (`all`, iterated by `configCats.forEach`)
and `configCats.fetchOrder`. -/
structure Registry where
  all : List Category
  fetchOrder : List Category
  deriving DecidableEq, Repr

/-- Modelled from the spec: the index `configCats.byName` of the registry module
`_config_categories` (not among the sources), "byName(name) -> Category | fails with
NotFound": the registered category of that name, `none` (JavaScript `undefined`) when
there is none. -/
def Registry.byName (reg : Registry) (name : String) : Option Category :=
  reg.all.find? (fun c => c.name = name)

/-- A config instance: its identity and its fields. -/
structure Config where
  ref : Nat
  fields : Record
  deriving DecidableEq, Repr

/-- The object `vis[category.name]` installed by `_initConfigCategory`. -/
structure CatState where
  min : Nat
  configDefaults : Record
  configs : List Config
  deriving DecidableEq, Repr

/-- The visualization: the category slots `vis[name]` and the allocation counter. -/
structure Vis where
  nextRef : Nat
  cats : Obj CatState
  deriving DecidableEq, Repr

/-- The slot `vis[name]`. -/
def Vis.slot (vis : Vis) (name : String) : Option CatState := Obj.get vis.cats name

/-- A serialized state `{ [categoryName]: [record, ...] }`, as `getState` builds it. -/
abbrev FlatState := Obj (List Record)

/-- A property value of the argument of `setState`: an array of records of its own
(`records`); the live array `vis[name].configs` of the visualization the call is made on
(`configsOf name`), as in `vis.setState({ metric: vis.metric.configs })`; a falsy value
(`undefined`, `null`, `false`, `0`, `""`); or any other truthy value, which has no method
`forEach` (`other`). -/
inductive StateValue where
  | records (entries : List Record)
  | configsOf (name : String)
  | falsy
  | other
  deriving DecidableEq, Repr

/-- The argument of `setState`: an object whose prototype is `Object.prototype` (an object
literal, or what `JSON.parse` returns for an object), as its own properties. -/
abbrev StateArg := Obj StateValue

/-- The names of the members of `Object.prototype`, which every such object inherits. Each
is a function, except `__proto__`, which reads as `Object.prototype` itself: all are truthy
and none is an array. -/
def objectPrototypeKeys : List String :=
  ["constructor", "toString", "toLocaleString", "valueOf", "hasOwnProperty",
   "isPrototypeOf", "propertyIsEnumerable", "__proto__", "__defineGetter__",
   "__defineSetter__", "__lookupGetter__", "__lookupSetter__"]

/-- The read `state[name]`: the own property when there is one, else the member of
`Object.prototype` of that name, else `undefined`. -/
def readState (state : StateArg) (name : String) : StateValue :=
  match Obj.get state name with
  | some v => v
  | none => if name ∈ objectPrototypeKeys then .other else .falsy

/-- The result `flat` of `getState()` passed as the argument of `setState`: its own
properties are arrays of records of its own, and its prototype is `Object.prototype` as
long as no category is named `__proto__`. -/
def FlatState.toArg (flat : FlatState) : StateArg :=
  flat.map (fun entry => (entry.1, StateValue.records entry.2))

/-- `list.forEach(body)` over categories, where `body` may throw. -/
def forEachCat (body : Category → Vis → Option Unit × Vis) :
    List Category → Vis → Option Unit × Vis
  | [], vis => (some (), vis)
  | category :: rest, vis =>
    match body category vis with
    | (some _, vis1) => forEachCat body rest vis1
    | (none, vis1) => (none, vis1)

/-- `vis.addConfig(categoryName)`. -/
def addConfig (reg : Registry) (vis : Vis) (categoryName : String) : Option Config × Vis :=
  match reg.byName categoryName with
  | none => (none, vis)
  | some category =>
    let config : Config := ⟨vis.nextRef, defaults [] category.configDefaults⟩
    let vis1 : Vis := { vis with nextRef := vis.nextRef + 1 }
    match vis1.slot category.name with
    | none => (none, vis1)
    | some _ =>
      let cats := Obj.modify vis1.cats category.name
        (fun cat => { cat with configs := cat.configs ++ [config] })
      (some config, { vis1 with cats := cats })

/-- `_.pull(configs, config)`: drop every element identical to `config`. -/
def pull (configs : List Config) (ref : Nat) : List Config :=
  configs.filter (fun c => c.ref != ref)

/-- `vis.removeConfig(config)`; the argument is `none` for a falsy value (`null`,
`undefined`), else the identity of the object passed. -/
def removeConfig (reg : Registry) (vis : Vis) (config : Option Nat) : Option Unit × Vis :=
  match config with
  | none => (some (), vis)
  | some ref =>
    forEachCat (fun category v =>
      match v.slot category.name with
      | none => (none, v)
      | some _ =>
        let cats := Obj.modify v.cats category.name
          (fun cat => { cat with configs := pull cat.configs ref })
        (some (), { v with cats := cats })) reg.all vis

/-- `_.times(n, function () { vis.addConfig(name); })`. -/
def timesAddConfig (reg : Registry) (name : String) : Nat → Vis → Option Unit × Vis
  | 0, vis => (some (), vis)
  | n + 1, vis =>
    match addConfig reg vis name with
    | (some _, vis1) => timesAddConfig reg name n vis1
    | (none, vis1) => (none, vis1)

/-- The body of the loop of `_fillConfigsToMinimum`. -/
def fillCategory (reg : Registry) (category : Category) (vis : Vis) : Option Unit × Vis :=
  match vis.slot category.name with
  | none => (none, vis)
  | some myCat =>
    if myCat.configs.length < myCat.min then
      timesAddConfig reg category.name (myCat.min - myCat.configs.length) vis
    else (some (), vis)

/-- `vis._fillConfigsToMinimum()`. -/
def _fillConfigsToMinimum (reg : Registry) (vis : Vis) : Option Unit × Vis :=
  forEachCat (fillCategory reg) reg.fetchOrder vis

/-- The effect of `_.assign(config, configState)` on the visualization: the object
`config` is mutated wherever it is referenced. -/
def assignConfig (vis : Vis) (ref : Nat) (configState : Record) : Vis :=
  { vis with cats := vis.cats.map (fun entry =>
      (entry.1, { entry.2 with configs := entry.2.configs.map (fun c =>
        if c.ref = ref then { c with fields := assign c.fields configState } else c) })) }

/-- `categoryStates.forEach(function (configState) { ... })` in `setState`. -/
def addConfigStates (reg : Registry) (name : String) : List Record → Vis → Option Unit × Vis
  | [], vis => (some (), vis)
  | configState :: rest, vis =>
    match addConfig reg vis name with
    | (some config, vis1) => addConfigStates reg name rest (assignConfig vis1 config.ref configState)
    | (none, vis1) => (none, vis1)

/-- The configs of the slot `vis[name]`, as the records `_.assign` copies from (none for a
name that has no slot). -/
def liveRecords (vis : Vis) (name : String) : List Record :=
  match vis.slot name with
  | some cat => cat.configs.map Config.fields
  | none => []

/-- The body of the loop of `setState`. -/
def setCategoryState (reg : Registry) (state : StateArg) (category : Category) (vis : Vis) :
    Option Unit × Vis :=
  -- var categoryStates = state[category.name] || [];
  let categoryStates : StateValue :=
    match readState state category.name with
    | .falsy => .records []
    | value => value
  -- vis[category.name].configs.splice(0);
  match vis.slot category.name with
  | none => (none, vis)
  | some _ =>
    let cats := Obj.modify vis.cats category.name (fun cat => { cat with configs := [] })
    let vis1 : Vis := { vis with cats := cats }
    -- categoryStates.forEach(function (configState) { ... });
    match categoryStates with
    | .records entries => addConfigStates reg category.name entries vis1
    | .configsOf name => addConfigStates reg category.name (liveRecords vis1 name) vis1
    | _ => (none, vis1)

/-- `vis.setState(state)`. -/
def setState (reg : Registry) (vis : Vis) (state : StateArg) : Option Unit × Vis :=
  match forEachCat (setCategoryState reg state) reg.all vis with
  | (some _, vis1) => _fillConfigsToMinimum reg vis1
  | (none, vis1) => (none, vis1)

/-- The loop of `_.transform(configCats, ..., {})` in `getState`, `state` the accumulator:
`state[category.name] = [...]` for each category. -/
def getStateFrom (vis : Vis) : List Category → FlatState → Option FlatState
  | [], state => some state
  | category :: rest, state =>
    match vis.slot category.name with
    | none => none
    | some cat =>
      getStateFrom vis rest
        (Obj.put state category.name (cat.configs.map (fun config => pick config.fields notReserved)))

/-- `vis.getState()`. -/
def getState (reg : Registry) (vis : Vis) : Option FlatState :=
  getStateFrom vis reg.all []

/-! ## The `aggs` callback of `afterESResp` -/

/-- A value of the query DSL the `aggs` callback builds, as a tree of own properties: a
primitive value (`none` is `undefined`), or an object, which is either an object literal
the callback creates or the object a config's property refers to. -/
inductive Dsl where
  | leaf (v : Option Val)
  | node (fields : List (String × Dsl))

/-- What the callback reads from the JavaScript heap and from number formatting: the
object behind a reference, as the tree of its own properties; the string conversion of
that object; and the string conversion of a number that is not a safe integer. -/
structure JsEnv where
  object : Nat → Dsl
  objectKey : Nat → String
  numberKey : Int → String

/-- The property key `o[v]` is written under: the string conversion of `v`.  For a string
it is the string itself; for an integer of magnitude at most `2^53` it is the decimal. -/
def propertyKey (env : JsEnv) : Option Val → String
  | none => "undefined"
  | some .null => "null"
  | some (.bool b) => if b then "true" else "false"
  | some (.num n) => if n.natAbs ≤ 9007199254740992 then toString n else env.numberKey n
  | some (.str s) => s
  | some (.ref addr) => env.objectKey addr

/-- Truthiness of a property value, as tested by `||`. -/
def Val.truthy : Val → Bool
  | .null => false
  | .bool b => b
  | .num n => n != 0
  | .str s => s != ""
  | .ref _ => true

/-- Truthiness of a DSL value: `undefined` is falsy, an object is truthy. -/
def Dsl.truthy : Dsl → Bool
  | .leaf none => false
  | .leaf (some v) => v.truthy
  | .node _ => true

/-- Read through a pointer: the value reached from `root` along the property path `path`
(`none` when a property on the way is missing). -/
def Dsl.at : Dsl → List String → Option Dsl
  | d, [] => some d
  | .node fields, p :: ps =>
    match Obj.get fields p with
    | some child => Dsl.at child ps
    | none => none
  | .leaf _, _ :: _ => none

/-- Write through a pointer: `target[k] = v`, where `target` is the object reached from
`root` along the property path `path`. -/
def Dsl.setAt : Dsl → List String → String → Dsl → Dsl
  | .node fields, [], k, v => .node (Obj.set fields k v)
  | .node fields, p :: ps, k, v =>
    .node (Obj.modify fields p (fun child => Dsl.setAt child ps k v))
  | .leaf x, _, _, _ => .leaf x

/-- The variables of the `aggs` callback: the object `dsl`, the counter `i`, and the
pointer `current`, kept as the property path from `dsl` to the object it points to (the
objects of `dsl` are all created by the callback and none is shared). -/
structure AggsLoop where
  dsl : Dsl
  i : Nat
  current : List String

/-- The body of `vis.getConfig().forEach(function (config) { ... })` in the callback. -/
def aggsStep (env : JsEnv) (s : AggsLoop) (config : Config) : AggsLoop :=
  -- current.aggs = {};
  let dsl1 := s.dsl.setAt s.current "aggs" (.node [])
  -- var key = '_agg_' + (i++);
  let key := "_agg_" ++ toString s.i
  -- var aggDsl = {}; aggDsl[config.agg] = config.aggParams;
  let aggParams : Dsl :=
    match Obj.get config.fields "aggParams" with
    | some (.ref addr) => env.object addr
    | value => .leaf value
  let aggDsl : Obj Dsl := Obj.put [] (propertyKey env (Obj.get config.fields "agg")) aggParams
  -- current = current.aggs[key] = aggDsl;
  let dsl2 := dsl1.setAt (s.current ++ ["aggs"]) key (.node aggDsl)
  { dsl := dsl2, i := s.i + 1, current := s.current ++ ["aggs", key] }

/-- The callback passed to `.aggs(...)`, on the list `configs` returned by `vis.getConfig()`
(the module `_read_config` is not among the sources): it returns `dsl.aggs || {}`. -/
def aggsCallback (env : JsEnv) (configs : List Config) : Dsl :=
  let final := configs.foldl (aggsStep env) { dsl := .node [], i := 0, current := [] }
  match final.dsl.at ["aggs"] with
  | some aggs => if aggs.truthy then aggs else .node []
  | none => .node []

/-! ## `afterESResp` -/

/-- An entry `typeDef.config[categoryName]` of a type definition: the overrides that
`_.assign(cat, category, ...)` copies over the category's properties.  Of the properties a
category has, the operations on the slot read only `min`. -/
structure CategoryOverride where
  min : Option Nat
  deriving DecidableEq, Repr

/-- An entry of the module `_type_defs` (not among the sources); its `listeners` are
handlers keyed by event name and do not concern the category slots. -/
structure TypeDef where
  name : String
  config : Obj CategoryOverride
  deriving DecidableEq, Repr

/-- Modelled from the spec: the index `typeDefs.byName` of the module `_type_defs` (not
among the sources), "byName(typeName) -> { config, listeners } | fails with UnknownType":
the type definition of that name, `none` (JavaScript `undefined`) when there is none. -/
def typeDefByName (typeDefs : List TypeDef) (name : String) : Option TypeDef :=
  typeDefs.find? (fun t => t.name = name)

/-- What `JSON.parse(vis.stateJSON)` does, as far as `afterESResp` can tell: it throws, it
returns a falsy value (`null`, `false`, `0`, `""`), or it returns a truthy value, read by
`setState` as a serialized state. -/
inductive Parsed where
  | throws
  | falsy
  | state (st : StateArg)
  deriving DecidableEq, Repr

/-- The saved object `vis`: the persisted fields `typeName` and `stateJSON` (`none` is
`null`), the cached `typeDef`, and the category slots. -/
structure VisObject where
  typeName : String
  typeDef : Option TypeDef
  stateJSON : Option String
  vis : Vis
  deriving DecidableEq, Repr

/-- `vis._initConfigCategory(category, cat)`, with `typeDef` the value of `vis.typeDef`.
The property `cat.config` is one that no category, override or slot has, so
`cat.config || []` is a new empty array.  Without a type definition a new slot has no
`min`; it is given 0, for which the test `configs.length < min` of
`_fillConfigsToMinimum` is false as it is for `undefined`. -/
def _initConfigCategory (typeDef : Option TypeDef) (category : Category)
    (cat : Option CatState) (vis : Vis) : Vis :=
  -- cat = cat || {};
  -- if (vis.typeDef) _.assign(cat, category, vis.typeDef.config[category.name]);
  let min : Nat :=
    match typeDef with
    | some td => ((Obj.get td.config category.name).bind (fun o => o.min)).getD category.min
    | none => (cat.map (fun c => c.min)).getD 0
  -- cat.configDefaults = _.clone(category.configDefaults), cat.configs = cat.config || [];
  let cat1 : CatState := ⟨min, category.configDefaults, []⟩
  -- vis[category.name] = cat;
  { vis with cats := Obj.set vis.cats category.name cat1 }

/-- The hook `afterESResp: function setVisState() { ... }`, followed through the callback
of `promisedParent.then(...)` for a parent that resolves.  `parse` is `JSON.parse`. -/
def afterESResp (reg : Registry) (typeDefs : List TypeDef) (parse : String → Parsed)
    (self : VisObject) : Option Unit × VisObject :=
  -- if (!vis.typeDef || vis.typeName !== vis.typeDef.name) { ... }
  let refresh : Bool :=
    match self.typeDef with
    | none => true
    | some td => self.typeName != td.name
  let self1 : VisObject :=
    if refresh then
      let typeDef := typeDefByName typeDefs self.typeName
      { self with
        typeDef := typeDef
        vis := reg.all.foldl (fun vis category =>
          _initConfigCategory typeDef category (vis.slot category.name) vis) self.vis }
    else self
  -- var state; if (vis.stateJSON) try { state = JSON.parse(vis.stateJSON); } catch (e) {}
  let state : Option StateArg :=
    match self1.stateJSON with
    | none => none
    | some json =>
      if json = "" then none
      else match parse json with
        | .state st => some st
        | _ => none
  -- if (state) vis.setState(state);
  let afterSet : Option Unit × Vis :=
    match state with
    | some st => setState reg self1.vis st
    | none => (some (), self1.vis)
  match afterSet with
  | (none, vis2) => (none, { self1 with vis := vis2 })
  | (some _, vis2) =>
    -- vis._fillConfigsToMinimum();
    match _fillConfigsToMinimum reg vis2 with
    | (none, vis3) => (none, { self1 with vis := vis3 })
    | (some _, vis3) =>
      -- _.assign(vis, vis.typeDef.listeners);
      match self1.typeDef with
      | none => (none, { self1 with vis := vis3 })
      | some _ => (some (), { self1 with vis := vis3 })

/-- The object `new SavedVis({ type: typeName })` before anything is loaded into it. -/
def newVisObject (typeName : String) : VisObject :=
  { typeName := typeName, typeDef := none, stateJSON := none, vis := { nextRef := 0, cats := [] } }

/-! ## Predicates used in the statements -/

/-- The config `addConfig` creates at identity `ref` for the registered category `d`. -/
def freshConfig (d : Category) (ref : Nat) : Config := ⟨ref, defaults [] d.configDefaults⟩

/-- The visualization `vis1` is `vis` with configs appended to its slots: none outside
`names`, and in a slot named in `names` exactly as many as it lacked to its min, each a
fresh object with the registered category's defaults. -/
@[reducible]
def FilledTo (reg : Registry) (names : List String) (vis vis1 : Vis) : Prop :=
  vis.nextRef ≤ vis1.nextRef ∧
  ∀ n, (vis.slot n = none → vis1.slot n = none) ∧
    ∀ cat, vis.slot n = some cat →
      ∃ extra, vis1.slot n = some { cat with configs := cat.configs ++ extra } ∧
        (n ∉ names → extra = []) ∧
        (n ∈ names → extra.length = cat.min - cat.configs.length) ∧
        ∀ e ∈ extra, (∃ d, reg.byName n = some d ∧ e.fields = defaults [] d.configDefaults) ∧
          vis.nextRef ≤ e.ref ∧ e.ref < vis1.nextRef

/-- The slot `m` of `vis1` is the slot of `vis` up to its config list, which is the same
list when every config of the slot was allocated before `vis.nextRef`. -/
@[reducible]
def SlotKept (vis vis1 : Vis) (m : String) : Prop :=
  (vis.slot m = none → vis1.slot m = none) ∧
  ∀ catm, vis.slot m = some catm →
    ∃ cfgs, vis1.slot m = some { catm with configs := cfgs } ∧
      ((∀ cfg ∈ catm.configs, cfg.ref < vis.nextRef) → cfgs = catm.configs)

/-- The records `setState` iterates for the name `n` when `state[n]` does not depend on the
visualization: the own array, no record for a falsy value, and `none` for a live array or a
value that cannot be iterated. -/
def stateRecords (st : StateArg) (n : String) : Option (List Record) :=
  match readState st n with
  | .records entries => some entries
  | .falsy => some []
  | _ => none

/-- The visualization `vis1` is `vis` with the config list of every slot named in `names`
rebuilt from a list of records (defaults overlaid with each record), which is the list the
state `st` holds under that name when that does not depend on the visualization; the other
slots are kept. -/
@[reducible]
def RebuiltFrom (reg : Registry) (st : StateArg) (names : List String)
    (vis vis1 : Vis) : Prop :=
  vis.nextRef ≤ vis1.nextRef ∧
  ∀ n, (vis.slot n = none → vis1.slot n = none) ∧
    ∀ cat, vis.slot n = some cat →
      ∃ cfgs, vis1.slot n = some { cat with configs := cfgs } ∧
        (n ∈ names → (∀ b ∈ cfgs, b.ref < vis1.nextRef) ∧
          ∀ d, reg.byName n = some d → ∃ entries, cfgs.map Config.fields =
              entries.map (assign (defaults [] d.configDefaults)) ∧
            ∀ records, stateRecords st n = some records → entries = records) ∧
        (n ∉ names → (∀ cfg ∈ cat.configs, cfg.ref < vis.nextRef) → cfgs = cat.configs)

/-- Every registered category has its slot `vis[category.name]` (installed by
`_initConfigCategory` for each entry of `configCats`). -/
def Vis.Initialised (reg : Registry) (vis : Vis) : Prop :=
  ∀ c ∈ reg.all, (vis.slot c.name).isSome

/-- The minimum-cardinality invariant: every registered category has its slot and
`configs.length >= min` there. -/
def Vis.MinInvariant (reg : Registry) (vis : Vis) : Prop :=
  ∀ c ∈ reg.all, (vis.slot c.name).isSome ∧
    ∀ cat ∈ vis.slot c.name, cat.min ≤ cat.configs.length

instance (reg : Registry) (vis : Vis) : Decidable (vis.Initialised reg) :=
  inferInstanceAs (Decidable (∀ c ∈ reg.all, (vis.slot c.name).isSome))

instance (reg : Registry) (vis : Vis) : Decidable (vis.MinInvariant reg) :=
  inferInstanceAs (Decidable (∀ c ∈ reg.all, (vis.slot c.name).isSome ∧
    ∀ cat ∈ vis.slot c.name, cat.min ≤ cat.configs.length))

/-- A reserved key: one that starts with `$$`. -/
def ReservedKey (key : String) : Prop := ∃ rest : String, key = "$$" ++ rest

instance (key : String) : Decidable (ReservedKey key) :=
  decidable_of_iff (key.data.take 2 = ['$', '$'])
    ⟨fun h => ⟨⟨key.data.drop 2⟩, String.ext (by
        rw [String.data_append]
        conv_lhs => rw [← List.take_append_drop 2 key.data, h])⟩,
     fun ⟨rest, h⟩ => by rw [h, String.data_append]; rfl⟩

/-- The record `r` is the mapping `o` without its reserved keys: a key that does not start
with `$$` reads as in `o`, a key that does is absent. -/
def StrippedOf (r o : Record) : Prop :=
  ∀ k, Obj.get r k = if ReservedKey k then none else Obj.get o k

/-- No registered category is named `__proto__`, the name under which an object reads and
writes its prototype. -/
def Registry.PlainNames (reg : Registry) : Prop :=
  "__proto__" ∉ reg.all.map Category.name

instance (reg : Registry) : Decidable reg.PlainNames :=
  inferInstanceAs (Decidable ("__proto__" ∉ reg.all.map Category.name))

/-- No config of a registered category has an own property named `__proto__`. -/
def Vis.NoProtoFields (reg : Registry) (vis : Vis) : Prop :=
  ∀ c ∈ reg.all, ∀ cat ∈ vis.slot c.name, ∀ config ∈ cat.configs,
    "__proto__" ∉ Obj.keys config.fields

instance (reg : Registry) (vis : Vis) : Decidable (vis.NoProtoFields reg) :=
  inferInstanceAs (Decidable (∀ c ∈ reg.all, ∀ cat ∈ vis.slot c.name, ∀ config ∈ cat.configs,
    "__proto__" ∉ Obj.keys config.fields))

/-- The shape of the result of `getState()` at `vis`: the call returns an object whose
keys are exactly the registered category names; the entry of a category has one record per
config, in the same order; each record reads as the config on every key that does not start
with `$$`, and has no key that starts with `$$`. -/
def GetStateShape (reg : Registry) (vis : Vis) : Prop :=
  ∃ flat, getState reg vis = some flat ∧
    (∀ n, n ∈ Obj.keys flat ↔ n ∈ reg.all.map Category.name) ∧
    ∀ c ∈ reg.all, ∃ cat records,
      vis.slot c.name = some cat ∧ Obj.get flat c.name = some records ∧
      records.length = cat.configs.length ∧
      List.Forall₂ (fun record config =>
        StrippedOf record config.fields ∧
        ∀ k ∈ Obj.keys record, ¬ ReservedKey k) records cat.configs

/-- The entries of `st[name]` at the time `setState(st)` is called on `vis`: the records of
the array `st` holds under `name` (for a live array of `vis`, the configs it then has), and
none when `st` has no array under `name`. -/
def stateEntries (vis : Vis) (st : StateArg) (name : String) : List Record :=
  match Obj.get st name with
  | some (.records entries) => entries
  | some (.configsOf source) => liveRecords vis source
  | _ => []

/-- The result of `setState(st)` on `vis`: the call returns, and every registered
category's config list is then one config per entry of `st[category]`, in order, reading on
every key as the entry when the entry has the key and as the category's `configDefaults`
otherwise, followed by `min - (number of entries)` configs that read as `configDefaults`;
and a state with the same properties under the registered category names gives the same
result. -/
def SetStateResult (reg : Registry) (vis : Vis) (st : StateArg) : Prop :=
  (∃ vis1, setState reg vis st = (some (), vis1) ∧
    ∀ c ∈ reg.all, ∃ cat d fromState filler,
      vis.slot c.name = some cat ∧ reg.byName c.name = some d ∧
      vis1.slot c.name = some { cat with configs := fromState ++ filler } ∧
      List.Forall₂ (fun config entry =>
        ∀ k, Obj.get config.fields k = (Obj.get entry k).or (Obj.get d.configDefaults k))
        fromState (stateEntries vis st c.name) ∧
      filler.length = cat.min - (stateEntries vis st c.name).length ∧
      ∀ e ∈ filler, ∀ k, Obj.get e.fields k = Obj.get d.configDefaults k) ∧
  ∀ st1 : StateArg, (∀ c ∈ reg.all, Obj.get st1 c.name = Obj.get st c.name) →
    setState reg vis st1 = setState reg vis st

/-- Under every registered category name the state `st` holds an array of records of its
own or a falsy value, or has no property and inherits none. -/
def StateArg.ByValue (reg : Registry) (st : StateArg) : Prop :=
  ∀ c ∈ reg.all, (stateRecords st c.name).isSome

instance (reg : Registry) (st : StateArg) : Decidable (st.ByValue reg) :=
  inferInstanceAs (Decidable (∀ c ∈ reg.all, (stateRecords st c.name).isSome))

/-- No entry of `st` under a registered category name has an own property named
`__proto__`. -/
def StateArg.NoProtoEntries (reg : Registry) (st : StateArg) : Prop :=
  ∀ c ∈ reg.all, ∀ entry ∈ (stateRecords st c.name).getD [], "__proto__" ∉ Obj.keys entry

instance (reg : Registry) (st : StateArg) : Decidable (st.NoProtoEntries reg) :=
  inferInstanceAs (Decidable (∀ c ∈ reg.all, ∀ entry ∈ (stateRecords st c.name).getD [],
    "__proto__" ∉ Obj.keys entry))

/-- Under no registered category name does `state[name]` read a truthy value without a
method `forEach`. -/
def StateArg.Iterable (reg : Registry) (st : StateArg) : Prop :=
  ∀ c ∈ reg.all, readState st c.name ≠ StateValue.other

instance (reg : Registry) (st : StateArg) : Decidable (st.Iterable reg) :=
  inferInstanceAs (Decidable (∀ c ∈ reg.all, readState st c.name ≠ StateValue.other))

/-- The round trip at `vis`: `getState()` and then `setState` of its result return,
and every registered category's config list is afterwards a list of as many configs, each
the config that was at the same position stripped of its reserved keys. -/
def RoundTripPreserves (reg : Registry) (vis : Vis) : Prop :=
  ∃ flat vis1, getState reg vis = some flat ∧
    setState reg vis flat.toArg = (some (), vis1) ∧
    ∀ c ∈ reg.all, ∃ cat cat1, vis.slot c.name = some cat ∧ vis1.slot c.name = some cat1 ∧
      List.Forall₂ (fun after before => StrippedOf after.fields before.fields)
        cat1.configs cat.configs

/-- Every config of a registered category has every key of the category's
`configDefaults`. -/
def Vis.ConfigsCoverDefaults (reg : Registry) (vis : Vis) : Prop :=
  ∀ c ∈ reg.all, ∀ d ∈ reg.byName c.name, ∀ cat ∈ vis.slot c.name,
    ∀ config ∈ cat.configs, ∀ k ∈ Obj.keys d.configDefaults, (Obj.get config.fields k).isSome

instance (reg : Registry) (vis : Vis) : Decidable (vis.ConfigsCoverDefaults reg) :=
  inferInstanceAs (Decidable (∀ c ∈ reg.all, ∀ d ∈ reg.byName c.name, ∀ cat ∈ vis.slot c.name,
    ∀ config ∈ cat.configs, ∀ k ∈ Obj.keys d.configDefaults, (Obj.get config.fields k).isSome))

/-- No key of a registered `configDefaults` starts with `$$`. -/
def Registry.DefaultsUnreserved (reg : Registry) : Prop :=
  ∀ c ∈ reg.all, ∀ k ∈ Obj.keys c.configDefaults, ¬ ReservedKey k

instance (reg : Registry) : Decidable reg.DefaultsUnreserved :=
  inferInstanceAs (Decidable (∀ c ∈ reg.all, ∀ k ∈ Obj.keys c.configDefaults, ¬ ReservedKey k))

/-- The array of records a property of the state holds when `setState` is called on `vis`
(`none` for a value that is no array). -/
def StateValue.entries (vis : Vis) : StateValue → Option (List Record)
  | .records entries => some entries
  | .configsOf source => some (liveRecords vis source)
  | _ => none

/-- Two entries of serialized states, the first being the second with the reserved keys of
its records removed, as mappings; a live array of `vis` is read as `vis` has it. -/
def SameStripped (vis : Vis) : Option (List Record) → Option StateValue → Prop
  | none, none => True
  | some records, some (.records entries) => List.Forall₂ StrippedOf records entries
  | some records, some (.configsOf source) =>
    List.Forall₂ StrippedOf records (liveRecords vis source)
  | _, _ => False

/-- The left-inverse law at `st`: `setState(st)` and then `getState()` return, and the
result is `st`, as it is when `setState` is called, with the reserved keys of its records
removed, as mappings. -/
def LeftInverseAt (reg : Registry) (vis : Vis) (st : StateArg) : Prop :=
  ∃ vis1 flat, setState reg vis st = (some (), vis1) ∧ getState reg vis1 = some flat ∧
    ∀ n, SameStripped vis (Obj.get flat n) (Obj.get st n)

/-- The array of records of its own that `st` holds under the name `n`. -/
def ownRecords (st : StateArg) (n : String) : Option (List Record) :=
  match Obj.get st n with
  | some (.records entries) => some entries
  | _ => none

/-- The state `st` has exactly the registered category names as keys, none of them
`__proto__`, each holding an array of records of its own with at least `min` entries, and
every entry has every key of the category's `configDefaults` that does not start with `$$`
and no key `__proto__`. -/
def StateFits (reg : Registry) (vis : Vis) (st : StateArg) : Prop :=
  (∀ n ∈ Obj.keys st, n ∈ reg.all.map Category.name) ∧
  "__proto__" ∉ reg.all.map Category.name ∧
  (∀ c ∈ reg.all, (ownRecords st c.name).isSome) ∧
  (∀ c ∈ reg.all, ∀ cat ∈ vis.slot c.name,
    cat.min ≤ ((ownRecords st c.name).getD []).length) ∧
  (∀ c ∈ reg.all, ∀ d ∈ reg.byName c.name, ∀ entry ∈ (ownRecords st c.name).getD [],
    ∀ k ∈ Obj.keys d.configDefaults, ¬ ReservedKey k → (Obj.get entry k).isSome) ∧
  (∀ c ∈ reg.all, ∀ entry ∈ (ownRecords st c.name).getD [],
    "__proto__" ∉ Obj.keys entry)

instance (reg : Registry) (vis : Vis) (st : StateArg) : Decidable (StateFits reg vis st) :=
  inferInstanceAs (Decidable (
    (∀ n ∈ Obj.keys st, n ∈ reg.all.map Category.name) ∧
    "__proto__" ∉ reg.all.map Category.name ∧
    (∀ c ∈ reg.all, (ownRecords st c.name).isSome) ∧
    (∀ c ∈ reg.all, ∀ cat ∈ vis.slot c.name,
      cat.min ≤ ((ownRecords st c.name).getD []).length) ∧
    (∀ c ∈ reg.all, ∀ d ∈ reg.byName c.name, ∀ entry ∈ (ownRecords st c.name).getD [],
      ∀ k ∈ Obj.keys d.configDefaults, ¬ ReservedKey k → (Obj.get entry k).isSome) ∧
    (∀ c ∈ reg.all, ∀ entry ∈ (ownRecords st c.name).getD [],
      "__proto__" ∉ Obj.keys entry)))

/-- The replacement of the value reached from `root` along `path` by `new`. -/
def Dsl.replaceAt : Dsl → List String → Dsl → Dsl
  | _, [], new => new
  | .node fields, p :: ps, new =>
    .node (Obj.modify fields p (fun child => Dsl.replaceAt child ps new))
  | .leaf x, _ :: _, _ => .leaf x

/-- The key `_agg_<k>`: the string `_agg_` followed by the decimal of `k`. -/
def aggKey (k : Nat) : String := "_agg_" ++ toString k

/-- The value of a property of a config as a DSL value: the object a reference points to,
or the primitive value itself. -/
def paramsValue (env : JsEnv) : Option Val → Dsl
  | some (.ref addr) => env.object addr
  | value => .leaf value

/-- The object `aggDsl` of one iteration of the callback. -/
def aggDslOf (env : JsEnv) (config : Config) : Obj Dsl :=
  Obj.put [] (propertyKey env (Obj.get config.fields "agg"))
    (paramsValue env (Obj.get config.fields "aggParams"))

/-- The object `current` points to, once the callback has run over `configs` counting
from `i`: the closed form of the loop. -/
def nestAggs (env : JsEnv) : List Config → Nat → Obj Dsl → Obj Dsl
  | [], _, current => current
  | config :: rest, i, current =>
    Obj.set current "aggs"
      (.node [(aggKey i, .node (nestAggs env rest (i + 1) (aggDslOf env config)))])

/-- The mapping of child aggregations the callback builds for `configs` counting from
`i`: empty for no config, else the single entry `_agg_<i>`. -/
def aggsLevel (env : JsEnv) : List Config → Nat → Obj Dsl
  | [], _ => []
  | config :: rest, i => [(aggKey i, .node (nestAggs env rest (i + 1) (aggDslOf env config)))]

/-- The property path from a mapping of child aggregations numbered from `i` to the
mapping `k` levels below it: `_agg_<i>`, `aggs`, `_agg_<i+1>`, `aggs`, ... -/
def levelPathFrom (i : Nat) : Nat → List String
  | 0 => []
  | k + 1 => aggKey i :: "aggs" :: levelPathFrom (i + 1) k

/-- The property path from the value the callback returns to the node stored under
`_agg_<k>` at depth `k`. -/
def nodePath (k : Nat) : List String := levelPathFrom 0 k ++ [aggKey k]

/-- The keys of a DSL object (`none` for a value that is not an object built by the
callback). -/
def Dsl.keys : Dsl → Option (List String)
  | .node fields => some (Obj.keys fields)
  | .leaf _ => none

/-- The tree the callback returns for `configs` is a single chain of as many levels as
there are configs: with no config it is the empty mapping; for every `k` below the number
of configs the mapping at depth `k` has exactly one key, `_agg_<k>`, holding a node; there
is nothing under `_agg_<k>` at any depth `k` from the number of configs on; and the last
node has no `aggs` key. -/
def ChainOfDepth (env : JsEnv) (configs : List Config) : Prop :=
  (configs = [] → aggsCallback env configs = .node []) ∧
  (∀ k, k < configs.length → ∃ node,
    (aggsCallback env configs).at (levelPathFrom 0 k) = some (.node [(aggKey k, .node node)])) ∧
  (∀ k, configs.length ≤ k → (aggsCallback env configs).at (nodePath k) = none) ∧
  (∀ k, k + 1 = configs.length → (aggsCallback env configs).at (nodePath k ++ ["aggs"]) = none)

/-- The contents of the node at depth `k`: in the tree the callback returns for
`configs`, the node under `_agg_<k>` maps the key `name` to `params`; when `k` is not last
its keys are that key and `aggs`, which holds the single child `_agg_<k+1>`; when `k` is
last its only key is that key and it has no `aggs` key. -/
def NodeContents (env : JsEnv) (configs : List Config) (k : Nat) (name : String)
    (params : Dsl) : Prop :=
  ∃ fields, (aggsCallback env configs).at (nodePath k) = some (.node fields) ∧
    Obj.get fields name = some params ∧
    (k + 1 < configs.length →
      Obj.keys fields = [name, "aggs"] ∧
      ∃ child, Obj.get fields "aggs" = some (.node [(aggKey (k + 1), .node child)])) ∧
    (k + 1 = configs.length → Obj.keys fields = [name] ∧ Obj.get fields "aggs" = none)

/-- The saved object has no type definition cached, or one of another type than its
`typeName`: `afterESResp` then re-initialises every category slot. -/
def VisObject.NeedsRefresh (self : VisObject) : Prop :=
  ∀ old ∈ self.typeDef, self.typeName ≠ old.name

instance (self : VisObject) : Decidable self.NeedsRefresh :=
  inferInstanceAs (Decidable (∀ old ∈ self.typeDef, self.typeName ≠ old.name))

/-- Loading degrades to defaults at `self`: `afterESResp` returns, and every registered
category's config list is then as many configs as the slot's `min`, each with the fields of
the category's `configDefaults`, which is also the list of a newly created visualization of
that type after `afterESResp`. -/
def DegradesToDefaults (reg : Registry) (typeDefs : List TypeDef) (parse : String → Parsed)
    (self : VisObject) : Prop :=
  ∃ self1, afterESResp reg typeDefs parse self = (some (), self1) ∧
    ∀ c ∈ reg.all, ∃ cat d, self1.vis.slot c.name = some cat ∧ reg.byName c.name = some d ∧
      cat.configs.map Config.fields = List.replicate cat.min (defaults [] d.configDefaults) ∧
      ((afterESResp reg typeDefs parse (newVisObject self.typeName)).2.vis.slot c.name).map
          (fun fresh => fresh.configs.map Config.fields)
        = some (cat.configs.map Config.fields)

/-! ## A concrete registry and visualization -/

/-- The registry used in the examples: `metric` (min 1) and `segment` (min 0). -/
def exampleReg : Registry :=
  let metric : Category := ⟨"metric", 1, [("agg", .str "count")]⟩
  let segment : Category := ⟨"segment", 0, [("size", .num 5)]⟩
  { all := [metric, segment], fetchOrder := [segment, metric] }

/-- A visualization over `exampleReg` with one config in each category. -/
def exampleVis : Vis :=
  { nextRef := 2
    cats := [("metric", ⟨1, [("agg", .str "count")], [⟨0, [("agg", .str "avg"), ("$$hashKey", .num 7)]⟩]⟩),
             ("segment", ⟨0, [("size", .num 5)], [⟨1, [("size", .num 5), ("agg", .str "terms")]⟩]⟩)] }

/-- A visualization over `exampleReg` whose two configs have the same field values. -/
def twinVis : Vis :=
  { nextRef := 2
    cats := [("metric", ⟨1, [("agg", .str "count")], [⟨0, [("agg", .str "count")]⟩]⟩),
             ("segment", ⟨0, [("size", .num 5)], [⟨1, [("agg", .str "count")]⟩]⟩)] }

/-- The state `exampleVis` after `removeConfig` of its only `metric` config. -/
def belowMinVis : Vis := (removeConfig exampleReg exampleVis (some 0)).2

/-- A visualization over `exampleReg` whose `metric` config lacks the default key `agg`. -/
def sparseVis : Vis :=
  { nextRef := 1
    cats := [("metric", ⟨1, [("agg", .str "count")], [⟨0, [("field", .str "bytes")]⟩]⟩),
             ("segment", ⟨0, [("size", .num 5)], []⟩)] }

/-- A registry whose `metric` defaults contain a reserved key. -/
def reservedReg : Registry :=
  let metric : Category := ⟨"metric", 1, [("$$id", .num 0)]⟩
  { all := [metric], fetchOrder := [metric] }

/-- A visualization over `reservedReg` with one `metric` config. -/
def reservedVis : Vis :=
  { nextRef := 1
    cats := [("metric", ⟨1, [("$$id", .num 0)], [⟨0, [("$$id", .num 0), ("agg", .str "avg")]⟩]⟩)] }

/-- A registry whose only category is named `constructor`. -/
def ctorReg : Registry :=
  let category : Category := ⟨"constructor", 1, [("agg", .str "count")]⟩
  { all := [category], fetchOrder := [category] }

/-- A visualization over `ctorReg` with one config. -/
def ctorVis : Vis :=
  { nextRef := 1
    cats := [("constructor", ⟨1, [("agg", .str "count")], [⟨0, [("agg", .str "avg")]⟩]⟩)] }

/-- A visualization over `exampleReg` whose `metric` config has an own property named
`__proto__`. -/
def protoFieldVis : Vis :=
  { nextRef := 1
    cats := [("metric", ⟨1, [("agg", .str "count")],
                [⟨0, [("agg", .str "avg"), ("__proto__", .num 1)]⟩]⟩),
             ("segment", ⟨0, [("size", .num 5)], []⟩)] }

/-- A registry with a category named `__proto__`. -/
def protoReg : Registry :=
  let category : Category := ⟨"__proto__", 0, []⟩
  { all := [category], fetchOrder := [category] }

/-- A visualization over `protoReg` with no config. -/
def protoVis : Vis :=
  { nextRef := 0, cats := [("__proto__", ⟨0, [], []⟩)] }

/-- A state whose `metric` entry has an own property named `__proto__`, as `JSON.parse`
creates one. -/
def protoEntryState : StateArg :=
  [("metric", .records [[("agg", .str "avg"), ("__proto__", .num 1)]]),
   ("segment", .records [])]

/-- A state whose `metric` property is the live array `vis.metric.configs`. -/
def aliasState : StateArg :=
  [("metric", .configsOf "metric"), ("segment", .records [])]

/-- The heap used in the examples: the object at 7 is `{ field: 'p7' }`, the object at 10
is `{ _agg_1: { terms: undefined } }`, every other object is empty and every object
converts to `[object Object]`; the number `1e21` converts to `1e+21` (the conversion of the
other numbers that are not safe integers is a stand-in). -/
def exampleEnv : JsEnv :=
  { object := fun addr =>
      if addr = 7 then .node [("field", .leaf (some (.str "p7")))]
      else if addr = 10 then .node [("_agg_1", .node [("terms", .leaf none)])]
      else .node []
    objectKey := fun _ => "[object Object]"
    numberKey := fun n => if n = 1000000000000000000000 then "1e+21" else toString n }

/-- A config whose aggregation type is named `aggs`. -/
def aggsNamedConfig : Config := ⟨0, [("agg", .str "aggs"), ("aggParams", .ref 7)]⟩

/-- A config whose aggregation type is named `aggs` and whose parameters look like a level
of the tree. -/
def nestedParamsConfig : Config := ⟨4, [("agg", .str "aggs"), ("aggParams", .ref 10)]⟩

/-- A config whose aggregation type is named `__proto__`. -/
def protoNamedConfig : Config := ⟨3, [("agg", .str "__proto__"), ("aggParams", .num 1)]⟩

/-- A `count` config. -/
def countConfig : Config := ⟨1, [("agg", .str "count"), ("aggParams", .ref 8)]⟩

/-- A `terms` config. -/
def termsConfig : Config := ⟨2, [("agg", .str "terms"), ("aggParams", .ref 9)]⟩

/-- A list of configs whose property `agg` is, in turn: the string `aggs`, missing, `null`,
`true`, `false`, the number `-5`, the number `1e21`, an object, and the string `count`. -/
def keyedConfigs : List Config :=
  [aggsNamedConfig,
   ⟨5, [("aggParams", .null)]⟩,
   ⟨6, [("agg", .null)]⟩,
   ⟨7, [("agg", .bool true)]⟩,
   ⟨8, [("agg", .bool false)]⟩,
   ⟨9, [("agg", .num (-5))]⟩,
   ⟨10, [("agg", .num 1000000000000000000000)]⟩,
   ⟨11, [("agg", .ref 7)]⟩,
   countConfig]

/-- The type definitions used in the examples: `histogram` raises the min of `segment`
to 1. -/
def exampleTypeDefs : List TypeDef :=
  [⟨"histogram", [("segment", ⟨some 1⟩)]⟩]

/-- A stand-in for `JSON.parse` on the strings of the examples: `{}` parses to the empty
state, everything else (such as `{not json`) throws. -/
def exampleParse (json : String) : Parsed :=
  if json = "\x7b\x7d" then .state [] else .throws

/-- A `histogram` visualization that was loaded before (its `typeDef` is set, its slots
hold the configs edited since), whose persisted `stateJSON` is now malformed. -/
def loadedObject : VisObject :=
  { typeName := "histogram", typeDef := some ⟨"histogram", [("segment", ⟨some 1⟩)]⟩,
    stateJSON := some "\x7bnot json"
    vis :=
      { nextRef := 2
        cats := [("metric", ⟨1, [("agg", .str "count")], [⟨0, [("agg", .str "avg")]⟩]⟩),
                 ("segment", ⟨1, [("size", .num 5)],
                    [⟨1, [("size", .num 5), ("agg", .str "terms")]⟩]⟩)] } }

/-- A visualization of an unregistered type with a malformed `stateJSON`. -/
def unknownTypeObject : VisObject :=
  { typeName := "bogus", typeDef := none, stateJSON := some "\x7bnot json",
    vis := { nextRef := 0, cats := [] } }

/-- A `histogram` visualization not loaded yet (no `typeDef`), with leftover slots and a
malformed `stateJSON`. -/
def unloadedObject : VisObject :=
  { typeName := "histogram", typeDef := none, stateJSON := some "\x7bnot json", vis := exampleVis }

/-! ## Objects as mappings -/

theorem Obj.get_set {β : Type} (o : Obj β) (k k' : String) (v : β) :
    Obj.get (Obj.set o k v) k' = if k = k' then some v else Obj.get o k' := by
  induction o with
  | nil => simp [Obj.set, Obj.get]
  | cons e rest ih =>
    obtain ⟨a, b⟩ := e
    by_cases h : a = k
    · subst h
      by_cases h2 : a = k' <;> simp [Obj.set, Obj.get, h2]
    · by_cases h2 : a = k'
      · subst h2
        simp [Obj.set, Obj.get, h, Ne.symm h]
      · simp [Obj.set, Obj.get, h, h2, ih]

theorem Obj.get_modify {β : Type} (o : Obj β) (k k' : String) (f : β → β) :
    Obj.get (Obj.modify o k f) k' = if k = k' then (Obj.get o k).map f else Obj.get o k' := by
  unfold Obj.modify
  cases h : Obj.get o k with
  | none =>
    by_cases h2 : k = k'
    · subst h2; simp [h]
    · simp [h2]
  | some x =>
    simp only [Obj.get_set, Option.map_some']

theorem Obj.get_map {β : Type} (o : Obj β) (g : β → β) (k : String) :
    Obj.get (o.map (fun entry => (entry.1, g entry.2))) k = (Obj.get o k).map g := by
  induction o with
  | nil => simp [Obj.get]
  | cons e rest ih =>
    by_cases h : e.1 = k <;> simp [Obj.get, h, ih]

theorem Obj.get_eq_none_iff {β : Type} (o : Obj β) (k : String) :
    Obj.get o k = none ↔ k ∉ Obj.keys o := by
  induction o with
  | nil => simp [Obj.get, Obj.keys]
  | cons e rest ih =>
    by_cases h : e.1 = k
    · simp [Obj.get, Obj.keys, h]
    · simp only [Obj.get, h, if_false, ih, Obj.keys, List.map_cons, List.mem_cons, not_or]
      constructor
      · intro h2; exact ⟨Ne.symm h, h2⟩
      · intro h2; exact h2.2

theorem Obj.get_put {β : Type} (o : Obj β) (k k' : String) (v : β) :
    Obj.get (Obj.put o k v) k'
      = if k = "__proto__" then Obj.get o k' else if k = k' then some v else Obj.get o k' := by
  unfold Obj.put
  by_cases hk : k = "__proto__"
  · simp only [hk, if_true]
  · simp only [hk, if_false, Obj.get_set]

theorem Obj.put_of_ne {β : Type} (o : Obj β) (k : String) (v : β) (hk : k ≠ "__proto__") :
    Obj.put o k v = Obj.set o k v := by
  unfold Obj.put
  rw [if_neg hk]

theorem Obj.get_mapVal {β γ : Type} (o : Obj β) (g : β → γ) (k : String) :
    Obj.get (o.map (fun entry => (entry.1, g entry.2))) k = (Obj.get o k).map g := by
  induction o with
  | nil => rfl
  | cons e rest ih =>
    simp only [List.map_cons, Obj.get]
    by_cases h : e.1 = k
    · simp [h]
    · simp [h, ih]

theorem get_pick_keys (o : Record) (p : String → Bool) (ks : List String) (acc : Record)
    (k : String) :
    Obj.get (ks.foldl
      (fun result key => match Obj.get o key with
        | some v => if p key then Obj.put result key v else result
        | none => result) acc) k
      = if k ∈ ks ∧ p k = true ∧ k ≠ "__proto__" ∧ (Obj.get o k).isSome then Obj.get o k
        else Obj.get acc k := by
  induction ks generalizing acc with
  | nil => simp
  | cons a rest ih =>
    rw [List.foldl_cons, ih]
    by_cases hin : k ∈ rest ∧ p k = true ∧ k ≠ "__proto__" ∧ (Obj.get o k).isSome
    · have hin2 : k ∈ a :: rest ∧ p k = true ∧ k ≠ "__proto__" ∧ (Obj.get o k).isSome :=
        ⟨List.mem_cons_of_mem _ hin.1, hin.2⟩
      rw [if_pos hin, if_pos hin2]
    · rw [if_neg hin]
      cases hv : Obj.get o a with
      | none =>
        have : ¬ (k ∈ a :: rest ∧ p k = true ∧ k ≠ "__proto__" ∧ (Obj.get o k).isSome) := by
          rintro ⟨h1, h2, h3, h4⟩
          rcases List.mem_cons.1 h1 with h1 | h1
          · subst h1; rw [hv] at h4; cases h4
          · exact hin ⟨h1, h2, h3, h4⟩
        rw [if_neg this]
      | some v =>
        by_cases hp : p a = true
        · simp only [hp, if_true, Obj.get_put]
          by_cases hproto : a = "__proto__"
          · rw [if_pos hproto]
            have : ¬ (k ∈ a :: rest ∧ p k = true ∧ k ≠ "__proto__" ∧ (Obj.get o k).isSome) := by
              rintro ⟨h1, h2, h3, h4⟩
              rcases List.mem_cons.1 h1 with h1 | h1
              · exact h3 (h1.trans hproto)
              · exact hin ⟨h1, h2, h3, h4⟩
            rw [if_neg this]
          · rw [if_neg hproto]
            by_cases hak : a = k
            · subst hak
              have : a ∈ a :: rest ∧ p a = true ∧ a ≠ "__proto__" ∧ (Obj.get o a).isSome :=
                ⟨List.mem_cons_self _ _, hp, hproto, by rw [hv]; rfl⟩
              rw [if_pos rfl, if_pos this, hv]
            · have : ¬ (k ∈ a :: rest ∧ p k = true ∧ k ≠ "__proto__" ∧ (Obj.get o k).isSome) := by
                rintro ⟨h1, h2, h3, h4⟩
                rcases List.mem_cons.1 h1 with h1 | h1
                · exact hak h1.symm
                · exact hin ⟨h1, h2, h3, h4⟩
              rw [if_neg hak, if_neg this]
        · have hp2 : p a = false := by simpa using hp
          simp only [hp2]
          have : ¬ (k ∈ a :: rest ∧ p k = true ∧ k ≠ "__proto__" ∧ (Obj.get o k).isSome) := by
            rintro ⟨h1, h2, h3, h4⟩
            rcases List.mem_cons.1 h1 with h1 | h1
            · subst h1; rw [hp2] at h2; cases h2
            · exact hin ⟨h1, h2, h3, h4⟩
          rw [if_neg this]
          rfl

/-- The object `_.pick` returns reads as `o` on the keys that pass the callback, except the
key `__proto__`, and has no other key. -/
theorem get_pick (o : Record) (p : String → Bool) (k : String) :
    Obj.get (pick o p) k = if p k = true ∧ k ≠ "__proto__" then Obj.get o k else none := by
  unfold pick
  rw [get_pick_keys]
  have hnil : Obj.get ([] : Record) k = none := rfl
  rw [hnil]
  by_cases h : p k = true ∧ k ≠ "__proto__"
  · rw [if_pos h]
    by_cases hmem : k ∈ Obj.keys o
    · have hsome : (Obj.get o k).isSome := by
        cases hg : Obj.get o k with
        | none => exact absurd hmem ((Obj.get_eq_none_iff o k).1 hg)
        | some v => rfl
      rw [if_pos ⟨hmem, h.1, h.2, hsome⟩]
    · have hnone := (Obj.get_eq_none_iff o k).2 hmem
      rw [hnone]
      simp
  · have : ¬ (k ∈ Obj.keys o ∧ p k = true ∧ k ≠ "__proto__" ∧ (Obj.get o k).isSome) :=
      fun hh => h ⟨hh.2.1, hh.2.2.1⟩
    rw [if_neg h, if_neg this]

theorem get_assign_keys (src : Record) (ks : List String) (dst : Record) (k : String) :
    Obj.get (ks.foldl
      (fun acc key => match Obj.get src key with
        | some v => Obj.put acc key v
        | none => acc) dst) k
      = if k ∈ ks ∧ k ≠ "__proto__" then (Obj.get src k).or (Obj.get dst k)
        else Obj.get dst k := by
  induction ks generalizing dst with
  | nil => simp
  | cons a rest ih =>
    rw [List.foldl_cons, ih]
    cases hv : Obj.get src a with
    | none =>
      simp only
      by_cases hin : k ∈ rest ∧ k ≠ "__proto__"
      · rw [if_pos hin, if_pos ⟨List.mem_cons_of_mem _ hin.1, hin.2⟩]
      · rw [if_neg hin]
        by_cases hin2 : k ∈ a :: rest ∧ k ≠ "__proto__"
        · rw [if_pos hin2]
          rcases List.mem_cons.1 hin2.1 with h1 | h1
          · subst h1; rw [hv, Option.none_or]
          · exact absurd ⟨h1, hin2.2⟩ hin
        · rw [if_neg hin2]
    | some v =>
      simp only [Obj.get_put]
      by_cases hproto : a = "__proto__"
      · rw [if_pos hproto]
        by_cases hin : k ∈ rest ∧ k ≠ "__proto__"
        · rw [if_pos hin, if_pos ⟨List.mem_cons_of_mem _ hin.1, hin.2⟩]
        · rw [if_neg hin]
          have : ¬ (k ∈ a :: rest ∧ k ≠ "__proto__") := by
            rintro ⟨h1, h2⟩
            rcases List.mem_cons.1 h1 with h1 | h1
            · exact h2 (h1.trans hproto)
            · exact hin ⟨h1, h2⟩
          rw [if_neg this]
      · rw [if_neg hproto]
        by_cases hak : a = k
        · subst hak
          by_cases hin : a ∈ rest <;> simp [hin, hv, hproto, Option.or]
        · have hka : ¬ k = a := fun h => hak h.symm
          simp [hak, hka, List.mem_cons]

/-- The object `_.assign` leaves reads as `src` on the keys of `src`, except the key
`__proto__`, and as `dst` elsewhere. -/
theorem get_assign (dst src : Record) (k : String) :
    Obj.get (assign dst src) k
      = if k = "__proto__" then Obj.get dst k else (Obj.get src k).or (Obj.get dst k) := by
  unfold assign
  rw [get_assign_keys]
  by_cases hproto : k = "__proto__"
  · have : ¬ (k ∈ Obj.keys src ∧ k ≠ "__proto__") := fun h => h.2 hproto
    rw [if_neg this, if_pos hproto]
  · rw [if_neg hproto]
    by_cases hmem : k ∈ Obj.keys src
    · rw [if_pos ⟨hmem, hproto⟩]
    · rw [if_neg (fun h => hmem h.1), (Obj.get_eq_none_iff src k).2 hmem, Option.none_or]

theorem get_defaults_keys (src : Record) (ks : List String) (dst : Record) (k : String) :
    Obj.get (ks.foldl (fun acc key => match Obj.get acc key, Obj.get src key with
        | none, some v => Obj.set acc key v
        | _, _ => acc) dst) k
      = if k ∈ ks then (Obj.get dst k).or (Obj.get src k) else Obj.get dst k := by
  induction ks generalizing dst with
  | nil => simp
  | cons a ks ih =>
    simp only [List.foldl_cons, ih, List.mem_cons]
    by_cases ha : a = k
    · subst ha
      cases hd : Obj.get dst a with
      | none =>
        cases hs : Obj.get src a with
        | none => simp [hd]
        | some v => simp [Obj.get_set]
      | some w => simp [hd]
    · have hk : ¬ k = a := fun h => ha h.symm
      cases hd : Obj.get dst a with
      | none =>
        cases hs : Obj.get src a with
        | none => simp [hk]
        | some v => simp [Obj.get_set, ha, hk]
      | some w => simp [hk]

/-- After `_.defaults(dst, src)`, a key reads as in `dst` when `dst` has it, else as in `src`. -/
theorem get_defaults (dst src : Record) (k : String) :
    Obj.get (defaults dst src) k = (Obj.get dst k).or (Obj.get src k) := by
  unfold defaults
  rw [get_defaults_keys]
  by_cases h : k ∈ Obj.keys src
  · simp [h]
  · have := (Obj.get_eq_none_iff src k).2 h
    simp [h, this]

/-! ## The registry index -/

theorem Registry.byName_name {reg : Registry} {n : String} {d : Category}
    (h : reg.byName n = some d) : d.name = n := by
  have := List.find?_some h
  simpa using this

theorem Registry.byName_mem {reg : Registry} {n : String} {d : Category}
    (h : reg.byName n = some d) : d ∈ reg.all :=
  List.mem_of_find?_eq_some h

theorem Registry.byName_of_mem {reg : Registry} {c : Category} (h : c ∈ reg.all) :
    ∃ d, reg.byName c.name = some d := by
  cases hb : reg.byName c.name with
  | some d => exact ⟨d, rfl⟩
  | none =>
    have := (List.find?_eq_none.1 hb) c h
    simp at this

theorem Registry.byName_eq_none_iff (reg : Registry) (n : String) :
    reg.byName n = none ↔ n ∉ reg.all.map Category.name := by
  unfold Registry.byName
  rw [List.find?_eq_none]
  simp

/-! ## `addConfig` -/

theorem addConfig_ok {reg : Registry} {vis : Vis} {n : String} {d : Category} {cat : CatState}
    (hd : reg.byName n = some d) (hs : vis.slot n = some cat) :
    addConfig reg vis n =
      (some (freshConfig d vis.nextRef),
        ⟨vis.nextRef + 1, Obj.modify vis.cats n
          (fun cat => { cat with configs := cat.configs ++ [freshConfig d vis.nextRef] })⟩) := by
  have hn := Registry.byName_name hd
  subst hn
  have hs1 : Vis.slot { nextRef := vis.nextRef + 1, cats := vis.cats } d.name = some cat := hs
  simp only [addConfig, hd, hs1, freshConfig]

theorem addConfig_of_byName_none {reg : Registry} {vis : Vis} {n : String}
    (hd : reg.byName n = none) : addConfig reg vis n = (none, vis) := by
  simp only [addConfig, hd]

theorem slot_mk (r : Nat) (cats : Obj CatState) (n : String) :
    Vis.slot ⟨r, cats⟩ n = Obj.get cats n := rfl

/-- What `_.times(k, addConfig)` does on an initialised slot of a registered category. -/
theorem timesAddConfig_ok {reg : Registry} {n : String} {d : Category}
    (hd : reg.byName n = some d) (k : Nat) (vis : Vis) (cat : CatState)
    (hs : vis.slot n = some cat) :
    ∃ vis1, timesAddConfig reg n k vis = (some (), vis1) ∧
      vis1.nextRef = vis.nextRef + k ∧
      vis1.slot n = some { cat with configs :=
        cat.configs ++ (List.range k).map (fun i => freshConfig d (vis.nextRef + i)) } ∧
      ∀ m, m ≠ n → vis1.slot m = vis.slot m := by
  induction k generalizing vis cat with
  | zero => exact ⟨vis, rfl, rfl, by simpa using hs, fun _ _ => rfl⟩
  | succ k ih =>
    have hs1 : Vis.slot ⟨vis.nextRef + 1, Obj.modify vis.cats n
        (fun cat => { cat with configs := cat.configs ++ [freshConfig d vis.nextRef] })⟩ n
        = some { cat with configs := cat.configs ++ [freshConfig d vis.nextRef] } := by
      rw [slot_mk, Obj.get_modify]
      have : Obj.get vis.cats n = some cat := hs
      simp [this]
    obtain ⟨vis1, h1, h2, h3, h4⟩ := ih _ _ hs1
    refine ⟨vis1, ?_, ?_, ?_, ?_⟩
    · simp only [timesAddConfig, addConfig_ok hd hs, h1]
    · simp only [h2]; omega
    · rw [h3]
      simp only [List.range_succ_eq_map, List.map_cons, List.map_map, List.append_assoc,
        List.singleton_append, Nat.add_zero]
      congr 4
      apply List.map_congr_left
      intro i _
      simp only [Function.comp, Nat.succ_eq_add_one]
      congr 1
      omega
    · intro m hm
      rw [h4 m hm, slot_mk, Obj.get_modify]
      simp [Ne.symm hm, Vis.slot]

/-! ## `_fillConfigsToMinimum` -/

theorem fillCategory_ok {reg : Registry} {c d : Category} (hd : reg.byName c.name = some d)
    (vis : Vis) (cat : CatState) (hs : vis.slot c.name = some cat) :
    ∃ vis1, fillCategory reg c vis = (some (), vis1) ∧
      vis1.nextRef = vis.nextRef + (cat.min - cat.configs.length) ∧
      vis1.slot c.name = some { cat with configs := cat.configs ++
        (List.range (cat.min - cat.configs.length)).map (fun i => freshConfig d (vis.nextRef + i)) } ∧
      ∀ m, m ≠ c.name → vis1.slot m = vis.slot m := by
  by_cases hlt : cat.configs.length < cat.min
  · obtain ⟨vis1, h1, h2, h3, h4⟩ :=
      timesAddConfig_ok hd (cat.min - cat.configs.length) vis cat hs
    exact ⟨vis1, by simp only [fillCategory, hs, hlt, if_true, h1], h2, h3, h4⟩
  · have hz : cat.min - cat.configs.length = 0 := by omega
    refine ⟨vis, by simp only [fillCategory, hs, hlt, if_false], by omega, ?_, fun _ _ => rfl⟩
    rw [hz, hs]
    simp

theorem forEach_fill_ok (reg : Registry) (cs : List Category) (vis : Vis)
    (h : ∀ c ∈ cs, (reg.byName c.name).isSome ∧ (vis.slot c.name).isSome) :
    ∃ vis1, forEachCat (fillCategory reg) cs vis = (some (), vis1) ∧
      FilledTo reg (cs.map Category.name) vis vis1 := by
  induction cs generalizing vis with
  | nil =>
    refine ⟨vis, rfl, Nat.le_refl _, fun n => ⟨fun h => h, fun cat hc => ⟨[], ?_, ?_, ?_, ?_⟩⟩⟩
    · simpa using hc
    · intro _; rfl
    · intro hmem; simp at hmem
    · intro e he; simp at he
  | cons c rest ih =>
    obtain ⟨hb, hsl⟩ := h c (List.mem_cons_self _ _)
    obtain ⟨d, hd⟩ := Option.isSome_iff_exists.1 hb
    obtain ⟨cat0, hs0⟩ := Option.isSome_iff_exists.1 hsl
    obtain ⟨vis1, h1, h2, h3, h4⟩ := fillCategory_ok hd vis cat0 hs0
    have hpre : ∀ c1 ∈ rest, (reg.byName c1.name).isSome ∧ (vis1.slot c1.name).isSome := by
      intro c1 hc1
      refine ⟨(h c1 (List.mem_cons_of_mem _ hc1)).1, ?_⟩
      by_cases hn : c1.name = c.name
      · rw [hn, h3]; rfl
      · rw [h4 _ hn]; exact (h c1 (List.mem_cons_of_mem _ hc1)).2
    obtain ⟨vis2, g1, g2, g3⟩ := ih vis1 hpre
    refine ⟨vis2, by simp only [forEachCat, h1, g1], by omega, ?_⟩
    intro n
    by_cases hn : n = c.name
    · subst hn
      refine ⟨fun hnone => (by rw [hs0] at hnone; cases hnone), ?_⟩
      intro cat hcat
      rw [hs0] at hcat
      cases hcat
      obtain ⟨ex2, e1, e2, e3, e4⟩ := (g3 c.name).2 _ h3
      refine ⟨(List.range (cat0.min - cat0.configs.length)).map
          (fun i => freshConfig d (vis.nextRef + i)) ++ ex2, ?_, ?_, ?_, ?_⟩
      · rw [e1]; simp [List.append_assoc]
      · intro hnot; simp at hnot
      · intro _
        have hex2 : ex2.length = 0 := by
          by_cases hin : c.name ∈ rest.map Category.name
          · have := e3 hin
            simp only [List.length_append, List.length_map, List.length_range] at this
            omega
          · rw [e2 hin]; rfl
        simp only [List.length_append, List.length_map, List.length_range, hex2]
        omega
      · intro e he
        rcases List.mem_append.1 he with he1 | he2
        · obtain ⟨i, hi, rfl⟩ := List.mem_map.1 he1
          have hi2 := List.mem_range.1 hi
          refine ⟨⟨d, hd, rfl⟩, ?_, ?_⟩
          · simp [freshConfig]
          · simp only [freshConfig]; omega
        · obtain ⟨q1, q2, q3⟩ := e4 e he2
          exact ⟨q1, by omega, q3⟩
    · have hsame := h4 n hn
      refine ⟨fun hnone => (g3 n).1 (by rw [hsame]; exact hnone), ?_⟩
      intro cat hcat
      obtain ⟨ex2, e1, e2, e3, e4⟩ := (g3 n).2 cat (by rw [hsame]; exact hcat)
      refine ⟨ex2, e1, ?_, ?_, ?_⟩
      · intro hnot
        apply e2
        intro hin
        exact hnot (List.mem_cons_of_mem _ hin)
      · intro hin
        apply e3
        simp only [List.map_cons, List.mem_cons] at hin
        rcases hin with hin | hin
        · exact absurd hin hn
        · exact hin
      · intro e he
        obtain ⟨q1, q2, q3⟩ := e4 e he
        exact ⟨q1, by omega, q3⟩

/-! ## `setState` -/

theorem slot_assignConfig (vis : Vis) (r : Nat) (src : Record) (n : String) :
    (assignConfig vis r src).slot n = (vis.slot n).map (fun cat =>
      { cat with configs := cat.configs.map (fun c =>
        if c.ref = r then { c with fields := assign c.fields src } else c) }) := by
  unfold assignConfig Vis.slot
  exact Obj.get_map vis.cats (fun cat => { cat with configs := cat.configs.map (fun c =>
        if c.ref = r then { c with fields := assign c.fields src } else c) }) n

theorem map_assign_of_ne (cfgs : List Config) (r : Nat) (src : Record)
    (h : ∀ c ∈ cfgs, c.ref ≠ r) :
    cfgs.map (fun c => if c.ref = r then { c with fields := assign c.fields src } else c)
      = cfgs := by
  induction cfgs with
  | nil => rfl
  | cons a rest ih =>
    have ha : a.ref ≠ r := h a (List.mem_cons_self _ _)
    simp only [List.map_cons, ha, if_false]
    rw [ih (fun c hc => h c (List.mem_cons_of_mem _ hc))]

theorem addConfigStates_ok {reg : Registry} {n : String} {d : Category}
    (hd : reg.byName n = some d) (entries : List Record) (vis : Vis) (cat : CatState)
    (hs : vis.slot n = some cat) (hfresh : ∀ cfg ∈ cat.configs, cfg.ref < vis.nextRef) :
    ∃ vis1, addConfigStates reg n entries vis = (some (), vis1) ∧
      vis1.nextRef = vis.nextRef + entries.length ∧
      (∃ built, vis1.slot n = some { cat with configs := cat.configs ++ built } ∧
        built.map Config.fields = entries.map (assign (defaults [] d.configDefaults)) ∧
        ∀ b ∈ built, b.ref < vis1.nextRef) ∧
      ∀ m, m ≠ n → SlotKept vis vis1 m := by
  induction entries generalizing vis cat with
  | nil =>
    refine ⟨vis, rfl, rfl, ⟨[], by simpa using hs, rfl, by simp⟩, ?_⟩
    intro m _
    exact ⟨fun h => h, fun catm hm => ⟨catm.configs, by simpa using hm, fun _ => rfl⟩⟩
  | cons e rest ih =>
    have hne : ∀ c ∈ cat.configs, c.ref ≠ vis.nextRef := fun c hc => by
      have := hfresh c hc; omega
    have hget : Obj.get vis.cats n = some cat := hs
    -- the visualization after `addConfig` and `_.assign`
    have hsb : (assignConfig ⟨vis.nextRef + 1, Obj.modify vis.cats n
        (fun cat => { cat with configs := cat.configs ++ [freshConfig d vis.nextRef] })⟩
        vis.nextRef e).slot n
        = some { cat with configs :=
            cat.configs ++ [⟨vis.nextRef, assign (defaults [] d.configDefaults) e⟩] } := by
      rw [slot_assignConfig, slot_mk, Obj.get_modify]
      simp [hget, map_assign_of_ne _ _ _ hne, freshConfig]
    have hfresh1 : ∀ cfg ∈ cat.configs ++
        [(⟨vis.nextRef, assign (defaults [] d.configDefaults) e⟩ : Config)],
        cfg.ref < vis.nextRef + 1 := by
      intro cfg hc
      rcases List.mem_append.1 hc with h1 | h1
      · have := hfresh cfg h1; omega
      · simp at h1; subst h1; simp
    obtain ⟨vis1, h1, h2, ⟨built, h3, h4, h5⟩, h6⟩ := ih _ _ hsb hfresh1
    refine ⟨vis1, ?_, ?_, ⟨⟨vis.nextRef, assign (defaults [] d.configDefaults) e⟩ :: built, ?_, ?_, ?_⟩, ?_⟩
    · simp only [addConfigStates, addConfig_ok hd hs]
      exact h1
    · rw [h2]; simp only [assignConfig, List.length_cons]; omega
    · rw [h3]; simp
    · simp [h4]
    · intro b hb
      rcases List.mem_cons.1 hb with hb | hb
      · subst hb; rw [h2]; simp only [assignConfig]; omega
      · exact h5 b hb
    · intro m hm
      have hslot : (assignConfig ⟨vis.nextRef + 1, Obj.modify vis.cats n
          (fun cat => { cat with configs := cat.configs ++ [freshConfig d vis.nextRef] })⟩
          vis.nextRef e).slot m = (vis.slot m).map (fun cat =>
            { cat with configs := cat.configs.map (fun c =>
              if c.ref = vis.nextRef then { c with fields := assign c.fields e } else c) }) := by
        rw [slot_assignConfig, slot_mk, Obj.get_modify]
        simp [Ne.symm hm, Vis.slot]
      obtain ⟨k1, k2⟩ := h6 m hm
      refine ⟨fun hnone => k1 (by rw [hslot, hnone]; rfl), ?_⟩
      intro catm hcm
      obtain ⟨cfgs, c1, c2⟩ := k2 _ (by rw [hslot, hcm]; rfl)
      refine ⟨cfgs, c1, ?_⟩
      intro hf
      have hne2 : ∀ c ∈ catm.configs, c.ref ≠ vis.nextRef := fun c hc => by
        have := hf c hc; omega
      have hmap := map_assign_of_ne catm.configs vis.nextRef e hne2
      rw [c2]
      · exact hmap
      · intro cfg hc
        simp only [hmap] at hc
        have := hf cfg hc
        simp only [assignConfig]
        omega

theorem setCategoryState_ok {reg : Registry} (st : StateArg) {c d : Category}
    (hd : reg.byName c.name = some d) (vis : Vis) (cat : CatState)
    (hs : vis.slot c.name = some cat) (hit : readState st c.name ≠ StateValue.other) :
    ∃ vis1, setCategoryState reg st c vis = (some (), vis1) ∧
      vis.nextRef ≤ vis1.nextRef ∧
      (∃ built entries, vis1.slot c.name = some { cat with configs := built } ∧
        built.map Config.fields = entries.map (assign (defaults [] d.configDefaults)) ∧
        (∀ records, stateRecords st c.name = some records → entries = records) ∧
        ∀ b ∈ built, b.ref < vis1.nextRef) ∧
      ∀ m, m ≠ c.name → SlotKept vis vis1 m := by
  have hget : Obj.get vis.cats c.name = some cat := hs
  have hs0 : Vis.slot ⟨vis.nextRef, Obj.modify vis.cats c.name
      (fun cat => { cat with configs := [] })⟩ c.name = some { cat with configs := [] } := by
    rw [slot_mk, Obj.get_modify]; simp [hget]
  have hrun : ∃ entries, setCategoryState reg st c vis
      = addConfigStates reg c.name entries ⟨vis.nextRef, Obj.modify vis.cats c.name
          (fun cat => { cat with configs := [] })⟩ ∧
      ∀ records, stateRecords st c.name = some records → entries = records := by
    cases hr : readState st c.name with
    | records es =>
      refine ⟨es, by simp only [setCategoryState, hr, hs], ?_⟩
      intro records h
      simp only [stateRecords, hr, Option.some.injEq] at h
      exact h
    | configsOf source =>
      refine ⟨liveRecords ⟨vis.nextRef, Obj.modify vis.cats c.name
          (fun cat => { cat with configs := [] })⟩ source,
        by simp only [setCategoryState, hr, hs], ?_⟩
      intro records h
      simp only [stateRecords, hr] at h
      cases h
    | falsy =>
      refine ⟨[], by simp only [setCategoryState, hr, hs], ?_⟩
      intro records h
      simp only [stateRecords, hr, Option.some.injEq] at h
      exact h
    | other => exact absurd hr hit
  obtain ⟨entries, hrun1, hrun2⟩ := hrun
  obtain ⟨vis1, h1, h2, ⟨built, h3, h4, h5⟩, h6⟩ :=
    addConfigStates_ok hd entries _ _ hs0 (by simp)
  refine ⟨vis1, ?_, ?_, ⟨built, entries, ?_, h4, hrun2, h5⟩, ?_⟩
  · rw [hrun1]
    exact h1
  · rw [h2]; simp
  · rw [h3]; simp
  · intro m hm
    have hslot : Vis.slot ⟨vis.nextRef, Obj.modify vis.cats c.name
        (fun cat => { cat with configs := [] })⟩ m = vis.slot m := by
      rw [slot_mk, Obj.get_modify]; simp [Ne.symm hm, Vis.slot]
    obtain ⟨k1, k2⟩ := h6 m hm
    refine ⟨fun hnone => k1 (by rw [hslot]; exact hnone), ?_⟩
    intro catm hcm
    exact k2 catm (by rw [hslot]; exact hcm)

theorem forEach_setCategoryState_ok (reg : Registry) (st : StateArg) (cs : List Category)
    (vis : Vis) (h : ∀ c ∈ cs, (reg.byName c.name).isSome ∧ (vis.slot c.name).isSome ∧
      readState st c.name ≠ StateValue.other) :
    ∃ vis1, forEachCat (setCategoryState reg st) cs vis = (some (), vis1) ∧
      RebuiltFrom reg st (cs.map Category.name) vis vis1 := by
  induction cs generalizing vis with
  | nil =>
    refine ⟨vis, rfl, Nat.le_refl _, fun n => ⟨fun h => h, fun cat hc => ⟨cat.configs, ?_, ?_, ?_⟩⟩⟩
    · simpa using hc
    · intro hmem; simp at hmem
    · intro _ _; rfl
  | cons c rest ih =>
    obtain ⟨hb, hsl, hit⟩ := h c (List.mem_cons_self _ _)
    obtain ⟨d, hd⟩ := Option.isSome_iff_exists.1 hb
    obtain ⟨cat0, hs0⟩ := Option.isSome_iff_exists.1 hsl
    obtain ⟨vis1, h1, h2, ⟨built, entries, h3, h3a, h3r, h3b⟩, h4⟩ :=
      setCategoryState_ok st hd vis cat0 hs0 hit
    have hpre : ∀ c1 ∈ rest, (reg.byName c1.name).isSome ∧ (vis1.slot c1.name).isSome ∧
        readState st c1.name ≠ StateValue.other := by
      intro c1 hc1
      refine ⟨(h c1 (List.mem_cons_of_mem _ hc1)).1, ?_, (h c1 (List.mem_cons_of_mem _ hc1)).2.2⟩
      by_cases hn : c1.name = c.name
      · rw [hn, h3]; rfl
      · obtain ⟨catm, hcm⟩ := Option.isSome_iff_exists.1 (h c1 (List.mem_cons_of_mem _ hc1)).2.1
        obtain ⟨cfgs, q1, _⟩ := (h4 _ hn).2 catm hcm
        rw [q1]; rfl
    obtain ⟨vis2, g1, g2, g3⟩ := ih vis1 hpre
    refine ⟨vis2, by simp only [forEachCat, h1, g1], by omega, ?_⟩
    intro n
    by_cases hn : n = c.name
    · subst hn
      refine ⟨fun hnone => (by rw [hs0] at hnone; cases hnone), ?_⟩
      intro cat hcat
      rw [hs0] at hcat
      cases hcat
      obtain ⟨cfgs, e1, e2, e3⟩ := (g3 c.name).2 _ h3
      refine ⟨cfgs, by rw [e1], ?_, ?_⟩
      · intro _
        by_cases hin : c.name ∈ rest.map Category.name
        · exact e2 hin
        · have hcf : cfgs = built := e3 hin h3b
          subst hcf
          refine ⟨fun b hb => by have := h3b b hb; omega, ?_⟩
          intro d1 hd1
          rw [hd] at hd1
          cases hd1
          exact ⟨entries, h3a, h3r⟩
      · intro hnot; simp at hnot
    · obtain ⟨k1, k2⟩ := h4 n hn
      refine ⟨fun hnone => (g3 n).1 (k1 hnone), ?_⟩
      intro cat hcat
      obtain ⟨cfgs1, c1, c2⟩ := k2 cat hcat
      obtain ⟨cfgs, e1, e2, e3⟩ := (g3 n).2 _ c1
      refine ⟨cfgs, by rw [e1], ?_, ?_⟩
      · intro hin
        apply e2
        simp only [List.map_cons, List.mem_cons] at hin
        rcases hin with hin | hin
        · exact absurd hin hn
        · exact hin
      · intro hnot hf
        have hc1 : cfgs1 = cat.configs := c2 hf
        subst hc1
        apply e3
        · intro hin; exact hnot (List.mem_cons_of_mem _ hin)
        · intro cfg hc
          have := hf cfg hc
          omega

/-! ## `getState` -/

theorem getStateFrom_ok (vis : Vis) (cs : List Category) (acc : FlatState)
    (h : ∀ c ∈ cs, (vis.slot c.name).isSome) (hplain : "__proto__" ∉ cs.map Category.name) :
    ∃ flat, getStateFrom vis cs acc = some flat ∧
      ∀ n, Obj.get flat n =
        if n ∈ cs.map Category.name then
          (vis.slot n).map (fun cat => cat.configs.map (fun c => pick c.fields notReserved))
        else Obj.get acc n := by
  induction cs generalizing acc with
  | nil => exact ⟨acc, rfl, fun n => by simp⟩
  | cons c rest ih =>
    obtain ⟨cat, hs⟩ := Option.isSome_iff_exists.1 (h c (List.mem_cons_self _ _))
    have hc : c.name ≠ "__proto__" := fun hc => hplain (by simp [hc])
    have hrest : "__proto__" ∉ rest.map Category.name :=
      fun hin => hplain (by simp only [List.map_cons]; exact List.mem_cons_of_mem _ hin)
    obtain ⟨flat, h1, h2⟩ := ih (Obj.set acc c.name
      (cat.configs.map (fun config => pick config.fields notReserved)))
      (fun c1 hc1 => h c1 (List.mem_cons_of_mem _ hc1)) hrest
    refine ⟨flat, by simp only [getStateFrom, hs, Obj.put_of_ne _ _ _ hc, h1], ?_⟩
    intro n
    rw [h2 n]
    by_cases hin : n ∈ rest.map Category.name
    · simp only [hin, if_true, List.map_cons, List.mem_cons, or_true]
    · by_cases hn : n = c.name
      · subst hn
        simp only [hin, if_false, List.map_cons, List.mem_cons, true_or, if_true, Obj.get_set, hs,
          Option.map_some']
      · simp only [hin, if_false, List.map_cons, List.mem_cons, hn, or_self, Obj.get_set,
          Ne.symm hn]

/-! ## `removeConfig` -/

theorem forEach_pull_ok (ref : Nat) (cs : List Category) (vis : Vis)
    (h : ∀ c ∈ cs, (vis.slot c.name).isSome) :
    ∃ vis1, forEachCat (fun category v =>
        match v.slot category.name with
        | none => (none, v)
        | some _ =>
          let cats := Obj.modify v.cats category.name
            (fun cat => { cat with configs := pull cat.configs ref })
          (some (), { v with cats := cats })) cs vis = (some (), vis1) ∧
      vis1.nextRef = vis.nextRef ∧
      ∀ n, vis1.slot n =
        if n ∈ cs.map Category.name then
          (vis.slot n).map (fun cat => { cat with configs := pull cat.configs ref })
        else vis.slot n := by
  induction cs generalizing vis with
  | nil => exact ⟨vis, rfl, rfl, fun n => by simp⟩
  | cons c rest ih =>
    obtain ⟨cat, hs⟩ := Option.isSome_iff_exists.1 (h c (List.mem_cons_self _ _))
    have hget : Obj.get vis.cats c.name = some cat := hs
    have hslot : ∀ n, Vis.slot ⟨vis.nextRef, Obj.modify vis.cats c.name
        (fun cat => { cat with configs := pull cat.configs ref })⟩ n =
        if c.name = n then (vis.slot n).map (fun cat => { cat with configs := pull cat.configs ref })
        else vis.slot n := by
      intro n
      rw [slot_mk, Obj.get_modify]
      by_cases hn : c.name = n
      · subst hn; simp [Vis.slot]
      · simp [hn, Vis.slot]
    have hpre : ∀ c1 ∈ rest, (Vis.slot ⟨vis.nextRef, Obj.modify vis.cats c.name
        (fun cat => { cat with configs := pull cat.configs ref })⟩ c1.name).isSome := by
      intro c1 hc1
      have := h c1 (List.mem_cons_of_mem _ hc1)
      rw [hslot]
      by_cases hn : c.name = c1.name
      · simp [hn, this]
      · simp [hn, this]
    obtain ⟨vis1, h1, h2, h3⟩ := ih _ hpre
    refine ⟨vis1, ?_, by rw [h2], ?_⟩
    · simp only [forEachCat, hs]
      exact h1
    · intro n
      rw [h3 n, hslot n]
      have hpp : ∀ l : List Config, pull (pull l ref) ref = pull l ref := by
        intro l; simp [pull, List.filter_filter]
      by_cases hn : c.name = n
      · subst hn
        by_cases hin : c.name ∈ rest.map Category.name
        · simp only [hin, if_true, List.map_cons, List.mem_cons, true_or, Option.map_map]
          cases vis.slot c.name with
          | none => rfl
          | some x => simp [hpp]
        · simp only [hin, if_false, if_true, List.map_cons, List.mem_cons, true_or]
      · have hn2 : ¬ n = c.name := fun h => hn h.symm
        simp only [hn, if_false, List.map_cons, List.mem_cons, hn2, false_or]

/-! ## The whole operations on an initialised visualization -/

theorem fill_ok (reg : Registry) (vis : Vis) (hreg : reg.fetchOrder.Perm reg.all)
    (hinit : vis.Initialised reg) :
    ∃ vis1, _fillConfigsToMinimum reg vis = (some (), vis1) ∧
      FilledTo reg (reg.all.map Category.name) vis vis1 := by
  have hpre : ∀ c ∈ reg.fetchOrder, (reg.byName c.name).isSome ∧ (vis.slot c.name).isSome := by
    intro c hc
    have hmem : c ∈ reg.all := hreg.mem_iff.1 hc
    obtain ⟨d, hd⟩ := Registry.byName_of_mem hmem
    exact ⟨by rw [hd]; rfl, hinit c hmem⟩
  obtain ⟨vis1, h1, h2, h3⟩ := forEach_fill_ok reg reg.fetchOrder vis hpre
  have hnames : ∀ n, n ∈ reg.fetchOrder.map Category.name ↔ n ∈ reg.all.map Category.name :=
    fun n => (hreg.map Category.name).mem_iff
  refine ⟨vis1, h1, h2, ?_⟩
  intro n
  refine ⟨(h3 n).1, ?_⟩
  intro cat hcat
  obtain ⟨extra, e1, e2, e3, e4⟩ := (h3 n).2 cat hcat
  exact ⟨extra, e1, fun hnot => e2 (fun hin => hnot ((hnames n).1 hin)),
    fun hin => e3 ((hnames n).2 hin), e4⟩

theorem setState_ok (reg : Registry) (vis : Vis) (st : StateArg)
    (hreg : reg.fetchOrder.Perm reg.all) (hinit : vis.Initialised reg)
    (hit : ∀ c ∈ reg.all, readState st c.name ≠ StateValue.other) :
    ∃ vis1, setState reg vis st = (some (), vis1) ∧
      ∀ c ∈ reg.all, ∀ cat d, vis.slot c.name = some cat → reg.byName c.name = some d →
        ∃ built extra entries, vis1.slot c.name = some { cat with configs := built ++ extra } ∧
          built.map Config.fields = entries.map (assign (defaults [] d.configDefaults)) ∧
          (∀ records, stateRecords st c.name = some records → entries = records) ∧
          extra.length = cat.min - entries.length ∧
          ∀ e ∈ extra, e.fields = defaults [] d.configDefaults := by
  have hpre : ∀ c ∈ reg.all, (reg.byName c.name).isSome ∧ (vis.slot c.name).isSome ∧
      readState st c.name ≠ StateValue.other := by
    intro c hc
    obtain ⟨d, hd⟩ := Registry.byName_of_mem hc
    exact ⟨by rw [hd]; rfl, hinit c hc, hit c hc⟩
  obtain ⟨vis1, h1, h2, h3⟩ := forEach_setCategoryState_ok reg st reg.all vis hpre
  have hinit1 : vis1.Initialised reg := by
    intro c hc
    obtain ⟨cat, hcat⟩ := Option.isSome_iff_exists.1 (hinit c hc)
    obtain ⟨cfgs, q1, _⟩ := (h3 c.name).2 cat hcat
    rw [q1]; rfl
  obtain ⟨vis2, g1, g2, g3⟩ := fill_ok reg vis1 hreg hinit1
  refine ⟨vis2, by simp only [setState, h1, g1], ?_⟩
  intro c hc cat d hcat hd
  have hin : c.name ∈ reg.all.map Category.name := List.mem_map_of_mem _ hc
  obtain ⟨cfgs, q1, q2, _⟩ := (h3 c.name).2 cat hcat
  obtain ⟨_, q3⟩ := q2 hin
  obtain ⟨entries, hfields, hrec⟩ := q3 d hd
  obtain ⟨extra, e1, _, e3, e4⟩ := (g3 c.name).2 _ q1
  refine ⟨cfgs, extra, entries, by rw [e1], hfields, hrec, ?_, ?_⟩
  · have hlen : cfgs.length = entries.length := by
      have := congrArg List.length hfields
      simpa using this
    rw [e3 hin]
    simp only [hlen]
  · intro e he
    obtain ⟨⟨d1, hd1, hf⟩, _⟩ := e4 e he
    rw [hd] at hd1
    cases hd1
    exact hf

theorem getState_ok (reg : Registry) (vis : Vis) (hinit : vis.Initialised reg)
    (hplain : reg.PlainNames) :
    ∃ flat, getState reg vis = some flat ∧
      ∀ n, Obj.get flat n =
        if n ∈ reg.all.map Category.name then
          (vis.slot n).map (fun cat => cat.configs.map (fun c => pick c.fields notReserved))
        else none := by
  obtain ⟨flat, h1, h2⟩ := getStateFrom_ok vis reg.all [] hinit hplain
  exact ⟨flat, h1, fun n => by rw [h2 n]; rfl⟩

/-! ## `_fillConfigsToMinimum` on any visualization -/

theorem fillCategory_noop {reg : Registry} {c : Category} {vis : Vis} {cat : CatState}
    (hs : vis.slot c.name = some cat) (h : cat.min ≤ cat.configs.length) :
    fillCategory reg c vis = (some (), vis) := by
  have hlt : ¬ cat.configs.length < cat.min := by omega
  simp only [fillCategory, hs, hlt, if_false]

theorem fillCategory_cases (reg : Registry) (c : Category) (vis : Vis) :
    fillCategory reg c vis = (none, vis) ∨
    ∃ cat vis1 extra, vis.slot c.name = some cat ∧
      fillCategory reg c vis = (some (), vis1) ∧
      vis1.slot c.name = some { cat with configs := cat.configs ++ extra } ∧
      cat.min ≤ (cat.configs ++ extra).length ∧
      ∀ m, m ≠ c.name → vis1.slot m = vis.slot m := by
  cases hs : vis.slot c.name with
  | none => left; simp only [fillCategory, hs]
  | some cat =>
    by_cases hlt : cat.configs.length < cat.min
    · cases hb : reg.byName c.name with
      | none =>
        left
        obtain ⟨k, hk⟩ : ∃ k, cat.min - cat.configs.length = k + 1 := ⟨cat.min - cat.configs.length - 1, by omega⟩
        simp only [fillCategory, hs, hlt, if_true, hk, timesAddConfig, addConfig_of_byName_none hb]
      | some d =>
        right
        obtain ⟨vis1, h1, _, h3, h4⟩ := fillCategory_ok hb vis cat hs
        refine ⟨cat, vis1, _, rfl, h1, h3, ?_, h4⟩
        simp only [List.length_append, List.length_map, List.length_range]
        omega
    · right
      refine ⟨cat, vis, [], rfl, fillCategory_noop hs (by omega), by simpa using hs, ?_, fun _ _ => rfl⟩
      simp only [List.append_nil]; omega

theorem forEach_fill_grows (reg : Registry) (cs : List Category) (vis : Vis)
    (n : String) (cat : CatState) (hs : vis.slot n = some cat) :
    ∃ extra, (forEachCat (fillCategory reg) cs vis).2.slot n
      = some { cat with configs := cat.configs ++ extra } := by
  induction cs generalizing vis cat with
  | nil => exact ⟨[], by simpa [forEachCat] using hs⟩
  | cons c rest ih =>
    rcases fillCategory_cases reg c vis with hfail | ⟨cat0, vis1, ex1, h0, h1, h2, _, h4⟩
    · exact ⟨[], by simpa [forEachCat, hfail] using hs⟩
    · simp only [forEachCat, h1]
      by_cases hn : n = c.name
      · subst hn
        rw [h0] at hs
        cases hs
        obtain ⟨ex2, e2⟩ := ih vis1 _ h2
        exact ⟨ex1 ++ ex2, by rw [e2]; simp [List.append_assoc]⟩
      · exact ih vis1 cat (by rw [h4 n hn]; exact hs)

theorem forEach_fill_idem (reg : Registry) (cs : List Category) (vis : Vis) :
    forEachCat (fillCategory reg) cs (forEachCat (fillCategory reg) cs vis).2
      = forEachCat (fillCategory reg) cs vis := by
  induction cs generalizing vis with
  | nil => rfl
  | cons c rest ih =>
    rcases fillCategory_cases reg c vis with hfail | ⟨cat0, vis1, ex1, h0, h1, h2, h3, _⟩
    · simp only [forEachCat, hfail]
    · obtain ⟨ex2, e2⟩ := forEach_fill_grows reg rest vis1 c.name _ h2
      have hnoop : fillCategory reg c (forEachCat (fillCategory reg) rest vis1).2
          = (some (), (forEachCat (fillCategory reg) rest vis1).2) := by
        apply fillCategory_noop e2
        simp only [List.length_append] at h3 ⊢
        omega
      have hstep : forEachCat (fillCategory reg) (c :: rest) vis
          = forEachCat (fillCategory reg) rest vis1 := by
        simp only [forEachCat, h1]
      rw [hstep]
      simp only [forEachCat, hnoop]
      exact ih vis1

/-! ## The minimum-cardinality invariant -/

theorem minInvariant_iff (reg : Registry) (vis : Vis) :
    vis.MinInvariant reg ↔
      ∀ c ∈ reg.all, ∃ cat, vis.slot c.name = some cat ∧ cat.min ≤ cat.configs.length := by
  constructor
  · intro h c hc
    obtain ⟨h1, h2⟩ := h c hc
    obtain ⟨cat, hcat⟩ := Option.isSome_iff_exists.1 h1
    exact ⟨cat, hcat, h2 cat hcat⟩
  · intro h c hc
    obtain ⟨cat, hcat, hle⟩ := h c hc
    refine ⟨by rw [hcat]; rfl, ?_⟩
    intro cat1 hc1
    rw [hcat] at hc1
    cases hc1
    exact hle

theorem minInvariant_initialised {reg : Registry} {vis : Vis} (h : vis.MinInvariant reg) :
    vis.Initialised reg := fun c hc => (h c hc).1

theorem minInvariant_of_filled {reg : Registry} {vis vis1 : Vis} (hinit : vis.Initialised reg)
    (h : FilledTo reg (reg.all.map Category.name) vis vis1) : vis1.MinInvariant reg := by
  rw [minInvariant_iff]
  intro c hc
  obtain ⟨cat, hcat⟩ := Option.isSome_iff_exists.1 (hinit c hc)
  obtain ⟨extra, e1, _, e3, _⟩ := (h.2 c.name).2 cat hcat
  refine ⟨_, e1, ?_⟩
  have := e3 (List.mem_map_of_mem _ hc)
  simp only [List.length_append]
  omega

theorem removeConfig_ok (reg : Registry) (vis : Vis) (ref : Nat) (hinit : vis.Initialised reg) :
    ∃ vis1, removeConfig reg vis (some ref) = (some (), vis1) ∧
      vis1.nextRef = vis.nextRef ∧
      ∀ n, vis1.slot n =
        if n ∈ reg.all.map Category.name then
          (vis.slot n).map (fun cat => { cat with configs := pull cat.configs ref })
        else vis.slot n :=
  forEach_pull_ok ref reg.all vis hinit

theorem removeConfig_initialised (reg : Registry) (vis : Vis) (config : Option Nat)
    (hinit : vis.Initialised reg) : (removeConfig reg vis config).2.Initialised reg := by
  cases config with
  | none => exact hinit
  | some ref =>
    obtain ⟨vis1, h1, _, h3⟩ := removeConfig_ok reg vis ref hinit
    rw [h1]
    intro c hc
    have hin : c.name ∈ reg.all.map Category.name := List.mem_map_of_mem _ hc
    obtain ⟨cat, hcat⟩ := Option.isSome_iff_exists.1 (hinit c hc)
    show (vis1.slot c.name).isSome
    rw [h3 c.name, if_pos hin, hcat]
    rfl

/-! ## The slots stay, whatever the outcome -/

theorem addConfig_slot_isSome (reg : Registry) (vis : Vis) (name n : String)
    (h : (vis.slot n).isSome) : ((addConfig reg vis name).2.slot n).isSome := by
  cases hb : reg.byName name with
  | none => rw [addConfig_of_byName_none hb]; exact h
  | some d =>
    have hn := Registry.byName_name hb
    subst hn
    cases hs : vis.slot d.name with
    | none =>
      have hs1 : Vis.slot { nextRef := vis.nextRef + 1, cats := vis.cats } d.name = none := hs
      simp only [addConfig, hb, hs1]
      exact h
    | some cat =>
      rw [addConfig_ok hb hs]
      obtain ⟨catn, hcn⟩ := Option.isSome_iff_exists.1 h
      have hget : Obj.get vis.cats n = some catn := hcn
      show (Vis.slot ⟨_, _⟩ n).isSome
      rw [slot_mk, Obj.get_modify]
      by_cases hnn : d.name = n
      · rw [if_pos hnn, hnn, hget]; rfl
      · rw [if_neg hnn, hget]; rfl

theorem addConfigStates_slot_isSome (reg : Registry) (name : String) (entries : List Record)
    (vis : Vis) (n : String) (h : (vis.slot n).isSome) :
    ((addConfigStates reg name entries vis).2.slot n).isSome := by
  induction entries generalizing vis with
  | nil => exact h
  | cons e rest ih =>
    have h1 := addConfig_slot_isSome reg vis name n h
    cases hr : addConfig reg vis name with
    | mk r v1 =>
      rw [hr] at h1
      cases r with
      | none => simp only [addConfigStates, hr]; exact h1
      | some config =>
        simp only [addConfigStates, hr]
        apply ih
        rw [slot_assignConfig]
        simpa using h1

theorem setCategoryState_slot_isSome (reg : Registry) (st : StateArg) (c : Category)
    (vis : Vis) (n : String) (h : (vis.slot n).isSome) :
    ((setCategoryState reg st c vis).2.slot n).isSome := by
  cases hs : vis.slot c.name with
  | none => simp only [setCategoryState, hs]; exact h
  | some cat =>
    obtain ⟨catn, hcn⟩ := Option.isSome_iff_exists.1 h
    have hget : Obj.get vis.cats n = some catn := hcn
    have h0 : (Vis.slot ⟨vis.nextRef, Obj.modify vis.cats c.name
        (fun cat => { cat with configs := [] })⟩ n).isSome := by
      rw [slot_mk, Obj.get_modify]
      by_cases hnn : c.name = n
      · rw [if_pos hnn, hnn, hget]; rfl
      · rw [if_neg hnn, hget]; rfl
    cases hr : readState st c.name with
    | records es =>
      simp only [setCategoryState, hs, hr]
      exact addConfigStates_slot_isSome _ _ _ _ _ h0
    | configsOf source =>
      simp only [setCategoryState, hs, hr]
      exact addConfigStates_slot_isSome _ _ _ _ _ h0
    | falsy =>
      simp only [setCategoryState, hs, hr]
      exact addConfigStates_slot_isSome _ _ _ _ _ h0
    | other =>
      simp only [setCategoryState, hs, hr]
      exact h0

theorem forEachCat_slot_isSome (body : Category → Vis → Option Unit × Vis) (n : String)
    (hbody : ∀ c v, (v.slot n).isSome → ((body c v).2.slot n).isSome)
    (cs : List Category) (vis : Vis) (h : (vis.slot n).isSome) :
    ((forEachCat body cs vis).2.slot n).isSome := by
  induction cs generalizing vis with
  | nil => exact h
  | cons c rest ih =>
    have h1 := hbody c vis h
    cases hr : body c vis with
    | mk r v1 =>
      rw [hr] at h1
      cases r with
      | none => simp only [forEachCat, hr]; exact h1
      | some u => simp only [forEachCat, hr]; exact ih v1 h1

theorem setState_slot_isSome (reg : Registry) (vis : Vis) (st : StateArg) (n : String)
    (h : (vis.slot n).isSome) : ((setState reg vis st).2.slot n).isSome := by
  have h1 := forEachCat_slot_isSome (setCategoryState reg st) n
    (fun c v hv => setCategoryState_slot_isSome reg st c v n hv) reg.all vis h
  cases hr : forEachCat (setCategoryState reg st) reg.all vis with
  | mk r v1 =>
    rw [hr] at h1
    cases r with
    | none => simp only [setState, hr]; exact h1
    | some u =>
      simp only [setState, hr]
      obtain ⟨catn, hcn⟩ := Option.isSome_iff_exists.1 h1
      obtain ⟨extra, he⟩ := forEach_fill_grows reg reg.fetchOrder v1 n catn hcn
      unfold _fillConfigsToMinimum
      rw [he]
      rfl

/-- Having a slot for every registered category is kept by every mutating operation, so
it holds in every state reached from an initialised visualization. -/
theorem initialised_invariant (reg : Registry) (vis : Vis)
    (hreg : reg.fetchOrder.Perm reg.all) (hinit : vis.Initialised reg) :
    (∀ name, (addConfig reg vis name).2.Initialised reg) ∧
    (∀ config, (removeConfig reg vis config).2.Initialised reg) ∧
    (∀ st, (setState reg vis st).2.Initialised reg) ∧
    (_fillConfigsToMinimum reg vis).2.Initialised reg := by
  refine ⟨?_, fun config => removeConfig_initialised reg vis config hinit, ?_, ?_⟩
  · intro name c hc
    exact addConfig_slot_isSome reg vis name c.name (hinit c hc)
  · intro st c hc
    exact setState_slot_isSome reg vis st c.name (hinit c hc)
  · obtain ⟨vis1, h1, h2⟩ := fill_ok reg vis hreg hinit
    rw [h1]
    exact minInvariant_initialised (minInvariant_of_filled hinit h2)


/-- C4. On a visualization whose registered categories all have their slot,
`_fillConfigsToMinimum` returns, and every registered category's config list is then the
previous list followed by exactly `max(0, min - previous length)` configs whose fields are
the category's `configDefaults`; so its length is at least `min`. -/
theorem fillConfigsToMinimum_postcondition (reg : Registry) (vis : Vis)
    (hreg : reg.fetchOrder.Perm reg.all) (hinit : vis.Initialised reg) :
    ∃ vis1, _fillConfigsToMinimum reg vis = (some (), vis1) ∧
      ∀ c ∈ reg.all, ∃ cat d extra,
        vis.slot c.name = some cat ∧ reg.byName c.name = some d ∧
        vis1.slot c.name = some { cat with configs := cat.configs ++ extra } ∧
        (extra.length : Int) = max 0 ((cat.min : Int) - (cat.configs.length : Int)) ∧
        (∀ e ∈ extra, ∀ k, Obj.get e.fields k = Obj.get d.configDefaults k) ∧
        cat.min ≤ (cat.configs ++ extra).length := by
  obtain ⟨vis1, h1, _, h3⟩ := fill_ok reg vis hreg hinit
  refine ⟨vis1, h1, ?_⟩
  intro c hc
  obtain ⟨cat, hcat⟩ := Option.isSome_iff_exists.1 (hinit c hc)
  obtain ⟨d, hd⟩ := Registry.byName_of_mem hc
  obtain ⟨extra, e1, _, e3, e4⟩ := (h3 c.name).2 cat hcat
  have hlen := e3 (List.mem_map_of_mem _ hc)
  refine ⟨cat, d, extra, hcat, hd, e1, ?_, ?_, ?_⟩
  · omega
  · intro e he k
    obtain ⟨⟨d1, hd1, hf⟩, _⟩ := e4 e he
    rw [hd] at hd1
    cases hd1
    rw [hf, get_defaults]
    simp [Obj.get]
  · simp only [List.length_append]
    omega

/-- C4, at `exampleReg` after the only `metric` config was removed. -/
theorem fillConfigsToMinimum_postcondition_witness :
    exampleReg.fetchOrder.Perm exampleReg.all ∧
    (removeConfig exampleReg exampleVis (some 0)).2.Initialised exampleReg ∧
    ∃ vis1, _fillConfigsToMinimum exampleReg (removeConfig exampleReg exampleVis (some 0)).2
        = (some (), vis1) ∧
      ∀ c ∈ exampleReg.all, ∃ cat d extra,
        (removeConfig exampleReg exampleVis (some 0)).2.slot c.name = some cat ∧
        exampleReg.byName c.name = some d ∧
        vis1.slot c.name = some { cat with configs := cat.configs ++ extra } ∧
        (extra.length : Int) = max 0 ((cat.min : Int) - (cat.configs.length : Int)) ∧
        (∀ e ∈ extra, ∀ k, Obj.get e.fields k = Obj.get d.configDefaults k) ∧
        cat.min ≤ (cat.configs ++ extra).length :=
  ⟨by decide, by decide,
    fillConfigsToMinimum_postcondition exampleReg _ (by decide) (by decide)⟩

/-- C5. `_fillConfigsToMinimum` is idempotent: a second call returns the same result and
leaves exactly the visualization the first call produced. -/
theorem fillConfigsToMinimum_idempotent (reg : Registry) (vis : Vis) :
    _fillConfigsToMinimum reg (_fillConfigsToMinimum reg vis).2
      = _fillConfigsToMinimum reg vis :=
  forEach_fill_idem reg reg.fetchOrder vis

/-- C3, counterexample. (a) In `exampleVis` every category has at least `min` configs;
after `removeConfig` of the only `metric` config the category `metric` (min 1) has none.
(b) Over a registry whose category is named `constructor`, `setState({})` reads the
inherited `Object.prototype.constructor` as `state[category.name]`, empties the config list
and throws at `forEach`: the category (min 1) is left with no config. -/
theorem minInvariant_not_preserved :
    (exampleVis.MinInvariant exampleReg ∧
      (removeConfig exampleReg exampleVis (some 0)).1 = some () ∧
      ¬ (removeConfig exampleReg exampleVis (some 0)).2.MinInvariant exampleReg) ∧
    (ctorReg.fetchOrder.Perm ctorReg.all ∧ ctorVis.MinInvariant ctorReg ∧
      (setState ctorReg ctorVis []).1 = none ∧
      ((setState ctorReg ctorVis []).2.slot "constructor").map (fun cat => cat.configs)
        = some [] ∧
      ¬ (setState ctorReg ctorVis []).2.MinInvariant ctorReg) := by
  decide

/-- C3, amended. From a visualization in which every category has `configs.length >= min`:
`addConfig` and `_fillConfigsToMinimum` leave a visualization in which every category still
has `configs.length >= min`, and so does `setState(st)`, which returns, for every `st` in
which `st[name]` is an array or falsy for every registered category name (it is neither
when `st` has no such property and `name` is a member of `Object.prototype`);
`removeConfig` does not keep the invariant by itself, `_fillConfigsToMinimum` after it
restores it. -/
theorem minInvariant_preserved (reg : Registry) (vis : Vis)
    (hreg : reg.fetchOrder.Perm reg.all) (h : vis.MinInvariant reg) :
    (∀ name, (addConfig reg vis name).2.MinInvariant reg) ∧
    (∀ st : StateArg, st.Iterable reg →
      (setState reg vis st).1 = some () ∧ (setState reg vis st).2.MinInvariant reg) ∧
    ((_fillConfigsToMinimum reg vis).1 = some () ∧
      (_fillConfigsToMinimum reg vis).2.MinInvariant reg) ∧
    (∀ config, (_fillConfigsToMinimum reg (removeConfig reg vis config).2).1 = some () ∧
      (_fillConfigsToMinimum reg (removeConfig reg vis config).2).2.MinInvariant reg) := by
  have hinit := minInvariant_initialised h
  refine ⟨?_, ?_, ?_, ?_⟩
  · intro name
    cases hb : reg.byName name with
    | none => rw [addConfig_of_byName_none hb]; exact h
    | some d =>
      have hn := Registry.byName_name hb
      have hmem := Registry.byName_mem hb
      subst hn
      obtain ⟨cat, hcat⟩ := Option.isSome_iff_exists.1 (hinit d hmem)
      rw [addConfig_ok hb hcat, minInvariant_iff]
      intro c hc
      obtain ⟨catc, hcc, hle⟩ := (minInvariant_iff reg vis).1 h c hc
      have hget : Obj.get vis.cats c.name = some catc := hcc
      by_cases hn : d.name = c.name
      · refine ⟨{ catc with configs := catc.configs ++ [freshConfig d vis.nextRef] }, ?_, ?_⟩
        · rw [slot_mk, Obj.get_modify, if_pos hn, hn, hget]; rfl
        · simp only [List.length_append, List.length_singleton]; omega
      · exact ⟨catc, by rw [slot_mk, Obj.get_modify, if_neg hn, hget], hle⟩
  · intro st hit
    obtain ⟨vis1, h1, h2⟩ := setState_ok reg vis st hreg hinit hit
    rw [h1]
    refine ⟨rfl, ?_⟩
    rw [minInvariant_iff]
    intro c hc
    obtain ⟨cat, hcat⟩ := Option.isSome_iff_exists.1 (hinit c hc)
    obtain ⟨d, hd⟩ := Registry.byName_of_mem hc
    obtain ⟨built, extra, entries, e1, e2, _, e3, _⟩ := h2 c hc cat d hcat hd
    refine ⟨_, e1, ?_⟩
    have hlen : built.length = entries.length := by
      have := congrArg List.length e2
      simpa using this
    simp only [List.length_append]
    omega
  · obtain ⟨vis1, h1, h2⟩ := fill_ok reg vis hreg hinit
    rw [h1]
    exact ⟨rfl, minInvariant_of_filled hinit h2⟩
  · intro config
    have hinit1 := removeConfig_initialised reg vis config hinit
    obtain ⟨vis1, h1, h2⟩ := fill_ok reg _ hreg hinit1
    rw [h1]
    exact ⟨rfl, minInvariant_of_filled hinit1 h2⟩

/-- C3, amended, at `exampleReg` and `exampleVis`; the states the `setState` part covers
include the one whose `metric` property is the live array `vis.metric.configs`. -/
theorem minInvariant_preserved_witness :
    exampleReg.fetchOrder.Perm exampleReg.all ∧ exampleVis.MinInvariant exampleReg ∧
    aliasState.Iterable exampleReg ∧
    (∀ name, (addConfig exampleReg exampleVis name).2.MinInvariant exampleReg) ∧
    (∀ st : StateArg, st.Iterable exampleReg →
      (setState exampleReg exampleVis st).1 = some () ∧
      (setState exampleReg exampleVis st).2.MinInvariant exampleReg) ∧
    ((_fillConfigsToMinimum exampleReg exampleVis).1 = some () ∧
      (_fillConfigsToMinimum exampleReg exampleVis).2.MinInvariant exampleReg) ∧
    (∀ config,
      (_fillConfigsToMinimum exampleReg (removeConfig exampleReg exampleVis config).2).1
        = some () ∧
      (_fillConfigsToMinimum exampleReg
        (removeConfig exampleReg exampleVis config).2).2.MinInvariant exampleReg) :=
  ⟨by decide, by decide, by decide,
    minInvariant_preserved exampleReg exampleVis (by decide) (by decide)⟩


/-- C8. For a registered category name `c` whose slot exists, `addConfig(c)` returns a
config whose fields are exactly the category's `configDefaults`; the config list of `c` is
the old list with that config appended at the end, and every other slot is unchanged. -/
theorem addConfig_registered (reg : Registry) (vis : Vis) (c : String) (d : Category)
    (cat : CatState) (hd : reg.byName c = some d) (hs : vis.slot c = some cat) :
    ∃ config vis1, addConfig reg vis c = (some config, vis1) ∧
      (∀ k, Obj.get config.fields k = Obj.get d.configDefaults k) ∧
      vis1.slot c = some { cat with configs := cat.configs ++ [config] } ∧
      ∀ m, m ≠ c → vis1.slot m = vis.slot m := by
  have hget : Obj.get vis.cats c = some cat := hs
  refine ⟨_, _, addConfig_ok hd hs, ?_, ?_, ?_⟩
  · intro k
    simp only [freshConfig, get_defaults]
    simp [Obj.get]
  · rw [slot_mk, Obj.get_modify, if_pos rfl, hget]; rfl
  · intro m hm
    rw [slot_mk, Obj.get_modify, if_neg (Ne.symm hm)]; rfl

/-- C8, at `exampleReg`: `addConfig('segment')` on `exampleVis`. -/
theorem addConfig_registered_witness :
    exampleReg.byName "segment" = some ⟨"segment", 0, [("size", .num 5)]⟩ ∧
    exampleVis.slot "segment" = some ⟨0, [("size", .num 5)],
      [⟨1, [("size", .num 5), ("agg", .str "terms")]⟩]⟩ ∧
    ∃ config vis1, addConfig exampleReg exampleVis "segment" = (some config, vis1) ∧
      (∀ k, Obj.get config.fields k = Obj.get [("size", Val.num 5)] k) ∧
      vis1.slot "segment" = some ⟨0, [("size", .num 5)],
        [⟨1, [("size", .num 5), ("agg", .str "terms")]⟩] ++ [config]⟩ ∧
      ∀ m, m ≠ "segment" → vis1.slot m = exampleVis.slot m :=
  ⟨by decide, by decide,
    addConfig_registered exampleReg exampleVis "segment" ⟨"segment", 0, [("size", .num 5)]⟩
      ⟨0, [("size", .num 5)], [⟨1, [("size", .num 5), ("agg", .str "terms")]⟩]⟩
      (by decide) (by decide)⟩

/-- C9. On a visualization whose registered categories all have their slot, `addConfig(name)`
throws exactly when `name` is not a registered category, and then leaves the visualization
(every config list) unchanged. -/
theorem addConfig_unknown_category (reg : Registry) (vis : Vis) (name : String)
    (hinit : vis.Initialised reg) :
    (name ∉ reg.all.map Category.name → addConfig reg vis name = (none, vis)) ∧
    ((addConfig reg vis name).1 = none ↔ name ∉ reg.all.map Category.name) := by
  have hfail : name ∉ reg.all.map Category.name → addConfig reg vis name = (none, vis) :=
    fun hn => addConfig_of_byName_none ((Registry.byName_eq_none_iff reg name).2 hn)
  refine ⟨hfail, ?_, fun hn => by rw [hfail hn]⟩
  intro hnone hin
  cases hb : reg.byName name with
  | none => exact (Registry.byName_eq_none_iff reg name).1 hb hin
  | some d =>
    have hn := Registry.byName_name hb
    subst hn
    obtain ⟨cat, hcat⟩ := Option.isSome_iff_exists.1 (hinit d (Registry.byName_mem hb))
    rw [addConfig_ok hb hcat] at hnone
    cases hnone

/-- C9, at `exampleReg`: `addConfig('bogus')` on `exampleVis`. -/
theorem addConfig_unknown_category_witness :
    exampleVis.Initialised exampleReg ∧
    ("bogus" ∉ exampleReg.all.map Category.name →
      addConfig exampleReg exampleVis "bogus" = (none, exampleVis)) ∧
    ((addConfig exampleReg exampleVis "bogus").1 = none ↔
      "bogus" ∉ exampleReg.all.map Category.name) :=
  ⟨by decide, addConfig_unknown_category exampleReg exampleVis "bogus" (by decide)⟩

/-- C10. With configs `a` (in category `x`) and `b` (in category `y`) of distinct identity
present, `removeConfig(a)` returns and filters every registered category's list down to the
configs whose identity is not that of `a`: `a` is in no list any more, the list of `x` got
shorter, `b` is still in the list of `y`, and the configs kept are in their original
relative order.  `removeConfig(null)` leaves the visualization unchanged, and so does
`removeConfig` of an object that is in no registered list. -/
theorem removeConfig_removes_only_instance (reg : Registry) (vis : Vis)
    (hinit : vis.Initialised reg) (x y : Category) (hx : x ∈ reg.all) (hy : y ∈ reg.all)
    (catX catY : CatState) (hsx : vis.slot x.name = some catX)
    (hsy : vis.slot y.name = some catY) (a b : Config) (ha : a ∈ catX.configs)
    (hb : b ∈ catY.configs) (hab : a.ref ≠ b.ref) :
    (∃ vis1, removeConfig reg vis (some a.ref) = (some (), vis1) ∧
      (∀ c ∈ reg.all, ∃ cat cat1, vis.slot c.name = some cat ∧ vis1.slot c.name = some cat1 ∧
        cat1.configs = cat.configs.filter (fun cfg => cfg.ref != a.ref) ∧
        a ∉ cat1.configs ∧ cat1.configs.Sublist cat.configs) ∧
      (∃ catX1, vis1.slot x.name = some catX1 ∧ catX1.configs.length < catX.configs.length) ∧
      (∃ catY1, vis1.slot y.name = some catY1 ∧ b ∈ catY1.configs)) ∧
    removeConfig reg vis none = (some (), vis) ∧
    ∀ r, (∀ c ∈ reg.all, ∀ cat ∈ vis.slot c.name, ∀ cfg ∈ cat.configs, cfg.ref ≠ r) →
      (removeConfig reg vis (some r)).1 = some () ∧
      ∀ n, (removeConfig reg vis (some r)).2.slot n = vis.slot n := by
  refine ⟨?_, rfl, ?_⟩
  swap
  · intro r hr
    obtain ⟨vis1, h1, _, h3⟩ := removeConfig_ok reg vis r hinit
    rw [h1]
    refine ⟨rfl, ?_⟩
    intro n
    show vis1.slot n = vis.slot n
    rw [h3 n]
    by_cases hin : n ∈ reg.all.map Category.name
    · obtain ⟨c, hc, rfl⟩ := List.mem_map.1 hin
      rw [if_pos hin]
      cases hs : vis.slot c.name with
      | none => rfl
      | some cat =>
        have hall : ∀ cfg ∈ cat.configs, (cfg.ref != r) = true := by
          intro cfg hcfg
          simpa using hr c hc cat hs cfg hcfg
        simp only [Option.map_some', pull, List.filter_eq_self.2 hall]
    · rw [if_neg hin]
  obtain ⟨vis1, h1, _, h3⟩ := removeConfig_ok reg vis a.ref hinit
  have hslot : ∀ c ∈ reg.all, ∀ cat, vis.slot c.name = some cat →
      vis1.slot c.name = some { cat with configs := pull cat.configs a.ref } := by
    intro c hc cat hcat
    rw [h3 c.name, if_pos (List.mem_map_of_mem _ hc), hcat]
    rfl
  refine ⟨vis1, h1, ?_, ?_, ?_⟩
  · intro c hc
    obtain ⟨cat, hcat⟩ := Option.isSome_iff_exists.1 (hinit c hc)
    refine ⟨cat, _, hcat, hslot c hc cat hcat, rfl, ?_, List.filter_sublist _⟩
    intro hmem
    have := (List.mem_filter.1 hmem).2
    simp at this
  · refine ⟨_, hslot x hx catX hsx, ?_⟩
    apply List.length_filter_lt_length_iff_exists.2
    exact ⟨a, ha, by simp⟩
  · refine ⟨_, hslot y hy catY hsy, ?_⟩
    apply List.mem_filter.2
    refine ⟨hb, ?_⟩
    simp only [bne_iff_ne, ne_eq]
    exact fun h => hab h.symm

/-- C10, at `twinVis`: removing the `metric` config keeps the `segment` config that has
the same field values. -/
theorem removeConfig_removes_only_instance_witness :
    twinVis.Initialised exampleReg ∧
    (∃ vis1, removeConfig exampleReg twinVis (some 0) = (some (), vis1) ∧
      (∀ c ∈ exampleReg.all, ∃ cat cat1, twinVis.slot c.name = some cat ∧
        vis1.slot c.name = some cat1 ∧
        cat1.configs = cat.configs.filter (fun cfg => cfg.ref != 0) ∧
        (⟨0, [("agg", .str "count")]⟩ : Config) ∉ cat1.configs ∧
        cat1.configs.Sublist cat.configs) ∧
      (∃ catX1, vis1.slot "metric" = some catX1 ∧ catX1.configs.length < 1) ∧
      (∃ catY1, vis1.slot "segment" = some catY1 ∧
        (⟨1, [("agg", .str "count")]⟩ : Config) ∈ catY1.configs)) ∧
    removeConfig exampleReg twinVis none = (some (), twinVis) ∧
    ∀ r, (∀ c ∈ exampleReg.all, ∀ cat ∈ twinVis.slot c.name, ∀ cfg ∈ cat.configs,
        cfg.ref ≠ r) →
      (removeConfig exampleReg twinVis (some r)).1 = some () ∧
      ∀ n, (removeConfig exampleReg twinVis (some r)).2.slot n = twinVis.slot n :=
  ⟨by decide,
    removeConfig_removes_only_instance exampleReg twinVis (by decide)
      ⟨"metric", 1, [("agg", .str "count")]⟩ ⟨"segment", 0, [("size", .num 5)]⟩
      (by decide) (by decide)
      ⟨1, [("agg", .str "count")], [⟨0, [("agg", .str "count")]⟩]⟩
      ⟨0, [("size", .num 5)], [⟨1, [("agg", .str "count")]⟩]⟩
      (by decide) (by decide)
      ⟨0, [("agg", .str "count")]⟩ ⟨1, [("agg", .str "count")]⟩
      (by decide) (by decide) (by decide)⟩


/-! ## Reserved keys and `getState` -/

theorem reservedKey_iff (key : String) :
    ReservedKey key ↔ key.data.take 2 = ['$', '$'] := by
  constructor
  · rintro ⟨rest, h⟩
    rw [h, String.data_append]
    rfl
  · intro h
    refine ⟨⟨key.data.drop 2⟩, String.ext ?_⟩
    rw [String.data_append]
    conv_lhs => rw [← List.take_append_drop 2 key.data, h]

/-- The callback of `getState` passes exactly the keys that do not start with `$$`. -/
theorem notReserved_iff (key : String) : notReserved key = true ↔ ¬ ReservedKey key := by
  rw [reservedKey_iff]
  simp [notReserved]

theorem strippedOf_pick (o : Record) (hproto : "__proto__" ∉ Obj.keys o) :
    StrippedOf (pick o notReserved) o := by
  intro k
  rw [get_pick]
  by_cases hres : ReservedKey k
  · have hnr : ¬ notReserved k = true := fun h => (notReserved_iff k).1 h hres
    rw [if_pos hres, if_neg (fun h => hnr h.1)]
  · have hnr : notReserved k = true := (notReserved_iff k).2 hres
    rw [if_neg hres]
    by_cases hk : k = "__proto__"
    · rw [if_neg (fun h => h.2 hk), hk, (Obj.get_eq_none_iff o _).2 hproto]
    · rw [if_pos ⟨hnr, hk⟩]

theorem unreserved_of_mem_pick (o : Record) (k : String)
    (h : k ∈ Obj.keys (pick o notReserved)) : ¬ ReservedKey k := by
  by_contra hres
  have hnr : ¬ notReserved k = true := fun h => (notReserved_iff k).1 h hres
  have hnone : Obj.get (pick o notReserved) k = none := by
    rw [get_pick, if_neg (fun h => hnr h.1)]
  exact (Obj.get_eq_none_iff _ _).1 hnone h

theorem forall₂_strippedOf_get (k : String) (l₁ l₂ : List Record)
    (h : List.Forall₂ StrippedOf l₁ l₂) :
    l₁.map (fun r => Obj.get r k)
      = l₂.map (fun r => if ReservedKey k then none else Obj.get r k) := by
  induction h with
  | nil => rfl
  | cons hab _ ih => simp only [List.map_cons, ih, hab k]

/-- What `GetStateShape` lets one observe: whether the name `n` is a key of the result, and
the key `k` of the records of `c`. -/
theorem getStateShape_observation {reg : Registry} {vis : Vis} (h : GetStateShape reg vis) :
    (∀ n, n ∈ Obj.keys ((getState reg vis).getD []) ↔ n ∈ reg.all.map Category.name) ∧
    ∀ c ∈ reg.all, ∀ k,
      (Obj.get ((getState reg vis).getD []) c.name).map
          (fun records => records.map (fun r => Obj.get r k))
        = (vis.slot c.name).map (fun cat => cat.configs.map
            (fun cfg => if ReservedKey k then none else Obj.get cfg.fields k)) := by
  obtain ⟨flat, h1, h2, h3⟩ := h
  rw [h1, Option.getD_some]
  refine ⟨h2, ?_⟩
  intro c hc k
  obtain ⟨cat, records, hs, hf, _, hall⟩ := h3 c hc
  rw [hs, hf]
  simp only [Option.map_some', Option.some.injEq]
  have hf2 : List.Forall₂ StrippedOf records (cat.configs.map Config.fields) := by
    rw [List.forall₂_map_right_iff]
    exact hall.imp (fun _ _ hab => hab.1)
  have := forall₂_strippedOf_get k _ _ hf2
  simpa [List.map_map, Function.comp] using this

/-- C6, counterexample. (a) A config with an own property named `__proto__`, which does
not start with `$$`: the record `getState()` returns for it lacks that key, since
`result['__proto__'] = value` in `_.pick` creates no property. (b) A registry with a
category named `__proto__`: the result of `getState()` has no entry for it, since
`state['__proto__'] = []` creates no property. -/
theorem getState_shape_fails :
    (protoFieldVis.Initialised exampleReg ∧
      (protoFieldVis.slot "metric").map (fun cat => cat.configs.map Config.fields)
        = some [[("agg", .str "avg"), ("__proto__", .num 1)]] ∧
      getState exampleReg protoFieldVis
        = some [("metric", [[("agg", .str "avg")]]), ("segment", [])] ∧
      ¬ GetStateShape exampleReg protoFieldVis) ∧
    (protoVis.Initialised protoReg ∧
      getState protoReg protoVis = some [] ∧
      ¬ GetStateShape protoReg protoVis) :=
  ⟨⟨by decide, by decide, by decide,
    fun h => absurd ((getStateShape_observation h).2 ⟨"metric", 1, [("agg", .str "count")]⟩
      (by decide) "__proto__") (by decide)⟩,
   ⟨by decide, by decide,
    fun h => absurd ((getStateShape_observation h).1 "__proto__") (by decide)⟩⟩

/-- C6, amended. On a visualization whose registered categories all have their slot, over
a registry with no category named `__proto__`, and when no config has an own property named
`__proto__`: `getState()` returns an object whose keys are exactly the registered category
names; the entry of a category has one record per config, in the same order (so an empty
list for no configs); each record reads as the config on every key that does not start
with `$$`, and has no key that starts with `$$`. -/
theorem getState_shape (reg : Registry) (vis : Vis) (hinit : vis.Initialised reg)
    (hplain : reg.PlainNames) (hfields : vis.NoProtoFields reg) :
    GetStateShape reg vis := by
  obtain ⟨flat, h1, h2⟩ := getState_ok reg vis hinit hplain
  refine ⟨flat, h1, ?_, ?_⟩
  · intro n
    constructor
    · intro hk
      by_contra hnot
      have hg := h2 n
      rw [if_neg hnot] at hg
      exact (Obj.get_eq_none_iff flat n).1 hg hk
    · intro hin
      by_contra hnot
      have hg := (Obj.get_eq_none_iff flat n).2 hnot
      rw [h2 n, if_pos hin] at hg
      obtain ⟨c, hc, rfl⟩ := List.mem_map.1 hin
      obtain ⟨cat, hcat⟩ := Option.isSome_iff_exists.1 (hinit c hc)
      rw [hcat] at hg
      cases hg
  · intro c hc
    obtain ⟨cat, hcat⟩ := Option.isSome_iff_exists.1 (hinit c hc)
    refine ⟨cat, cat.configs.map (fun c => pick c.fields notReserved), hcat, ?_, ?_, ?_⟩
    · rw [h2 c.name, if_pos (List.mem_map_of_mem _ hc), hcat]; rfl
    · simp
    · rw [List.forall₂_map_left_iff, List.forall₂_same]
      intro config hconfig
      exact ⟨strippedOf_pick _ (hfields c hc cat hcat config hconfig),
        fun k hk => unreserved_of_mem_pick _ k hk⟩

/-- C6, amended, at `exampleVis`, whose `metric` config carries the key `$$hashKey`: the
record of that config does not have it. -/
theorem getState_shape_witness :
    exampleVis.Initialised exampleReg ∧ exampleReg.PlainNames ∧
    exampleVis.NoProtoFields exampleReg ∧
    (exampleVis.slot "metric").map (fun cat => cat.configs.map Config.fields)
        = some [[("agg", .str "avg"), ("$$hashKey", .num 7)]] ∧
    getState exampleReg exampleVis
      = some [("metric", [[("agg", .str "avg")]]),
              ("segment", [[("size", .num 5), ("agg", .str "terms")]])] ∧
    GetStateShape exampleReg exampleVis :=
  ⟨by decide, by decide, by decide, by decide, by decide,
    getState_shape exampleReg exampleVis (by decide) (by decide) (by decide)⟩

theorem forall₂_of_map_eq {α β γ : Type} {f : α → γ} {g : β → γ} {R : α → β → Prop}
    (l₁ : List α) (l₂ : List β) (h : l₁.map f = l₂.map g)
    (hR : ∀ a b, b ∈ l₂ → f a = g b → R a b) : List.Forall₂ R l₁ l₂ := by
  induction l₁ generalizing l₂ with
  | nil =>
    cases l₂ with
    | nil => exact List.Forall₂.nil
    | cons b l₂ => simp at h
  | cons a l₁ ih =>
    cases l₂ with
    | nil => simp at h
    | cons b l₂ =>
      simp only [List.map_cons, List.cons.injEq] at h
      exact List.Forall₂.cons (hR a b (List.mem_cons_self _ _) h.1)
        (ih l₂ h.2 (fun a1 b1 hb1 => hR a1 b1 (List.mem_cons_of_mem _ hb1)))


/-! ## The result of `setState` -/

theorem forEachCat_congr (f g : Category → Vis → Option Unit × Vis) (cs : List Category)
    (h : ∀ c ∈ cs, ∀ v, f c v = g c v) (vis : Vis) :
    forEachCat f cs vis = forEachCat g cs vis := by
  induction cs generalizing vis with
  | nil => rfl
  | cons c rest ih =>
    simp only [forEachCat, h c (List.mem_cons_self _ _)]
    cases g c vis with
    | mk r v1 =>
      cases r with
      | none => rfl
      | some u => exact ih (fun c1 hc1 => h c1 (List.mem_cons_of_mem _ hc1)) v1

theorem stateEntries_of_stateRecords (vis : Vis) (st : StateArg) (n : String)
    (records : List Record) (h : stateRecords st n = some records) :
    stateEntries vis st n = records := by
  unfold stateRecords readState at h
  unfold stateEntries
  cases hg : Obj.get st n with
  | none =>
    rw [hg] at h
    by_cases hin : n ∈ objectPrototypeKeys
    · simp only [hin, if_true] at h
      cases h
    · simp only [hin, if_false, Option.some.injEq] at h
      exact h
  | some v =>
    rw [hg] at h
    cases v with
    | records es => simpa using h
    | configsOf source => cases h
    | falsy => simpa using h
    | other => cases h

theorem readState_ne_other_of_stateRecords {st : StateArg} {n : String}
    (h : (stateRecords st n).isSome) : readState st n ≠ StateValue.other := by
  intro hr
  simp only [stateRecords, hr] at h
  cases h

theorem map_eq_of_forall₂ {α β γ : Type} {f : α → γ} {g : β → γ} {R : α → β → Prop}
    {l₁ : List α} {l₂ : List β} (h : List.Forall₂ R l₁ l₂) (hR : ∀ a b, R a b → f a = g b) :
    l₁.map f = l₂.map g := by
  induction h with
  | nil => rfl
  | cons hab _ ih => simp only [List.map_cons, ih, hR _ _ hab]

/-- What `SetStateResult` lets one observe: that the call returns, and the key `k` of the
configs built from the entries of `c`. -/
theorem setStateResult_observation {reg : Registry} {vis : Vis} {st : StateArg}
    (h : SetStateResult reg vis st) :
    (setState reg vis st).1 = some () ∧
    ∀ c ∈ reg.all, ∀ d ∈ reg.byName c.name, ∀ k,
      ((setState reg vis st).2.slot c.name).map (fun cat =>
          (cat.configs.take (stateEntries vis st c.name).length).map
            (fun cfg => Obj.get cfg.fields k))
        = some ((stateEntries vis st c.name).map
            (fun entry => (Obj.get entry k).or (Obj.get d.configDefaults k))) := by
  obtain ⟨⟨vis1, h1, h2⟩, _⟩ := h
  rw [h1]
  refine ⟨rfl, ?_⟩
  intro c hc d hd k
  obtain ⟨cat, d1, fromState, filler, _, hd1, hs1, hall, _, _⟩ := h2 c hc
  have hdd : d1 = d := by
    rw [hd1] at hd
    exact Option.some.inj hd
  subst hdd
  show (vis1.slot c.name).map _ = _
  rw [hs1]
  simp only [Option.map_some', Option.some.injEq]
  rw [← hall.length_eq, List.take_left]
  exact map_eq_of_forall₂ hall (fun a b hab => hab k)

/-- C7, counterexample. (a) Over a registry whose category is named `constructor`,
`setState({})` throws: `state[category.name]` is the inherited
`Object.prototype.constructor`, which has no `forEach`. (b) For an entry with an own
property named `__proto__`, the config built from it lacks that key, since
`config['__proto__'] = value` in `_.assign` creates no property. (c) For the state whose
`metric` property is the live array `vis.metric.configs`, that array is emptied before it is
iterated: the `metric` list ends as one default config, not one config per entry. -/
theorem setState_result_fails :
    (ctorReg.fetchOrder.Perm ctorReg.all ∧ ctorVis.Initialised ctorReg ∧
      (setState ctorReg ctorVis []).1 = none ∧
      ¬ SetStateResult ctorReg ctorVis []) ∧
    (stateEntries exampleVis protoEntryState "metric"
        = [[("agg", .str "avg"), ("__proto__", .num 1)]] ∧
      ((setState exampleReg exampleVis protoEntryState).2.slot "metric").map
          (fun cat => cat.configs.map Config.fields) = some [[("agg", .str "avg")]] ∧
      ¬ SetStateResult exampleReg exampleVis protoEntryState) ∧
    (stateEntries exampleVis aliasState "metric"
        = [[("agg", .str "avg"), ("$$hashKey", .num 7)]] ∧
      ((setState exampleReg exampleVis aliasState).2.slot "metric").map
          (fun cat => cat.configs.map Config.fields) = some [[("agg", .str "count")]] ∧
      ¬ SetStateResult exampleReg exampleVis aliasState) :=
  ⟨⟨by decide, by decide, by decide,
    fun h => absurd (setStateResult_observation h).1 (by decide)⟩,
   ⟨by decide, by decide,
    fun h => absurd ((setStateResult_observation h).2 ⟨"metric", 1, [("agg", .str "count")]⟩
      (by decide) ⟨"metric", 1, [("agg", .str "count")]⟩ (by decide) "__proto__") (by decide)⟩,
   ⟨by decide, by decide,
    fun h => absurd ((setStateResult_observation h).2 ⟨"metric", 1, [("agg", .str "count")]⟩
      (by decide) ⟨"metric", 1, [("agg", .str "count")]⟩ (by decide) "agg") (by decide)⟩⟩

/-- C7, amended. On a visualization whose registered categories all have their slot, for
a state `st` that under every registered category name holds an array of records of its own
(not an array of the visualization) or a falsy value, or has no property and inherits none
from `Object.prototype`, and whose entries have no own property named `__proto__`:
`setState(st)` returns, and every registered category's config list is then one config per
entry of `st[category]` (none when the key is missing), in order, reading on every key as
the entry when the entry has the key and as the category's `configDefaults` otherwise;
followed by `min - (number of entries)` configs with the fields of `configDefaults`.  The
result depends on `st` only through the properties under registered category names. -/
theorem setState_result (reg : Registry) (vis : Vis) (st : StateArg)
    (hreg : reg.fetchOrder.Perm reg.all) (hinit : vis.Initialised reg)
    (hval : st.ByValue reg) (hproto : st.NoProtoEntries reg) :
    SetStateResult reg vis st := by
  constructor
  · obtain ⟨vis1, h1, h2⟩ := setState_ok reg vis st hreg hinit
      (fun c hc => readState_ne_other_of_stateRecords (hval c hc))
    refine ⟨vis1, h1, ?_⟩
    intro c hc
    obtain ⟨cat, hcat⟩ := Option.isSome_iff_exists.1 (hinit c hc)
    obtain ⟨d, hd⟩ := Registry.byName_of_mem hc
    obtain ⟨records, hrec⟩ := Option.isSome_iff_exists.1 (hval c hc)
    obtain ⟨built, extra, entries, e1, e2, er, e3, e4⟩ := h2 c hc cat d hcat hd
    have hent : entries = records := er records hrec
    subst hent
    have hse := stateEntries_of_stateRecords vis st c.name entries hrec
    have hdef : ∀ k, Obj.get (defaults [] d.configDefaults) k = Obj.get d.configDefaults k := by
      intro k; rw [get_defaults]; simp [Obj.get]
    rw [hse]
    refine ⟨cat, d, built, extra, hcat, hd, e1, ?_, e3, ?_⟩
    · apply forall₂_of_map_eq built entries e2
      intro config entry hentry heq k
      have hf : config.fields = assign (defaults [] d.configDefaults) entry := heq
      rw [hf, get_assign, hdef]
      by_cases hk : k = "__proto__"
      · have hno : "__proto__" ∉ Obj.keys entry :=
          hproto c hc entry (by rw [hrec]; exact hentry)
        rw [if_pos hk, hk, (Obj.get_eq_none_iff entry _).2 hno, Option.none_or]
      · rw [if_neg hk]
    · intro e he k
      rw [e4 e he, hdef]
  · intro st1 hst
    have hcongr : forEachCat (setCategoryState reg st1) reg.all vis
        = forEachCat (setCategoryState reg st) reg.all vis := by
      apply forEachCat_congr
      intro c hc v
      simp only [setCategoryState, readState, hst c hc]
    simp only [setState, hcongr]

/-- C7, amended, at `exampleVis`, with an entry that overrides a default, an entry that
lacks it, and an unregistered key. -/
theorem setState_result_witness :
    exampleReg.fetchOrder.Perm exampleReg.all ∧ exampleVis.Initialised exampleReg ∧
    StateArg.ByValue exampleReg
      [("segment", .records [[("size", .num 9)], [("agg", .str "terms")]]),
       ("bogus", .records [[]])] ∧
    StateArg.NoProtoEntries exampleReg
      [("segment", .records [[("size", .num 9)], [("agg", .str "terms")]]),
       ("bogus", .records [[]])] ∧
    (setState exampleReg exampleVis
      [("segment", .records [[("size", .num 9)], [("agg", .str "terms")]]),
       ("bogus", .records [[]])]).2.cats.map
        (fun slot => (slot.1, slot.2.configs.map Config.fields))
      = [("metric", [[("agg", .str "count")]]),
         ("segment", [[("size", .num 9)], [("size", .num 5), ("agg", .str "terms")]])] ∧
    SetStateResult exampleReg exampleVis
      [("segment", .records [[("size", .num 9)], [("agg", .str "terms")]]),
       ("bogus", .records [[]])] :=
  ⟨by decide, by decide, by decide, by decide, by decide,
    setState_result exampleReg exampleVis _ (by decide) (by decide) (by decide) (by decide)⟩


/-! ## Round trips between `getState` and `setState` -/

theorem readState_toArg {flat : FlatState} {n : String} {records : List Record}
    (h : Obj.get flat n = some records) :
    readState flat.toArg n = StateValue.records records := by
  unfold readState FlatState.toArg
  rw [Obj.get_mapVal, h]
  rfl

theorem readState_of_ownRecords {st : StateArg} {n : String} {records : List Record}
    (h : ownRecords st n = some records) : readState st n = StateValue.records records := by
  unfold ownRecords at h
  unfold readState
  cases hg : Obj.get st n with
  | none => rw [hg] at h; cases h
  | some v =>
    rw [hg] at h
    cases v with
    | records es =>
      simp only [Option.some.injEq] at h
      rw [h]
    | configsOf source => cases h
    | falsy => cases h
    | other => cases h

theorem get_of_ownRecords {st : StateArg} {n : String} {records : List Record}
    (h : ownRecords st n = some records) : Obj.get st n = some (StateValue.records records) := by
  unfold ownRecords at h
  cases hg : Obj.get st n with
  | none => rw [hg] at h; cases h
  | some v =>
    rw [hg] at h
    cases v with
    | records es =>
      simp only [Option.some.injEq] at h
      rw [h]
    | configsOf source => cases h
    | falsy => cases h
    | other => cases h

/-- What `RoundTripPreserves` lets one observe on the key `k` of the configs of `c`. -/
theorem roundTrip_observation {reg : Registry} {vis : Vis} (h : RoundTripPreserves reg vis)
    (c : Category) (hc : c ∈ reg.all) (k : String) :
    ((setState reg vis (FlatState.toArg ((getState reg vis).getD []))).2.slot c.name).map
        (fun cat => cat.configs.map (fun cfg => Obj.get cfg.fields k))
      = (vis.slot c.name).map (fun cat => cat.configs.map
          (fun cfg => if ReservedKey k then none else Obj.get cfg.fields k)) := by
  obtain ⟨flat, vis1, h1, h2, h3⟩ := h
  obtain ⟨cat, cat1, hs, hs1, hf⟩ := h3 c hc
  rw [h1, Option.getD_some, h2, hs, hs1]
  simp only [Option.map_some', Option.some.injEq]
  have hf2 : List.Forall₂ StrippedOf (cat1.configs.map Config.fields)
      (cat.configs.map Config.fields) := by
    rw [List.forall₂_map_left_iff, List.forall₂_map_right_iff]; exact hf
  have := forall₂_strippedOf_get k _ _ hf2
  simpa [List.map_map, Function.comp] using this

/-- C1, counterexample. The round trip does not preserve the config lists (a) of
`belowMinVis`, reached from `exampleVis` by `removeConfig`: the empty `metric` list is filled
to its min 1; (b) of `sparseVis`, whose `metric` config lacks the default key `agg`: the key
comes back with the default value; (c) of `reservedVis` over a registry with a reserved key
in `configDefaults`: the reserved key is present afterwards; (d) of `protoFieldVis`, whose
`metric` config has an own property named `__proto__`: that property, which is not
reserved, is absent afterwards. -/
theorem roundTrip_not_preserved :
    ((belowMinVis.slot "metric").map (fun cat => cat.configs.map Config.fields) = some [] ∧
      ((setState exampleReg belowMinVis
          (FlatState.toArg ((getState exampleReg belowMinVis).getD []))).2.slot
        "metric").map (fun cat => cat.configs.map Config.fields)
        = some [[("agg", .str "count")]]) ∧
    ((sparseVis.slot "metric").map (fun cat => cat.configs.map Config.fields)
        = some [[("field", .str "bytes")]] ∧
      ((setState exampleReg sparseVis
          (FlatState.toArg ((getState exampleReg sparseVis).getD []))).2.slot
        "metric").map (fun cat => cat.configs.map Config.fields)
        = some [[("agg", .str "count"), ("field", .str "bytes")]]) ∧
    ((reservedVis.slot "metric").map (fun cat => cat.configs.map Config.fields)
        = some [[("$$id", .num 0), ("agg", .str "avg")]] ∧
      ((setState reservedReg reservedVis
          (FlatState.toArg ((getState reservedReg reservedVis).getD []))).2.slot
        "metric").map (fun cat => cat.configs.map Config.fields)
        = some [[("$$id", .num 0), ("agg", .str "avg")]]) ∧
    ((protoFieldVis.slot "metric").map (fun cat => cat.configs.map Config.fields)
        = some [[("agg", .str "avg"), ("__proto__", .num 1)]] ∧
      ((setState exampleReg protoFieldVis
          (FlatState.toArg ((getState exampleReg protoFieldVis).getD []))).2.slot
        "metric").map (fun cat => cat.configs.map Config.fields)
        = some [[("agg", .str "avg")]]) ∧
    ¬ RoundTripPreserves exampleReg belowMinVis ∧
    ¬ RoundTripPreserves exampleReg sparseVis ∧
    ¬ RoundTripPreserves reservedReg reservedVis ∧
    ¬ RoundTripPreserves exampleReg protoFieldVis :=
  ⟨by decide, by decide, by decide, by decide,
   fun h => absurd (roundTrip_observation h ⟨"metric", 1, [("agg", .str "count")]⟩
      (by decide) "agg") (by decide),
   fun h => absurd (roundTrip_observation h ⟨"metric", 1, [("agg", .str "count")]⟩
      (by decide) "agg") (by decide),
   fun h => absurd (roundTrip_observation h ⟨"metric", 1, [("$$id", .num 0)]⟩
      (by decide) "$$id") (by decide),
   fun h => absurd (roundTrip_observation h ⟨"metric", 1, [("agg", .str "count")]⟩
      (by decide) "__proto__") (by decide)⟩

/-- C1, amended. On a visualization in which every registered category has at least `min`
configs and every config has every key of its category's `configDefaults` and no own
property named `__proto__`, over a registry whose `configDefaults` have no key starting with
`$$` and that has no category named `__proto__`, `setState(getState())` returns and leaves
every category's list with as many configs, in the same order, each reading as before on
every key that does not start with `$$` and having no key that does. -/
theorem roundTrip_preserves (reg : Registry) (vis : Vis)
    (hreg : reg.fetchOrder.Perm reg.all) (hmin : vis.MinInvariant reg)
    (hcover : vis.ConfigsCoverDefaults reg) (hres : reg.DefaultsUnreserved)
    (hplain : reg.PlainNames) (hfields : vis.NoProtoFields reg) :
    RoundTripPreserves reg vis := by
  have hinit := minInvariant_initialised hmin
  obtain ⟨flat, h1, h2⟩ := getState_ok reg vis hinit hplain
  have hflat : ∀ c ∈ reg.all, ∀ cat, vis.slot c.name = some cat → Obj.get flat c.name
      = some (cat.configs.map (fun cfg => pick cfg.fields notReserved)) := by
    intro c hc cat hcat
    rw [h2 c.name, if_pos (List.mem_map_of_mem _ hc), hcat]; rfl
  have hit : ∀ c ∈ reg.all, readState flat.toArg c.name ≠ StateValue.other := by
    intro c hc
    obtain ⟨cat, hcat⟩ := Option.isSome_iff_exists.1 (hinit c hc)
    rw [readState_toArg (hflat c hc cat hcat)]
    intro h
    cases h
  obtain ⟨vis1, g1, g2⟩ := setState_ok reg vis flat.toArg hreg hinit hit
  refine ⟨flat, vis1, h1, g1, ?_⟩
  intro c hc
  obtain ⟨cat, hcat, hle⟩ := (minInvariant_iff reg vis).1 hmin c hc
  obtain ⟨d, hd⟩ := Registry.byName_of_mem hc
  obtain ⟨built, extra, entries, e1, e2, er, e3, _⟩ := g2 c hc cat d hcat hd
  have hent : entries = cat.configs.map (fun cfg => pick cfg.fields notReserved) := by
    apply er
    simp only [stateRecords, readState_toArg (hflat c hc cat hcat)]
  subst hent
  simp only [List.length_map, List.map_map] at e2 e3
  have hex : extra = [] := List.length_eq_zero.1 (by omega)
  subst hex
  refine ⟨cat, _, hcat, e1, ?_⟩
  simp only [List.append_nil]
  apply forall₂_of_map_eq built cat.configs e2
  intro a b hb hab k
  have hfa : a.fields = assign (defaults [] d.configDefaults) (pick b.fields notReserved) := hab
  have hdef : Obj.get (defaults [] d.configDefaults) k = Obj.get d.configDefaults k := by
    rw [get_defaults]; simp [Obj.get]
  have hdmem := Registry.byName_mem hd
  have hbproto : "__proto__" ∉ Obj.keys b.fields := hfields c hc cat hcat b hb
  have hdk : Obj.get b.fields k = none → Obj.get d.configDefaults k = none := by
    intro hb1
    apply (Obj.get_eq_none_iff _ _).2
    intro hkd
    have := hcover c hc d hd cat hcat b hb k hkd
    rw [hb1] at this
    cases this
  rw [hfa, get_assign, get_pick, hdef]
  by_cases hk : k = "__proto__"
  · have hnr : ¬ ReservedKey k := by rw [hk]; decide
    have hbk : Obj.get b.fields k = none := by
      rw [hk]; exact (Obj.get_eq_none_iff _ _).2 hbproto
    rw [if_pos hk, if_neg hnr, hbk]
    exact hdk hbk
  · rw [if_neg hk]
    by_cases hres1 : ReservedKey k
    · have hnr : ¬ notReserved k = true := fun h => (notReserved_iff k).1 h hres1
      rw [if_pos hres1, if_neg (fun h => hnr h.1), Option.none_or]
      apply (Obj.get_eq_none_iff _ _).2
      intro hkd
      exact hres d hdmem k hkd hres1
    · have hnr : notReserved k = true := (notReserved_iff k).2 hres1
      rw [if_neg hres1, if_pos ⟨hnr, hk⟩]
      cases hb1 : Obj.get b.fields k with
      | some v => rfl
      | none => rw [Option.none_or]; exact hdk hb1

/-- C1, amended, at `exampleReg` and `exampleVis`, whose `metric` config carries the
reserved key `$$hashKey`: after the round trip the config does not have it. -/
theorem roundTrip_preserves_witness :
    exampleReg.fetchOrder.Perm exampleReg.all ∧ exampleVis.MinInvariant exampleReg ∧
    exampleVis.ConfigsCoverDefaults exampleReg ∧ exampleReg.DefaultsUnreserved ∧
    exampleReg.PlainNames ∧ exampleVis.NoProtoFields exampleReg ∧
    exampleVis.cats.map (fun slot => (slot.1, slot.2.configs.map Config.fields))
      = [("metric", [[("agg", .str "avg"), ("$$hashKey", .num 7)]]),
         ("segment", [[("size", .num 5), ("agg", .str "terms")]])] ∧
    (setState exampleReg exampleVis
        (FlatState.toArg ((getState exampleReg exampleVis).getD []))).2.cats.map
        (fun slot => (slot.1, slot.2.configs.map Config.fields))
      = [("metric", [[("agg", .str "avg")]]),
         ("segment", [[("size", .num 5), ("agg", .str "terms")]])] ∧
    RoundTripPreserves exampleReg exampleVis :=
  ⟨by decide, by decide, by decide, by decide, by decide, by decide, by decide, by decide,
    roundTrip_preserves exampleReg exampleVis (by decide) (by decide) (by decide) (by decide)
      (by decide) (by decide)⟩

/-- What `LeftInverseAt` lets one observe on the key `k` of the records under
the name `n`. -/
theorem leftInverse_observation {reg : Registry} {vis : Vis} {st : StateArg}
    (h : LeftInverseAt reg vis st) (n k : String) :
    (Obj.get ((getState reg (setState reg vis st).2).getD []) n).map
        (fun records => records.map (fun r => Obj.get r k))
      = ((Obj.get st n).bind (StateValue.entries vis)).map (fun entries => entries.map
          (fun r => if ReservedKey k then none else Obj.get r k)) := by
  obtain ⟨vis1, flat, h1, h2, h3⟩ := h
  rw [h1, h2, Option.getD_some]
  have hn := h3 n
  cases hf : Obj.get flat n with
  | none =>
    cases hs : Obj.get st n with
    | none => rfl
    | some value => rw [hf, hs] at hn; exact hn.elim
  | some records =>
    cases hs : Obj.get st n with
    | none => rw [hf, hs] at hn; exact hn.elim
    | some value =>
      rw [hf, hs] at hn
      cases value with
      | records entries =>
        simp only [Option.map_some', Option.some_bind, StateValue.entries, Option.some.injEq]
        exact forall₂_strippedOf_get k _ _ hn
      | configsOf source =>
        simp only [Option.map_some', Option.some_bind, StateValue.entries, Option.some.injEq]
        exact forall₂_strippedOf_get k _ _ hn
      | falsy => exact hn.elim
      | other => exact hn.elim

/-- C2, counterexample. On `exampleVis`, `getState()` after `setState(st)` is not `st`
without its reserved keys (a) for the empty `st`: the result has an entry for each registered
category; (b) for `st` with an empty `metric` list: the list is filled to its min 1;
(c) for `st` whose `metric` record lacks the default key `agg`: the record comes back with
it; (d) for `st` with an unregistered key: the key is dropped; (e) for `st` whose `metric`
record has an own property named `__proto__`: the record comes back without it; (f) for
`st` whose `metric` property is the live array `vis.metric.configs`: the array is emptied
before it is read, and the result has one default record.  (g) Over a registry with a
category named `__proto__`, for `st` with an own property of that name: the result of
`getState()` has no property of that name. -/
theorem getState_not_leftInverse :
    getState exampleReg (setState exampleReg exampleVis []).2
      = some [("metric", [[("agg", .str "count")]]), ("segment", [])] ∧
    getState exampleReg (setState exampleReg exampleVis
        [("metric", .records []), ("segment", .records [])]).2
      = some [("metric", [[("agg", .str "count")]]), ("segment", [])] ∧
    getState exampleReg (setState exampleReg exampleVis
        [("metric", .records [[("field", .str "bytes")]]), ("segment", .records [])]).2
      = some [("metric", [[("agg", .str "count"), ("field", .str "bytes")]]), ("segment", [])] ∧
    getState exampleReg (setState exampleReg exampleVis
        [("metric", .records [[("agg", .str "avg")]]), ("segment", .records []),
         ("bogus", .records [])]).2
      = some [("metric", [[("agg", .str "avg")]]), ("segment", [])] ∧
    getState exampleReg (setState exampleReg exampleVis protoEntryState).2
      = some [("metric", [[("agg", .str "avg")]]), ("segment", [])] ∧
    getState exampleReg (setState exampleReg exampleVis aliasState).2
      = some [("metric", [[("agg", .str "count")]]), ("segment", [])] ∧
    getState protoReg (setState protoReg protoVis [("__proto__", .records [])]).2
      = some [] ∧
    ¬ LeftInverseAt exampleReg exampleVis [] ∧
    ¬ LeftInverseAt exampleReg exampleVis
        [("metric", .records []), ("segment", .records [])] ∧
    ¬ LeftInverseAt exampleReg exampleVis
        [("metric", .records [[("field", .str "bytes")]]), ("segment", .records [])] ∧
    ¬ LeftInverseAt exampleReg exampleVis
        [("metric", .records [[("agg", .str "avg")]]), ("segment", .records []),
         ("bogus", .records [])] ∧
    ¬ LeftInverseAt exampleReg exampleVis protoEntryState ∧
    ¬ LeftInverseAt exampleReg exampleVis aliasState ∧
    ¬ LeftInverseAt protoReg protoVis [("__proto__", .records [])] :=
  ⟨by decide, by decide, by decide, by decide, by decide, by decide, by decide,
   fun h => absurd (leftInverse_observation h "metric" "agg") (by decide),
   fun h => absurd (leftInverse_observation h "metric" "agg") (by decide),
   fun h => absurd (leftInverse_observation h "metric" "agg") (by decide),
   fun h => absurd (leftInverse_observation h "bogus" "agg") (by decide),
   fun h => absurd (leftInverse_observation h "metric" "__proto__") (by decide),
   fun h => absurd (leftInverse_observation h "metric" "agg") (by decide),
   fun h => absurd (leftInverse_observation h "__proto__" "agg") (by decide)⟩

/-- C2, amended. For a state `st` whose keys are exactly the registered category names,
none of them `__proto__`, each holding an array of records of its own with at least `min`
entries, every entry having every key of the category's `configDefaults` that does not
start with `$$` and no own property named `__proto__`: after `setState(st)`, `getState()`
returns `st` with the keys starting with `$$` removed from its records, as mappings. -/
theorem getState_leftInverse (reg : Registry) (vis : Vis) (st : StateArg)
    (hreg : reg.fetchOrder.Perm reg.all) (hinit : vis.Initialised reg)
    (hfit : StateFits reg vis st) : LeftInverseAt reg vis st := by
  obtain ⟨hk1, hplain, hk2, hlen, hcover, hnoproto⟩ := hfit
  have hit : ∀ c ∈ reg.all, readState st c.name ≠ StateValue.other := by
    intro c hc
    obtain ⟨entries, hent⟩ := Option.isSome_iff_exists.1 (hk2 c hc)
    rw [readState_of_ownRecords hent]
    intro h
    cases h
  obtain ⟨vis1, g1, g2⟩ := setState_ok reg vis st hreg hinit hit
  have hinit1 : vis1.Initialised reg := by
    intro c hc
    obtain ⟨cat, hcat⟩ := Option.isSome_iff_exists.1 (hinit c hc)
    obtain ⟨d, hd⟩ := Registry.byName_of_mem hc
    obtain ⟨built, extra, entries, e1, _⟩ := g2 c hc cat d hcat hd
    rw [e1]; rfl
  obtain ⟨flat, h1, h2⟩ := getState_ok reg vis1 hinit1 hplain
  refine ⟨vis1, flat, g1, h1, ?_⟩
  intro n
  by_cases hin : n ∈ reg.all.map Category.name
  · obtain ⟨c, hc, rfl⟩ := List.mem_map.1 hin
    obtain ⟨cat, hcat⟩ := Option.isSome_iff_exists.1 (hinit c hc)
    obtain ⟨d, hd⟩ := Registry.byName_of_mem hc
    obtain ⟨records, hent⟩ := Option.isSome_iff_exists.1 (hk2 c hc)
    obtain ⟨built, extra, entries, e1, e2, er, e3, _⟩ := g2 c hc cat d hcat hd
    have heq : entries = records := by
      apply er
      simp only [stateRecords, readState_of_ownRecords hent]
    subst heq
    have hl := hlen c hc cat hcat
    rw [hent] at hl
    simp only [Option.getD_some] at hl
    have hex : extra = [] := List.length_eq_zero.1 (by omega)
    subst hex
    rw [h2 c.name, if_pos hin, e1, get_of_ownRecords hent]
    simp only [Option.map_some', List.append_nil]
    show List.Forall₂ StrippedOf (built.map (fun cfg => pick cfg.fields notReserved)) entries
    rw [List.forall₂_map_left_iff]
    apply forall₂_of_map_eq built entries (f := Config.fields)
      (g := assign (defaults [] d.configDefaults)) e2
    intro a b hb hab k
    have hdef : Obj.get (defaults [] d.configDefaults) k = Obj.get d.configDefaults k := by
      rw [get_defaults]; simp [Obj.get]
    have hbproto : "__proto__" ∉ Obj.keys b := hnoproto c hc b (by rw [hent]; exact hb)
    rw [get_pick, hab, get_assign, hdef]
    by_cases hres1 : ReservedKey k
    · have hnr : ¬ notReserved k = true := fun h => (notReserved_iff k).1 h hres1
      rw [if_pos hres1, if_neg (fun h => hnr h.1)]
    · have hnr : notReserved k = true := (notReserved_iff k).2 hres1
      rw [if_neg hres1]
      by_cases hk : k = "__proto__"
      · rw [if_neg (fun h => h.2 hk), hk, (Obj.get_eq_none_iff b _).2 hbproto]
      · rw [if_pos ⟨hnr, hk⟩, if_neg hk]
        cases hb1 : Obj.get b k with
        | some v => rfl
        | none =>
          rw [Option.none_or]
          apply (Obj.get_eq_none_iff _ _).2
          intro hkd
          have := hcover c hc d hd b (by rw [hent]; exact hb) k hkd hres1
          rw [hb1] at this
          cases this
  · have hst : Obj.get st n = none :=
      (Obj.get_eq_none_iff st n).2 (fun hmem => hin (hk1 n hmem))
    rw [h2 n, if_neg hin, hst]
    trivial

/-- C2, amended, at `exampleVis` with a state whose records carry reserved keys: the
records `getState()` returns do not have them. -/
theorem getState_leftInverse_witness :
    exampleReg.fetchOrder.Perm exampleReg.all ∧ exampleVis.Initialised exampleReg ∧
    StateFits exampleReg exampleVis
      [("segment", .records [[("size", .num 9), ("$$hashKey", .num 1)]]),
       ("metric", .records
          [[("$$hashKey", .num 2), ("agg", .str "avg")], [("agg", .str "sum")]])] ∧
    getState exampleReg (setState exampleReg exampleVis
      [("segment", .records [[("size", .num 9), ("$$hashKey", .num 1)]]),
       ("metric", .records
          [[("$$hashKey", .num 2), ("agg", .str "avg")], [("agg", .str "sum")]])]).2
      = some [("metric", [[("agg", .str "avg")], [("agg", .str "sum")]]),
              ("segment", [[("size", .num 9)]])] ∧
    LeftInverseAt exampleReg exampleVis
      [("segment", .records [[("size", .num 9), ("$$hashKey", .num 1)]]),
       ("metric", .records
          [[("$$hashKey", .num 2), ("agg", .str "avg")], [("agg", .str "sum")]])] :=
  ⟨by decide, by decide, by decide, by decide,
    getState_leftInverse exampleReg exampleVis _ (by decide) (by decide) (by decide)⟩

/-! ## The `aggs` callback: pointer writes and the closed form of the loop -/

theorem Obj.set_set {β : Type} (o : Obj β) (k : String) (a b : β) :
    Obj.set (Obj.set o k a) k b = Obj.set o k b := by
  induction o with
  | nil => simp [Obj.set]
  | cons e rest ih =>
    by_cases h : e.1 = k
    · simp [Obj.set, h]
    · simp [Obj.set, h, ih]

theorem Obj.set_get_self {β : Type} (o : Obj β) (k : String) (v : β)
    (h : Obj.get o k = some v) : Obj.set o k v = o := by
  induction o with
  | nil => simp [Obj.get] at h
  | cons e rest ih =>
    by_cases hk : e.1 = k
    · simp only [Obj.get, hk, if_true, Option.some.injEq] at h
      simp only [Obj.set, hk, if_true]
      rw [← h, ← hk]
    · simp only [Obj.get, hk, if_false] at h
      simp only [Obj.set, hk, if_false, ih h]

theorem Obj.modify_of_get {β : Type} (o : Obj β) (k : String) (f : β → β) (x : β)
    (h : Obj.get o k = some x) : Obj.modify o k f = Obj.set o k (f x) := by
  simp only [Obj.modify, h]

theorem Dsl.at_nil (d : Dsl) : d.at [] = some d := by
  cases d <;> rfl

theorem Dsl.at_cons_node (fields : List (String × Dsl)) (p : String) (ps : List String)
    (child : Dsl) (h : Obj.get fields p = some child) :
    (Dsl.node fields).at (p :: ps) = child.at ps := by
  simp only [Dsl.at, h]

/-- A pointer that reads something points into an object: the shape of `root`. -/
theorem Dsl.at_cons_some {root : Dsl} {p : String} {ps : List String} {sub : Dsl}
    (h : root.at (p :: ps) = some sub) :
    ∃ fields child, root = .node fields ∧ Obj.get fields p = some child ∧
      child.at ps = some sub := by
  cases root with
  | leaf x => simp [Dsl.at] at h
  | node fields =>
    cases hg : Obj.get fields p with
    | none => simp [Dsl.at, hg] at h
    | some child =>
      refine ⟨fields, child, rfl, hg, ?_⟩
      simpa [Dsl.at, hg] using h

theorem Dsl.setAt_eq_replaceAt (root : Dsl) (path : List String) (cur : List (String × Dsl))
    (k : String) (v : Dsl) (h : root.at path = some (.node cur)) :
    root.setAt path k v = root.replaceAt path (.node (Obj.set cur k v)) := by
  induction path generalizing root with
  | nil =>
    rw [Dsl.at_nil] at h
    cases h
    rfl
  | cons p ps ih =>
    obtain ⟨fields, child, rfl, hg, hc⟩ := Dsl.at_cons_some h
    simp only [Dsl.setAt, Dsl.replaceAt, Obj.modify_of_get _ _ _ _ hg, ih child hc]

theorem Dsl.replaceAt_nil (d new : Dsl) : d.replaceAt [] new = new := by
  cases d <;> rfl

theorem Dsl.replaceAt_cons_node (fields : List (String × Dsl)) (p : String)
    (ps : List String) (child new : Dsl) (h : Obj.get fields p = some child) :
    (Dsl.node fields).replaceAt (p :: ps) new
      = .node (Obj.set fields p (child.replaceAt ps new)) := by
  simp only [Dsl.replaceAt, Obj.modify_of_get _ _ _ _ h]

theorem Dsl.at_replaceAt (root : Dsl) (path q : List String) (sub new : Dsl)
    (h : root.at path = some sub) :
    (root.replaceAt path new).at (path ++ q) = new.at q := by
  induction path generalizing root with
  | nil => rw [Dsl.replaceAt_nil, List.nil_append]
  | cons p ps ih =>
    obtain ⟨fields, child, rfl, hg, hc⟩ := Dsl.at_cons_some h
    rw [Dsl.replaceAt_cons_node _ _ _ _ _ hg, List.cons_append,
      Dsl.at_cons_node _ _ _ (child.replaceAt ps new) (by rw [Obj.get_set]; simp)]
    exact ih child hc

theorem Dsl.replaceAt_replaceAt (root : Dsl) (path : List String) (sub a b : Dsl)
    (h : root.at path = some sub) :
    (root.replaceAt path a).replaceAt path b = root.replaceAt path b := by
  induction path generalizing root with
  | nil => rw [Dsl.replaceAt_nil, Dsl.replaceAt_nil]
  | cons p ps ih =>
    obtain ⟨fields, child, rfl, hg, hc⟩ := Dsl.at_cons_some h
    have hg2 : Obj.get (Obj.set fields p (child.replaceAt ps a)) p
        = some (child.replaceAt ps a) := by rw [Obj.get_set]; simp
    rw [Dsl.replaceAt_cons_node _ _ _ _ _ hg, Dsl.replaceAt_cons_node _ _ _ _ _ hg2,
      Dsl.replaceAt_cons_node _ _ _ _ _ hg, Obj.set_set, ih child hc]

theorem Dsl.replaceAt_append (root : Dsl) (path q : List String) (sub new : Dsl)
    (h : root.at path = some sub) :
    root.replaceAt (path ++ q) new = root.replaceAt path (sub.replaceAt q new) := by
  induction path generalizing root with
  | nil =>
    rw [Dsl.at_nil] at h
    cases h
    rw [Dsl.replaceAt_nil, List.nil_append]
  | cons p ps ih =>
    obtain ⟨fields, child, rfl, hg, hc⟩ := Dsl.at_cons_some h
    rw [List.cons_append, Dsl.replaceAt_cons_node _ _ _ _ _ hg,
      Dsl.replaceAt_cons_node _ _ _ _ _ hg, ih child hc]

theorem Dsl.replaceAt_self (root : Dsl) (path : List String) (sub : Dsl)
    (h : root.at path = some sub) : root.replaceAt path sub = root := by
  induction path generalizing root with
  | nil =>
    rw [Dsl.at_nil] at h
    cases h
    rw [Dsl.replaceAt_nil]
  | cons p ps ih =>
    obtain ⟨fields, child, rfl, hg, hc⟩ := Dsl.at_cons_some h
    rw [Dsl.replaceAt_cons_node _ _ _ _ _ hg, ih child hc, Obj.set_get_self _ _ _ hg]

theorem replaceAt_aggs (cur : List (String × Dsl)) (old new : Dsl)
    (h : Obj.get cur "aggs" = some old) :
    (Dsl.node cur).replaceAt ["aggs"] new = .node (Obj.set cur "aggs" new) := by
  rw [Dsl.replaceAt_cons_node _ _ _ _ _ h, Dsl.replaceAt_nil]

theorem replaceAt_aggs_key (cur : List (String × Dsl)) (key : String) (old new : Dsl) :
    (Dsl.node (Obj.set cur "aggs" (.node [(key, old)]))).replaceAt ["aggs", key] new
      = .node (Obj.set cur "aggs" (.node [(key, new)])) := by
  have h1 : Obj.get (Obj.set cur "aggs" (Dsl.node [(key, old)])) "aggs"
      = some (Dsl.node [(key, old)]) := by rw [Obj.get_set]; simp
  have h2 : Obj.get [(key, old)] key = some old := by simp [Obj.get]
  rw [Dsl.replaceAt_cons_node _ _ _ _ _ h1, Dsl.replaceAt_cons_node _ _ _ _ _ h2,
    Dsl.replaceAt_nil, Obj.set_set]
  simp [Obj.set]

/-- One iteration of the callback, with the object `aggDsl` and the key in closed form. -/
theorem aggsStep_eq (env : JsEnv) (s : AggsLoop) (c : Config) :
    aggsStep env s c
      = { dsl := (s.dsl.setAt s.current "aggs" (.node [])).setAt (s.current ++ ["aggs"])
            (aggKey s.i) (.node (aggDslOf env c)),
          i := s.i + 1, current := s.current ++ ["aggs", aggKey s.i] } := by
  unfold aggsStep aggDslOf aggKey
  cases h : Obj.get c.fields "aggParams" with
  | none => rfl
  | some v => cases v <;> rfl

/-- The loop of the callback, started with `current` pointing to the object `cur`, leaves
in `dsl` that object replaced by its closed form `nestAggs`. -/
theorem aggsLoop_dsl (env : JsEnv) (cs : List Config) (root : Dsl) (path : List String) (i : Nat)
    (cur : List (String × Dsl)) (h : root.at path = some (.node cur)) :
    (cs.foldl (aggsStep env) { dsl := root, i := i, current := path }).dsl
      = root.replaceAt path (.node (nestAggs env cs i cur)) := by
  induction cs generalizing root path i cur with
  | nil => simp only [List.foldl_nil, nestAggs, Dsl.replaceAt_self _ _ _ h]
  | cons c rest ih =>
    -- after `current.aggs = {}`
    have h1 : root.setAt path "aggs" (.node [])
        = root.replaceAt path (.node (Obj.set cur "aggs" (.node []))) :=
      Dsl.setAt_eq_replaceAt root path cur "aggs" (.node []) h
    have h1at : (root.replaceAt path (.node (Obj.set cur "aggs" (.node [])))).at path
        = some (.node (Obj.set cur "aggs" (.node []))) := by
      have := Dsl.at_replaceAt root path [] (.node cur)
        (.node (Obj.set cur "aggs" (.node []))) h
      rw [List.append_nil, Dsl.at_nil] at this
      exact this
    have hget1 : Obj.get (Obj.set cur "aggs" (Dsl.node [])) "aggs" = some (Dsl.node []) := by
      rw [Obj.get_set]; simp
    have h1aggs : (root.replaceAt path (.node (Obj.set cur "aggs" (.node [])))).at
        (path ++ ["aggs"]) = some (.node []) := by
      rw [Dsl.at_replaceAt root path ["aggs"] (.node cur) _ h,
        Dsl.at_cons_node _ _ _ _ hget1, Dsl.at_nil]
    -- after `current.aggs[key] = aggDsl`
    have h2 : ((root.setAt path "aggs" (.node [])).setAt (path ++ ["aggs"]) (aggKey i)
        (.node (aggDslOf env c)))
        = root.replaceAt path
            (.node (Obj.set cur "aggs" (.node [(aggKey i, .node (aggDslOf env c))]))) := by
      rw [h1, Dsl.setAt_eq_replaceAt _ _ [] (aggKey i) (.node (aggDslOf env c)) h1aggs,
        Dsl.replaceAt_append _ path ["aggs"] _ _ h1at,
        Dsl.replaceAt_replaceAt root path _ _ _ h, replaceAt_aggs _ _ _ hget1, Obj.set_set]
      rfl
    have hstep : aggsStep env { dsl := root, i := i, current := path } c
        = { dsl := root.replaceAt path
              (.node (Obj.set cur "aggs" (.node [(aggKey i, .node (aggDslOf env c))]))),
            i := i + 1, current := path ++ ["aggs", aggKey i] } := by
      rw [aggsStep_eq, ← h2]
    have h2at0 : (root.replaceAt path
        (.node (Obj.set cur "aggs" (.node [(aggKey i, .node (aggDslOf env c))])))).at path
        = some (.node (Obj.set cur "aggs" (.node [(aggKey i, .node (aggDslOf env c))]))) := by
      have := Dsl.at_replaceAt root path [] (.node cur)
        (.node (Obj.set cur "aggs" (.node [(aggKey i, .node (aggDslOf env c))]))) h
      rw [List.append_nil, Dsl.at_nil] at this
      exact this
    have hget2 : Obj.get (Obj.set cur "aggs" (Dsl.node [(aggKey i, .node (aggDslOf env c))])) "aggs"
        = some (Dsl.node [(aggKey i, .node (aggDslOf env c))]) := by
      rw [Obj.get_set]; simp
    have h2at : (root.replaceAt path
        (.node (Obj.set cur "aggs" (.node [(aggKey i, .node (aggDslOf env c))])))).at
        (path ++ ["aggs", aggKey i]) = some (.node (aggDslOf env c)) := by
      rw [Dsl.at_replaceAt root path _ (.node cur) _ h, Dsl.at_cons_node _ _ _ _ hget2,
        Dsl.at_cons_node _ _ _ (.node (aggDslOf env c)) (by simp [Obj.get]), Dsl.at_nil]
    rw [List.foldl_cons, hstep, ih _ _ _ _ h2at,
      Dsl.replaceAt_append _ path ["aggs", aggKey i] _ _ h2at0,
      Dsl.replaceAt_replaceAt root path _ _ _ h, replaceAt_aggs_key]
    rfl

/-- The value the callback returns, in closed form. -/
theorem aggsCallback_eq (env : JsEnv) (configs : List Config) :
    aggsCallback env configs = .node (aggsLevel env configs 0) := by
  unfold aggsCallback
  simp only
  rw [aggsLoop_dsl env configs (.node []) [] 0 [] rfl, Dsl.replaceAt_nil]
  cases configs with
  | nil => rfl
  | cons c rest => rfl

theorem Dsl.at_leaf_cons (x : Option Val) (p : String) (ps : List String) :
    (Dsl.leaf x).at (p :: ps) = none := rfl

theorem Dsl.at_append (d : Dsl) (p q : List String) :
    d.at (p ++ q) = (d.at p).bind (fun x => x.at q) := by
  induction p generalizing d with
  | nil => rw [List.nil_append, Dsl.at_nil]; rfl
  | cons a ps ih =>
    cases d with
    | leaf x => rfl
    | node fields =>
      cases hg : Obj.get fields a with
      | none => simp [Dsl.at, hg]
      | some child =>
        rw [List.cons_append, Dsl.at_cons_node _ _ _ _ hg, Dsl.at_cons_node _ _ _ _ hg]
        exact ih child

theorem nestAggs_get_aggs (env : JsEnv) (c : Config) (rest : List Config) (j : Nat)
    (cur : List (String × Dsl)) :
    Obj.get (nestAggs env (c :: rest) j cur) "aggs" = some (.node (aggsLevel env (c :: rest) j)) := by
  simp only [nestAggs, aggsLevel, Obj.get_set, if_true]

/-- The mapping `k` levels below the top one is the mapping built for the configs from
the `k`-th on. -/
theorem at_levelPath (env : JsEnv) (k : Nat) (cs : List Config) (i : Nat) (hk : k < cs.length) :
    (Dsl.node (aggsLevel env cs i)).at (levelPathFrom i k)
      = some (.node (aggsLevel env (cs.drop k) (i + k))) := by
  induction k generalizing cs i with
  | zero => simp [levelPathFrom, Dsl.at]
  | succ k ih =>
    cases cs with
    | nil => simp at hk
    | cons c rest =>
      cases rest with
      | nil => simp at hk
      | cons c1 rest1 =>
        have hk1 : k < (c1 :: rest1).length := by simpa using hk
        have hg : Obj.get (aggsLevel env (c :: c1 :: rest1) i) (aggKey i)
            = some (.node (nestAggs env (c1 :: rest1) (i + 1) (aggDslOf env c))) := by
          simp [aggsLevel, Obj.get]
        rw [levelPathFrom, Dsl.at_cons_node _ _ _ _ hg,
          Dsl.at_cons_node _ _ _ _ (nestAggs_get_aggs env c1 rest1 (i + 1) (aggDslOf env c)),
          ih (c1 :: rest1) (i + 1) hk1]
        simp only [List.drop_succ_cons]
        congr 3
        omega

theorem getLast?_cons_cons {α : Type} (a b : α) (l : List α) :
    (a :: b :: l).getLast? = (b :: l).getLast? := by
  simp [List.getLast?_cons_cons]

/-- There is nothing under `_agg_<k>` at a depth `k` from the number of configs on, when
the key of the last config is not `aggs`. -/
theorem at_nodePath_none (env : JsEnv) (k : Nat) (cs : List Config) (i : Nat)
    (hk : cs.length ≤ k)
    (hlast : ∀ c, cs.getLast? = some c → propertyKey env (Obj.get c.fields "agg") ≠ "aggs") :
    (Dsl.node (aggsLevel env cs i)).at (levelPathFrom i k ++ [aggKey (i + k)]) = none := by
  induction k generalizing cs i with
  | zero =>
    cases cs with
    | nil => simp [levelPathFrom, aggsLevel, Dsl.at, Obj.get]
    | cons c rest => simp at hk
  | succ k ih =>
    cases cs with
    | nil => simp [levelPathFrom, aggsLevel, Dsl.at, Obj.get]
    | cons c rest =>
      have hk1 : rest.length ≤ k := by simpa using hk
      have hg : Obj.get (aggsLevel env (c :: rest) i) (aggKey i)
          = some (.node (nestAggs env rest (i + 1) (aggDslOf env c))) := by
        simp [aggsLevel, Obj.get]
      have hidx : i + (k + 1) = i + 1 + k := by omega
      rw [levelPathFrom, List.cons_append, List.cons_append, Dsl.at_cons_node _ _ _ _ hg, hidx]
      cases rest with
      | nil =>
        have hpk : propertyKey env (Obj.get c.fields "agg") ≠ "aggs" := hlast c rfl
        have hna : Obj.get (aggDslOf env c) "aggs" = none := by
          unfold aggDslOf
          rw [Obj.get_put]
          by_cases hp : propertyKey env (Obj.get c.fields "agg") = "__proto__"
          · rw [if_pos hp]; rfl
          · rw [if_neg hp, if_neg hpk]; rfl
        simp only [nestAggs, Dsl.at, hna]
      | cons c1 rest1 =>
        rw [Dsl.at_cons_node _ _ _ _ (nestAggs_get_aggs env c1 rest1 (i + 1) (aggDslOf env c))]
        exact ih (c1 :: rest1) (i + 1) hk1
          (fun c2 hc2 => hlast c2 (by rw [getLast?_cons_cons]; exact hc2))

/-- The node under `_agg_<k>` at depth `k` is the closed form built for the `k`-th config
and the configs after it. -/
theorem at_nodePath (env : JsEnv) (configs : List Config) (k : Nat) (config : Config)
    (hk : configs[k]? = some config) :
    (aggsCallback env configs).at (nodePath k)
      = some (.node (nestAggs env (configs.drop (k + 1)) (k + 1) (aggDslOf env config))) := by
  obtain ⟨hlt, hc⟩ := List.getElem?_eq_some.1 hk
  have hdrop : configs.drop k = config :: configs.drop (k + 1) := by
    rw [List.drop_eq_getElem_cons hlt, hc]
  rw [aggsCallback_eq, nodePath, Dsl.at_append, at_levelPath env k configs 0 hlt, hdrop]
  simp only [aggsLevel, Nat.zero_add]
  show (Dsl.node [(aggKey k, Dsl.node (nestAggs env (configs.drop (k + 1)) (k + 1)
    (aggDslOf env config)))]).at [aggKey k] = _
  rw [Dsl.at_cons_node _ _ _ (.node (nestAggs env (configs.drop (k + 1)) (k + 1) (aggDslOf env config)))
    (by simp [Obj.get]), Dsl.at_nil]

theorem aggDslOf_get_aggs (env : JsEnv) (c : Config)
    (h : propertyKey env (Obj.get c.fields "agg") ≠ "aggs") :
    Obj.get (aggDslOf env c) "aggs" = none := by
  unfold aggDslOf
  rw [Obj.get_put]
  by_cases hp : propertyKey env (Obj.get c.fields "agg") = "__proto__"
  · rw [if_pos hp]; rfl
  · rw [if_neg hp, if_neg h]; rfl

theorem aggDslOf_of_name (env : JsEnv) (c : Config) (name : String)
    (hagg : Obj.get c.fields "agg" = some (.str name)) (hproto : name ≠ "__proto__") :
    aggDslOf env c = [(name, paramsValue env (Obj.get c.fields "aggParams"))] := by
  unfold aggDslOf
  rw [hagg]
  show Obj.put [] name _ = _
  rw [Obj.put_of_ne _ _ _ hproto]
  rfl

/-- C11, counterexample. For a last config whose aggregation type is named `aggs` the
tree is not a chain of as many levels as there are configs: the last node is
`{ aggs: aggParams }`, so it has an `aggs` key, holding the object `{ field: 'p7' }` for
`aggsNamedConfig`; and for `nestedParamsConfig`, whose parameters are
`{ _agg_1: { terms: undefined } }`, there is a node under `_agg_1` at depth 1 although
there is one config. -/
theorem aggs_not_chain_for_aggs :
    (((aggsCallback exampleEnv [aggsNamedConfig]).at (nodePath 0)).bind Dsl.keys
        = some ["aggs"] ∧
      ((aggsCallback exampleEnv [aggsNamedConfig]).at (nodePath 0 ++ ["aggs"])).bind Dsl.keys
        = some ["field"] ∧
      ¬ ChainOfDepth exampleEnv [aggsNamedConfig]) ∧
    (((aggsCallback exampleEnv [nestedParamsConfig]).at (nodePath 1)).bind Dsl.keys
        = some ["terms"] ∧
      ¬ ChainOfDepth exampleEnv [nestedParamsConfig]) :=
  ⟨⟨by decide, by decide,
    fun h => absurd (congrArg Option.isSome (h.2.2.2 0 rfl)) (by decide)⟩,
   ⟨by decide,
    fun h => absurd (congrArg Option.isSome (h.2.2.1 1 (Nat.le_refl 1))) (by decide)⟩⟩

/-- C11, amended. For every config list the `aggs` callback is run on whose last config
has a key `config.agg` other than `aggs`: with no config the callback returns the empty
mapping; for every `k` below the number of configs the mapping at depth `k` of the returned
tree has exactly one key, the string `_agg_` followed by the decimal `k`, holding a node;
there is nothing under `_agg_<k>` at any depth `k` from the number of configs on, and the
last node has no `aggs` key, so the chain has exactly as many levels as there are
configs. -/
theorem aggs_depth_and_numbering (env : JsEnv) (configs : List Config)
    (hlast : ∀ c ∈ configs.getLast?, propertyKey env (Obj.get c.fields "agg") ≠ "aggs") :
    ChainOfDepth env configs := by
  refine ⟨?_, ?_, ?_, ?_⟩
  · intro h
    rw [h, aggsCallback_eq]
    rfl
  · intro k hk
    rw [aggsCallback_eq, at_levelPath env k configs 0 hk, List.drop_eq_getElem_cons hk]
    refine ⟨nestAggs env (configs.drop (k + 1)) (0 + k + 1) (aggDslOf env configs[k]), ?_⟩
    simp only [aggsLevel, Nat.zero_add]
  · intro k hk
    rw [aggsCallback_eq, nodePath]
    have := at_nodePath_none env k configs 0 hk (fun c hc => hlast c hc)
    rw [Nat.zero_add] at this
    exact this
  · intro k hk
    have hlt : k < configs.length := by omega
    have hdrop : configs.drop (k + 1) = [] := List.drop_eq_nil_iff.2 (by omega)
    have hl : configs.getLast? = some configs[k] := by
      rw [List.getLast?_eq_getElem?]
      have : configs.length - 1 = k := by omega
      rw [this]
      exact List.getElem?_eq_getElem hlt
    rw [Dsl.at_append, at_nodePath env configs k configs[k] (List.getElem?_eq_getElem hlt), hdrop]
    simp only [nestAggs, Option.some_bind, Dsl.at,
      aggDslOf_get_aggs env configs[k] (hlast _ hl)]

/-- C11, amended, at `keyedConfigs`, nine configs of which the first is named `aggs` and
the last `count`: nine levels `_agg_0` to `_agg_8`, whose nodes have the key the property
`agg` converts to and, except the last, the key `aggs`. -/
theorem aggs_depth_and_numbering_witness :
    (∀ c ∈ keyedConfigs.getLast?,
      propertyKey exampleEnv (Obj.get c.fields "agg") ≠ "aggs") ∧
    (List.range 9).map (fun k =>
        ((aggsCallback exampleEnv keyedConfigs).at (levelPathFrom 0 k)).bind Dsl.keys)
      = [some ["_agg_0"], some ["_agg_1"], some ["_agg_2"], some ["_agg_3"], some ["_agg_4"],
         some ["_agg_5"], some ["_agg_6"], some ["_agg_7"], some ["_agg_8"]] ∧
    (List.range 10).map (fun k =>
        ((aggsCallback exampleEnv keyedConfigs).at (nodePath k)).bind Dsl.keys)
      = [some ["aggs"], some ["undefined", "aggs"], some ["null", "aggs"],
         some ["true", "aggs"], some ["false", "aggs"], some ["-5", "aggs"],
         some ["1e+21", "aggs"], some ["[object Object]", "aggs"], some ["count"], none] ∧
    ChainOfDepth exampleEnv keyedConfigs :=
  ⟨by decide, by decide, by decide,
    aggs_depth_and_numbering exampleEnv keyedConfigs (by decide)⟩

/-- C12, counterexample. For a config whose aggregation type is named `aggs` the node
cannot have the stated contents: as the only config, its node is `{ aggs: aggParams }`, so
the last node has an `aggs` key; followed by another config, its node is
`{ aggs: { _agg_1: ... } }`, the write of `current.aggs` having replaced `aggParams`.  For a
config whose aggregation type is named `__proto__` the node is `{}`:
`aggDsl['__proto__'] = aggParams` creates no property. -/
theorem aggs_node_contents_fails :
    (Obj.get aggsNamedConfig.fields "agg" = some (.str "aggs") ∧
      ((aggsCallback exampleEnv [aggsNamedConfig]).at (nodePath 0)).bind Dsl.keys
        = some ["aggs"] ∧
      ¬ NodeContents exampleEnv [aggsNamedConfig] 0 "aggs"
          (paramsValue exampleEnv (Obj.get aggsNamedConfig.fields "aggParams"))) ∧
    (((aggsCallback exampleEnv [aggsNamedConfig, countConfig]).at (nodePath 0)).bind Dsl.keys
        = some ["aggs"] ∧
      ((aggsCallback exampleEnv [aggsNamedConfig, countConfig]).at
        (nodePath 0 ++ ["aggs"])).bind Dsl.keys = some ["_agg_1"] ∧
      ¬ NodeContents exampleEnv [aggsNamedConfig, countConfig] 0 "aggs"
          (paramsValue exampleEnv (Obj.get aggsNamedConfig.fields "aggParams"))) ∧
    (Obj.get protoNamedConfig.fields "agg" = some (.str "__proto__") ∧
      ((aggsCallback exampleEnv [protoNamedConfig]).at (nodePath 0)).bind Dsl.keys
        = some [] ∧
      ¬ NodeContents exampleEnv [protoNamedConfig] 0 "__proto__"
          (paramsValue exampleEnv (Obj.get protoNamedConfig.fields "aggParams"))) := by
  refine ⟨⟨by decide, by decide, ?_⟩, ⟨by decide, by decide, ?_⟩, ⟨by decide, by decide, ?_⟩⟩
  · rintro ⟨fields, _, h2, _, h4⟩
    have h5 : Obj.get fields "aggs" = none := (h4 rfl).2
    rw [h5] at h2
    cases h2
  · rintro ⟨fields, _, h2, h3, _⟩
    obtain ⟨_, child, h5⟩ := h3 (by decide)
    have h6 : Dsl.node [(aggKey 1, Dsl.node child)]
        = Dsl.node [("field", Dsl.leaf (some (.str "p7")))] :=
      Option.some.inj (h5.symm.trans h2)
    injection h6 with h6
    injection h6 with h6 _
    injection h6 with h6 _
    exact absurd h6 (by decide)
  · rintro ⟨fields, h1, h2, _, _⟩
    rw [at_nodePath exampleEnv [protoNamedConfig] 0 protoNamedConfig rfl] at h1
    injection h1 with h1
    injection h1 with h1
    have h3 : Obj.get fields "__proto__" = none := by
      rw [← h1]
      rfl
    rw [h3] at h2
    cases h2

/-- C12, amended. For every config list and every `k` below its length, when the
aggregation type name `configs[k].agg` is neither `aggs` nor `__proto__`: the node stored
under `_agg_<k>` maps the key `configs[k].agg` to `configs[k].aggParams`; when `k` is not
last its keys are that key and `aggs`, and `aggs` holds the single child `_agg_<k+1>`; when
`k` is last that key is its only key and it has no `aggs` key. -/
theorem aggs_node_contents (env : JsEnv) (configs : List Config) (k : Nat) (config : Config)
    (name : String) (hk : configs[k]? = some config)
    (hagg : Obj.get config.fields "agg" = some (.str name))
    (hname : name ≠ "aggs") (hproto : name ≠ "__proto__") :
    NodeContents env configs k name (paramsValue env (Obj.get config.fields "aggParams")) := by
  obtain ⟨hlt, _⟩ := List.getElem?_eq_some.1 hk
  refine ⟨_, at_nodePath env configs k config hk, ?_⟩
  rw [aggDslOf_of_name env config name hagg hproto]
  cases hrest : configs.drop (k + 1) with
  | nil =>
    have hlen : configs.length ≤ k + 1 := List.drop_eq_nil_iff.1 hrest
    refine ⟨by simp [nestAggs, Obj.get], fun h => absurd h (by omega), fun _ => ?_⟩
    exact ⟨by simp [nestAggs, Obj.keys], by simp [nestAggs, Obj.get, hname]⟩
  | cons c1 rest1 =>
    have hlen : k + 1 < configs.length := by
      by_contra hnot
      have := List.drop_eq_nil_iff.2 (show configs.length ≤ k + 1 by omega)
      rw [hrest] at this
      cases this
    refine ⟨by simp [nestAggs, Obj.get, Obj.set, hname], fun _ => ?_,
      fun h => absurd h (by omega)⟩
    refine ⟨by simp [nestAggs, Obj.keys, Obj.set, hname],
      nestAggs env rest1 (k + 1 + 1) (aggDslOf env c1), ?_⟩
    simp [nestAggs, Obj.get, Obj.set, hname]

/-- C12, amended, at the first of a `count` config and a `terms` config. -/
theorem aggs_node_contents_witness :
    ([countConfig, termsConfig] : List Config)[0]? = some countConfig ∧
    Obj.get countConfig.fields "agg" = some (.str "count") ∧
    "count" ≠ "aggs" ∧ "count" ≠ "__proto__" ∧
    ((aggsCallback exampleEnv [countConfig, termsConfig]).at (nodePath 0)).bind Dsl.keys
      = some ["count", "aggs"] ∧
    NodeContents exampleEnv [countConfig, termsConfig] 0 "count"
      (paramsValue exampleEnv (Obj.get countConfig.fields "aggParams")) :=
  ⟨by decide, by decide, by decide, by decide, by decide,
    aggs_node_contents exampleEnv [countConfig, termsConfig] 0 countConfig "count"
      (by decide) (by decide) (by decide) (by decide)⟩

/-! ## `afterESResp` -/

theorem slot_initConfigCategory (typeDef : Option TypeDef) (c : Category)
    (cat : Option CatState) (vis : Vis) (n : String) :
    (_initConfigCategory typeDef c cat vis).slot n =
      if c.name = n then
        some ⟨match typeDef with
          | some td => ((Obj.get td.config c.name).bind (fun o => o.min)).getD c.min
          | none => (cat.map (fun c => c.min)).getD 0, c.configDefaults, []⟩
      else vis.slot n := by
  simp only [_initConfigCategory, Vis.slot, Obj.get_set]

/-- The loop `configCats.forEach(... vis._initConfigCategory(category, vis[category.name]))`
leaves the slots of other names alone. -/
theorem initAll_slot_other (typeDef : Option TypeDef) (cs : List Category) (vis : Vis)
    (n : String) (hn : n ∉ cs.map Category.name) :
    (cs.foldl (fun vis category =>
      _initConfigCategory typeDef category (vis.slot category.name) vis) vis).slot n
      = vis.slot n := by
  induction cs generalizing vis with
  | nil => rfl
  | cons c rest ih =>
    simp only [List.map_cons, List.mem_cons, not_or] at hn
    rw [List.foldl_cons, ih _ hn.2, slot_initConfigCategory, if_neg (fun h => hn.1 h.symm)]

/-- With a type definition, the loop gives every registered name a slot with no config,
the same whatever the visualization was before. -/
theorem initAll_slot (td : TypeDef) (cs : List Category) (vis vis1 : Vis)
    (n : String) (hn : n ∈ cs.map Category.name) :
    ∃ cat, cat.configs = [] ∧
      (cs.foldl (fun vis category =>
        _initConfigCategory (some td) category (vis.slot category.name) vis) vis).slot n
        = some cat ∧
      (cs.foldl (fun vis category =>
        _initConfigCategory (some td) category (vis.slot category.name) vis) vis1).slot n
        = some cat := by
  induction cs generalizing vis vis1 with
  | nil => simp at hn
  | cons c rest ih =>
    by_cases hin : n ∈ rest.map Category.name
    · simp only [List.foldl_cons]
      exact ih _ _ hin
    · have hc : c.name = n := by
        simp only [List.map_cons, List.mem_cons] at hn
        rcases hn with h | h
        · exact h.symm
        · exact absurd h hin
      refine ⟨⟨((Obj.get td.config c.name).bind (fun o => o.min)).getD c.min,
        c.configDefaults, []⟩, rfl, ?_, ?_⟩
      · rw [List.foldl_cons, initAll_slot_other _ _ _ _ hin, slot_initConfigCategory, if_pos hc]
      · rw [List.foldl_cons, initAll_slot_other _ _ _ _ hin, slot_initConfigCategory, if_pos hc]

/-- On a visualization whose registered slots are all empty, `_fillConfigsToMinimum`
leaves in each as many default configs as its `min`. -/
theorem fill_of_empty (reg : Registry) (vis : Vis) (hreg : reg.fetchOrder.Perm reg.all)
    (hempty : ∀ c ∈ reg.all, ∃ cat, vis.slot c.name = some cat ∧ cat.configs = []) :
    ∃ vis1, _fillConfigsToMinimum reg vis = (some (), vis1) ∧
      ∀ c ∈ reg.all, ∀ cat, vis.slot c.name = some cat →
        ∃ cat1 d, vis1.slot c.name = some cat1 ∧ reg.byName c.name = some d ∧
          cat1.min = cat.min ∧
          cat1.configs.map Config.fields
            = List.replicate cat.min (defaults [] d.configDefaults) := by
  have hinit : vis.Initialised reg := by
    intro c hc
    obtain ⟨cat, hcat, _⟩ := hempty c hc
    rw [hcat]; rfl
  obtain ⟨vis1, h1, _, h3⟩ := fill_ok reg vis hreg hinit
  refine ⟨vis1, h1, ?_⟩
  intro c hc cat hcat
  obtain ⟨cat0, hcat0, hnil⟩ := hempty c hc
  rw [hcat] at hcat0
  cases hcat0
  obtain ⟨d, hd⟩ := Registry.byName_of_mem hc
  obtain ⟨extra, e1, _, e3, e4⟩ := (h3 c.name).2 cat hcat
  have hlen := e3 (List.mem_map_of_mem _ hc)
  refine ⟨_, d, e1, hd, rfl, ?_⟩
  simp only [hnil, List.nil_append, List.length_nil, Nat.sub_zero] at hlen ⊢
  apply List.eq_replicate_iff.2
  refine ⟨by simpa using hlen, ?_⟩
  intro r hr
  obtain ⟨e, he, rfl⟩ := List.mem_map.1 hr
  obtain ⟨⟨d1, hd1, hf⟩, _⟩ := e4 e he
  rw [hd] at hd1
  cases hd1
  exact hf

/-- What `afterESResp` does when it re-initialises the slots for a registered type and
there is no state to set. -/
theorem afterESResp_refresh (reg : Registry) (typeDefs : List TypeDef)
    (parse : String → Parsed) (self : VisObject) (td : TypeDef)
    (hreg : reg.fetchOrder.Perm reg.all)
    (htd : typeDefByName typeDefs self.typeName = some td) (hnew : self.NeedsRefresh)
    (hstate : ∀ json ∈ self.stateJSON, parse json = .throws) :
    ∃ self1, afterESResp reg typeDefs parse self = (some (), self1) ∧
      ∀ c ∈ reg.all, ∃ cat0 cat1 d,
        (reg.all.foldl (fun vis category =>
          _initConfigCategory (some td) category (vis.slot category.name) vis) self.vis).slot
            c.name = some cat0 ∧
        self1.vis.slot c.name = some cat1 ∧ reg.byName c.name = some d ∧
        cat1.configs.map Config.fields
          = List.replicate cat0.min (defaults [] d.configDefaults) ∧
        cat1.min = cat0.min := by
  have hr : (match self.typeDef with
      | none => true
      | some old => self.typeName != old.name) = true := by
    cases hdef : self.typeDef with
    | none => rfl
    | some old => simpa using hnew old hdef
  have hst : (match self.stateJSON with
      | none => (none : Option StateArg)
      | some json =>
        if json = "" then none
        else match parse json with
          | .state st => some st
          | _ => none) = none := by
    cases hj : self.stateJSON with
    | none => rfl
    | some json =>
      have := hstate json hj
      simp only [this]
      split <;> rfl
  have hempty : ∀ c ∈ reg.all, ∃ cat,
      (reg.all.foldl (fun vis category =>
        _initConfigCategory (some td) category (vis.slot category.name) vis) self.vis).slot
          c.name = some cat ∧ cat.configs = [] := by
    intro c hc
    obtain ⟨cat, hnil, h1, _⟩ :=
      initAll_slot td reg.all self.vis self.vis c.name (List.mem_map_of_mem _ hc)
    exact ⟨cat, h1, hnil⟩
  obtain ⟨vis1, hfill, hslots⟩ := fill_of_empty reg _ hreg hempty
  refine ⟨{ self with typeDef := some td, vis := vis1 }, ?_, ?_⟩
  · simp only [afterESResp, hr, if_true, htd, hst, hfill]
  · intro c hc
    obtain ⟨cat0, hcat0, _⟩ := hempty c hc
    obtain ⟨cat1, d, h1, hd, hmin, hf⟩ := hslots c hc cat0 hcat0
    exact ⟨cat0, cat1, d, hcat0, h1, hd, hf, hmin⟩

/-- What `DegradesToDefaults` lets one observe: `afterESResp` returns, and the config
lists it leaves are those of a newly created visualization of the type. -/
theorem degradesToDefaults_observation {reg : Registry} {typeDefs : List TypeDef}
    {parse : String → Parsed} {self : VisObject}
    (h : DegradesToDefaults reg typeDefs parse self) :
    (afterESResp reg typeDefs parse self).1 = some () ∧
    ∀ c ∈ reg.all,
      ((afterESResp reg typeDefs parse self).2.vis.slot c.name).map
          (fun cat => cat.configs.map Config.fields)
        = ((afterESResp reg typeDefs parse (newVisObject self.typeName)).2.vis.slot c.name).map
          (fun cat => cat.configs.map Config.fields) := by
  obtain ⟨self1, h1, h2⟩ := h
  rw [h1]
  refine ⟨rfl, ?_⟩
  intro c hc
  obtain ⟨cat, d, hs, _, _, hfresh⟩ := h2 c hc
  rw [hfresh]
  show (self1.vis.slot c.name).map _ = _
  rw [hs]
  rfl

/-- C13, counterexample. With `{not json` as `stateJSON`: (a) loaded into a visualization
whose `typeDef` is already that of its `typeName`, `afterESResp` re-initialises nothing and
sets no state, so the `metric` list keeps its edited config where a new visualization has
the default one; (b) loaded into a visualization of an unregistered type, `afterESResp`
throws on `vis.typeDef.listeners`. -/
theorem malformed_state_not_defaults :
    exampleParse "\x7bnot json" = .throws ∧
    ((afterESResp exampleReg exampleTypeDefs exampleParse loadedObject).1 = some () ∧
      ((afterESResp exampleReg exampleTypeDefs exampleParse loadedObject).2.vis.slot
        "metric").map (fun cat => cat.configs.map Config.fields)
        = some [[("agg", .str "avg")]] ∧
      ((afterESResp exampleReg exampleTypeDefs exampleParse
        (newVisObject "histogram")).2.vis.slot "metric").map
          (fun cat => cat.configs.map Config.fields)
        = some [[("agg", .str "count")]]) ∧
    ¬ DegradesToDefaults exampleReg exampleTypeDefs exampleParse loadedObject ∧
    (afterESResp exampleReg exampleTypeDefs exampleParse unknownTypeObject).1 = none ∧
    ¬ DegradesToDefaults exampleReg exampleTypeDefs exampleParse unknownTypeObject :=
  ⟨by decide, by decide,
   fun h => absurd ((degradesToDefaults_observation h).2 ⟨"metric", 1, [("agg", .str "count")]⟩
      (by decide)) (by decide),
   by decide,
   fun h => absurd (degradesToDefaults_observation h).1 (by decide)⟩

/-- C13, amended. For every `stateJSON` string that fails to parse, loaded into a
visualization of a registered type that has no type definition cached or one of another
type (so that `afterESResp` re-initialises every category): `afterESResp` returns, and every
category's config list is then as many configs as the category's `min`, each with the
fields of `configDefaults`, the same lists as those of a newly created visualization of
that type. -/
theorem afterESResp_malformed_degrades (reg : Registry) (typeDefs : List TypeDef)
    (parse : String → Parsed) (self : VisObject) (json : String) (td : TypeDef)
    (hreg : reg.fetchOrder.Perm reg.all) (hjson : self.stateJSON = some json)
    (hparse : parse json = .throws)
    (htd : typeDefByName typeDefs self.typeName = some td) (hnew : self.NeedsRefresh) :
    DegradesToDefaults reg typeDefs parse self := by
  have hstate : ∀ j ∈ self.stateJSON, parse j = .throws := by
    intro j hj
    rw [hjson] at hj
    cases hj
    exact hparse
  obtain ⟨self1, h1, h2⟩ := afterESResp_refresh reg typeDefs parse self td hreg htd hnew hstate
  obtain ⟨fresh1, g1, g2⟩ := afterESResp_refresh reg typeDefs parse (newVisObject self.typeName)
    td hreg htd (fun old hold => by cases hold) (fun j hj => by cases hj)
  refine ⟨self1, h1, ?_⟩
  intro c hc
  obtain ⟨cat0, cat1, d, hs0, hs1, hd, hf, hmin⟩ := h2 c hc
  obtain ⟨catF0, catF1, dF, hsF0, hsF1, hdF, hfF, _⟩ := g2 c hc
  obtain ⟨cat, _, e1, e2⟩ := initAll_slot td reg.all self.vis (newVisObject self.typeName).vis
    c.name (List.mem_map_of_mem _ hc)
  rw [e1] at hs0
  rw [e2] at hsF0
  cases hs0
  cases hsF0
  rw [hd] at hdF
  cases hdF
  refine ⟨cat1, d, hs1, hd, by rw [hmin]; exact hf, ?_⟩
  rw [g1]
  show (fresh1.vis.slot c.name).map _ = _
  rw [hsF1, hf, ← hfF]
  rfl

/-- C13, amended, at `unloadedObject`: no `typeDef` yet, leftover slots, `{not json`. -/
theorem afterESResp_malformed_degrades_witness :
    exampleReg.fetchOrder.Perm exampleReg.all ∧
    unloadedObject.stateJSON = some "\x7bnot json" ∧
    exampleParse "\x7bnot json" = .throws ∧
    typeDefByName exampleTypeDefs unloadedObject.typeName
      = some ⟨"histogram", [("segment", ⟨some 1⟩)]⟩ ∧
    unloadedObject.NeedsRefresh ∧
    DegradesToDefaults exampleReg exampleTypeDefs exampleParse unloadedObject :=
  ⟨by decide, by decide, by decide, by decide, by decide,
    afterESResp_malformed_degrades exampleReg exampleTypeDefs exampleParse unloadedObject
      "\x7bnot json" ⟨"histogram", [("segment", ⟨some 1⟩)]⟩
      (by decide) (by decide) (by decide) (by decide) (by decide)⟩


end SavedVis
